import Mathlib

/-!
Verification development for the actson JSON parser (event-based,
non-blocking JSON parsing).  The repository's `src/` holds only the crate
root documentation (`lib.rs`) and the integration tests (`tests/test.rs`);
the parser core (`parser.rs`, `event.rs`, `feeder.rs`, `options.rs`) is not
present.  The event-producing state machine below is therefore modelled
from the specification (sections 3, 4.A, 4.E, 4.F, 4.G, 4.H and 7 of the
spec), and the concrete scenarios are checked against the expectations
recorded in `tests/test.rs` and the doctests of `lib.rs`.

Bytes are modelled as natural numbers (values below 256 in all inputs of
interest).  Machine integers do not occur in the modelled core: the parser
keeps numbers as raw text and only the (out of scope here) accessors
convert them.
-/

namespace Actson

/-- Modelled from the spec §3: the closed set of error kinds
(`ParseErrorKind` in `event.rs`, absent from `src/`). -/
inductive ParseErrorKind where
  | syntaxError
  | illegalCharacter
  | invalidUtf8
  | numberOutOfRange
  | maxDepthExceeded
  | noMoreInput
  | invalidEscape
deriving DecidableEq, Repr

/-- Modelled from the spec §3: the closed set of events
(`JsonEvent` in `event.rs`, absent from `src/`). -/
inductive JsonEvent where
  | needMoreInput
  | startObject
  | endObject
  | startArray
  | endArray
  | fieldName
  | valueString
  | valueInt
  | valueFloat
  | valueTrue
  | valueFalse
  | valueNull
  | eof
  | error (kind : ParseErrorKind)
deriving DecidableEq, Repr

/-- Modelled from the spec §3: a container-stack frame. -/
inductive Frame where
  | object
  | array
deriving DecidableEq, Repr

/-- Modelled from the spec §3 and §4.E: the structural mode of the parser.
`arrFirst` is the `InArrayAfterValue`-with-empty-flag state right after a
`[`; `objMustKey` is `InObjectBeforeKey` with the key required (after a
comma); `done` is the state after a complete top-level value in
non-streaming mode. -/
inductive Mode where
  | beforeValue
  | objFirstKey
  | objMustKey
  | objAfterKey
  | objAfterValue
  | arrFirst
  | arrAfterValue
  | done
deriving DecidableEq, Repr

/-- Modelled from the spec §4.F: phases of the number sub-automaton. -/
inductive NumPhase where
  | sign
  | zero
  | intd
  | point
  | fracd
  | emark
  | esign
  | expd
deriving DecidableEq, Repr

/-- A number phase at which the token read so far is a syntactically
complete number (spec §4.F, termination rule). -/
def NumPhase.complete : NumPhase → Bool
  | .zero | .intd | .fracd | .expd => true
  | _ => false

/-- Spec §4.F classification: fractional digits or an exponent make the
number a float. -/
def NumPhase.isFloat : NumPhase → Bool
  | .fracd | .expd => true
  | _ => false

/-- Modelled from the spec §4.F: phases of the string sub-automaton.
`body need` expects `need` further UTF-8 continuation bytes; `hex` collects
the four hex digits of a `\\uXXXX` escape; `low1`/`low2`/`lowHex` parse
the mandatory low surrogate after a high surrogate. -/
inductive StrPhase where
  | body (need : Nat)
  | esc
  | hex (hs : List Nat)
  | low1 (hi : Nat)
  | low2 (hi : Nat)
  | lowHex (hi : Nat) (hs : List Nat)
deriving DecidableEq, Repr

/-- Which keyword literal is being matched (spec §4.E: `true`, `false`,
`null`). -/
inductive LitKind where
  | litTrue
  | litFalse
  | litNull
deriving DecidableEq, Repr

/-- The event a completed keyword literal emits. -/
def LitKind.event : LitKind → JsonEvent
  | .litTrue => .valueTrue
  | .litFalse => .valueFalse
  | .litNull => .valueNull

/-- Modelled from the spec §3: the scalar sub-state.  `lit rest k` is in
the middle of matching the keyword `true`/`false`/`null`: `rest` is the
list of byte values still expected and `k` the literal being matched. -/
inductive Scalar where
  | none
  | num (ph : NumPhase)
  | str (ph : StrPhase)
  | lit (rest : List Nat) (k : LitKind)
deriving DecidableEq, Repr

/-- Modelled from the spec §3: the full parser state.  `cur` is the
current-value buffer (decoded string bytes or raw number text), `parsed`
the absolute count of bytes committed from the feeder, `pushback` the one
byte that terminated a number token and still awaits structural
processing, and `terminated` the terminal flag entered after `Eof` or
`Error` (spec §7). -/
structure PState where
  mode : Mode
  stack : List Frame
  scalar : Scalar
  cur : List Nat
  parsed : Nat
  pushback : Option Nat
  terminated : Bool
  streaming : Bool
  maxDepth : Nat
deriving DecidableEq, Repr

/-- Whitespace per spec §4.E: space, tab, line feed, carriage return. -/
def isWs (b : Nat) : Bool :=
  b = 0x20 || b = 0x09 || b = 0x0A || b = 0x0D

def isDigit (b : Nat) : Bool :=
  0x30 ≤ b && b ≤ 0x39

/-- Value of a hex digit byte, if it is one. -/
def hexVal (b : Nat) : Option Nat :=
  if 0x30 ≤ b && b ≤ 0x39 then some (b - 0x30)
  else if 0x61 ≤ b && b ≤ 0x66 then some (b - 0x61 + 10)
  else if 0x41 ≤ b && b ≤ 0x46 then some (b - 0x41 + 10)
  else none

/-- Number of UTF-8 continuation bytes announced by a lead byte, or `none`
if the byte cannot start a UTF-8 sequence (spec §4.F: invalid sequences
are `InvalidUtf8`). -/
def utf8Need (b : Nat) : Option Nat :=
  if b < 0x80 then some 0
  else if 0xC2 ≤ b && b ≤ 0xDF then some 1
  else if 0xE0 ≤ b && b ≤ 0xEF then some 2
  else if 0xF0 ≤ b && b ≤ 0xF4 then some 3
  else none

def isContByte (b : Nat) : Bool :=
  0x80 ≤ b && b ≤ 0xBF

/-- UTF-8 encoding of a Unicode scalar value (spec §4.F: decoded escape
codepoints are UTF-8-encoded into the current-value buffer). -/
def utf8Encode (cp : Nat) : List Nat :=
  if cp < 0x80 then [cp]
  else if cp < 0x800 then [0xC0 + cp / 64, 0x80 + cp % 64]
  else if cp < 0x10000 then
    [0xE0 + cp / 4096, 0x80 + cp / 64 % 64, 0x80 + cp % 64]
  else
    [0xF0 + cp / 262144, 0x80 + cp / 4096 % 64, 0x80 + cp / 64 % 64,
      0x80 + cp % 64]

/-- Outcome of feeding one byte to the number sub-automaton. -/
inductive NumAct where
  | cont (ph : NumPhase)
  | term
  | err
deriving DecidableEq, Repr

/-- Modelled from the spec §4.F (number recognizer): one byte of the
number sub-automaton.  `term` means the byte does not continue the number
and the token so far is complete; `err` is a `SyntaxError`. -/
def numStep (ph : NumPhase) (b : Nat) : NumAct :=
  match ph with
  | .sign =>
    if b = 0x30 then .cont .zero
    else if isDigit b then .cont .intd
    else .err
  | .zero =>
    if b = 0x2E then .cont .point
    else if b = 0x65 || b = 0x45 then .cont .emark
    else if isDigit b then .err
    else .term
  | .intd =>
    if isDigit b then .cont .intd
    else if b = 0x2E then .cont .point
    else if b = 0x65 || b = 0x45 then .cont .emark
    else .term
  | .point =>
    if isDigit b then .cont .fracd else .err
  | .fracd =>
    if isDigit b then .cont .fracd
    else if b = 0x65 || b = 0x45 then .cont .emark
    else .term
  | .emark =>
    if isDigit b then .cont .expd
    else if b = 0x2B || b = 0x2D then .cont .esign
    else .err
  | .esign =>
    if isDigit b then .cont .expd else .err
  | .expd =>
    if isDigit b then .cont .expd else .term

/-- Outcome of feeding one byte to the string sub-automaton. -/
inductive StrAct where
  | app (bytes : List Nat) (ph : StrPhase)
  | close
  | fail (k : ParseErrorKind)
deriving DecidableEq, Repr

def surrPair (hi lo : Nat) : Nat :=
  0x10000 + (hi - 0xD800) * 0x400 + (lo - 0xDC00)

/-- Modelled from the spec §4.F (string recognizer): one byte of the
string sub-automaton.  `app bs ph` appends the decoded bytes `bs` to the
current value and moves to phase `ph`; `close` is the closing quote. -/
def strStep (ph : StrPhase) (b : Nat) : StrAct :=
  match ph with
  | .body 0 =>
    if b = 0x22 then .close
    else if b = 0x5C then .app [] .esc
    else if b < 0x20 then .fail .illegalCharacter
    else
      match utf8Need b with
      | some 0 => .app [b] (.body 0)
      | some n => .app [b] (.body n)
      | none => .fail .invalidUtf8
  | .body (n + 1) =>
    if isContByte b then .app [b] (.body n) else .fail .invalidUtf8
  | .esc =>
    if b = 0x22 then .app [0x22] (.body 0)
    else if b = 0x5C then .app [0x5C] (.body 0)
    else if b = 0x2F then .app [0x2F] (.body 0)
    else if b = 0x62 then .app [0x08] (.body 0)
    else if b = 0x66 then .app [0x0C] (.body 0)
    else if b = 0x6E then .app [0x0A] (.body 0)
    else if b = 0x72 then .app [0x0D] (.body 0)
    else if b = 0x74 then .app [0x09] (.body 0)
    else if b = 0x75 then .app [] (.hex [])
    else .fail .invalidEscape
  | .hex hs =>
    match hexVal b with
    | Option.none => .fail .invalidEscape
    | some v =>
      let hs' := hs ++ [v]
      if hs'.length < 4 then .app [] (.hex hs')
      else
        let cp := hs'.foldl (fun a d => a * 16 + d) 0
        if 0xD800 ≤ cp && cp ≤ 0xDBFF then .app [] (.low1 cp)
        else if 0xDC00 ≤ cp && cp ≤ 0xDFFF then .fail .invalidEscape
        else .app (utf8Encode cp) (.body 0)
  | .low1 hi =>
    if b = 0x5C then .app [] (.low2 hi) else .fail .invalidEscape
  | .low2 hi =>
    if b = 0x75 then .app [] (.lowHex hi []) else .fail .invalidEscape
  | .lowHex hi hs =>
    match hexVal b with
    | Option.none => .fail .invalidEscape
    | some v =>
      let hs' := hs ++ [v]
      if hs'.length < 4 then .app [] (.lowHex hi hs')
      else
        let lo := hs'.foldl (fun a d => a * 16 + d) 0
        if 0xDC00 ≤ lo && lo ≤ 0xDFFF then
          .app (utf8Encode (surrPair hi lo)) (.body 0)
        else .fail .invalidEscape

/-- Modelled from the spec §4.E: mode entered after a value is completed,
given the container stack.  With an empty stack a top-level value is
complete: streaming mode returns to `beforeValue`, otherwise the machine
is `done`. -/
def advanceMode (streaming : Bool) (stack : List Frame) : Mode :=
  match stack with
  | .object :: _ => .objAfterValue
  | .array :: _ => .arrAfterValue
  | [] => if streaming then .beforeValue else .done

/-- State update when the current value has been completed. -/
def completeValue (p : PState) : PState :=
  { p with scalar := .none, mode := advanceMode p.streaming p.stack }

/-- State update when a string token closed: in object-key position it is
a field name, otherwise a string value (spec §4.E). -/
def closeString (p : PState) : PState × Option JsonEvent :=
  match p.mode with
  | .objFirstKey | .objMustKey =>
    ({ p with scalar := .none, mode := .objAfterKey }, some .fieldName)
  | _ => (completeValue p, some .valueString)

/-- The event emitted when a number token terminates. -/
def numEvent (ph : NumPhase) : JsonEvent :=
  if ph.isFloat then .valueFloat else .valueInt

/-- Classification of a byte in value-start position (spec §4.E,
structural grammar). -/
inductive VClass where
  | ws
  | objOpen
  | arrOpen
  | quote
  | minus
  | zero
  | digit
  | litT
  | litF
  | litN
  | ctrl
  | other
deriving DecidableEq, Repr

/-- Classify a byte for the value dispatch of spec §4.E. -/
def vclass (b : Nat) : VClass :=
  if isWs b then .ws
  else if b = 0x7B then .objOpen
  else if b = 0x5B then .arrOpen
  else if b = 0x22 then .quote
  else if b = 0x2D then .minus
  else if b = 0x30 then .zero
  else if isDigit b then .digit
  else if b = 0x74 then .litT
  else if b = 0x66 then .litF
  else if b = 0x6E then .litN
  else if b < 0x20 then .ctrl
  else .other

/-- Push a container frame, checking the depth bound first: a push at
`depth = maxDepth` fails with `MaxDepthExceeded` (spec §4.D). -/
def pushFrame (p : PState) (f : Frame) (m : Mode) (ev : JsonEvent) :
    PState × Option JsonEvent :=
  if p.stack.length < p.maxDepth then
    ({ p with stack := f :: p.stack, mode := m }, some ev)
  else (p, some (.error .maxDepthExceeded))

/-- Modelled from the spec §4.E (structural grammar): dispatch on the
first byte of a value. -/
def startValue (p : PState) (b : Nat) : PState × Option JsonEvent :=
  match vclass b with
  | .ws => (p, none)
  | .objOpen => pushFrame p .object .objFirstKey .startObject
  | .arrOpen => pushFrame p .array .arrFirst .startArray
  | .quote => ({ p with scalar := .str (.body 0), cur := [] }, none)
  | .minus => ({ p with scalar := .num .sign, cur := [b] }, none)
  | .zero => ({ p with scalar := .num .zero, cur := [b] }, none)
  | .digit => ({ p with scalar := .num .intd, cur := [b] }, none)
  | .litT =>
    ({ p with
        scalar := Scalar.lit [0x72, 0x75, 0x65] LitKind.litTrue,
        cur := [] }, none)
  | .litF =>
    ({ p with
        scalar := Scalar.lit [0x61, 0x6C, 0x73, 0x65] LitKind.litFalse,
        cur := [] }, none)
  | .litN =>
    ({ p with
        scalar := Scalar.lit [0x75, 0x6C, 0x6C] LitKind.litNull,
        cur := [] }, none)
  | .ctrl => (p, some (.error .illegalCharacter))
  | .other => (p, some (.error .syntaxError))

/-- Pop a container frame on `}` or `]` and emit the end event. -/
def popFrame (p : PState) (f : Frame) (ev : JsonEvent) :
    PState × Option JsonEvent :=
  match p.stack with
  | f' :: rest =>
    if f' = f then
      ({ p with
          stack := rest,
          scalar := .none,
          mode := advanceMode p.streaming rest }, some ev)
    else (p, some (.error .syntaxError))
  | [] => (p, some (.error .syntaxError))

/-- Modelled from the spec §4.E: structural processing of one byte when no
scalar token is in progress. -/
def stepStruct (p : PState) (b : Nat) : PState × Option JsonEvent :=
  match p.mode with
  | .beforeValue => startValue p b
  | .arrFirst =>
    if isWs b then (p, none)
    else if b = 0x5D then popFrame p .array .endArray
    else startValue p b
  | .objFirstKey =>
    if isWs b then (p, none)
    else if b = 0x7D then popFrame p .object .endObject
    else if b = 0x22 then
      ({ p with scalar := .str (.body 0), cur := [] }, none)
    else if b < 0x20 then (p, some (.error .illegalCharacter))
    else (p, some (.error .syntaxError))
  | .objMustKey =>
    if isWs b then (p, none)
    else if b = 0x22 then
      ({ p with scalar := .str (.body 0), cur := [] }, none)
    else if b < 0x20 then (p, some (.error .illegalCharacter))
    else (p, some (.error .syntaxError))
  | .objAfterKey =>
    if isWs b then (p, none)
    else if b = 0x3A then ({ p with mode := .beforeValue }, none)
    else if b < 0x20 then (p, some (.error .illegalCharacter))
    else (p, some (.error .syntaxError))
  | .objAfterValue =>
    if isWs b then (p, none)
    else if b = 0x2C then ({ p with mode := .objMustKey }, none)
    else if b = 0x7D then popFrame p .object .endObject
    else if b < 0x20 then (p, some (.error .illegalCharacter))
    else (p, some (.error .syntaxError))
  | .arrAfterValue =>
    if isWs b then (p, none)
    else if b = 0x2C then ({ p with mode := .beforeValue }, none)
    else if b = 0x5D then popFrame p .array .endArray
    else if b < 0x20 then (p, some (.error .illegalCharacter))
    else (p, some (.error .syntaxError))
  | .done =>
    if isWs b then (p, none)
    else if b < 0x20 then (p, some (.error .illegalCharacter))
    else (p, some (.error .syntaxError))

/-- Modelled from the spec §4.E/§4.F: process one byte of input.  A number
token that is terminated by `b` emits its value event and stores `b` in
the pushback slot for the next structural decision (spec §4.F, termination
rule). -/
def step (p : PState) (b : Nat) : PState × Option JsonEvent :=
  match p.scalar with
  | .none => stepStruct p b
  | .num ph =>
    match numStep ph b with
    | .cont ph' => ({ p with scalar := .num ph', cur := p.cur ++ [b] }, none)
    | .err => (p, some (.error .syntaxError))
    | .term =>
      (completeValue { p with pushback := some b }, some (numEvent ph))
  | .str ph =>
    match strStep ph b with
    | .app bs ph' => ({ p with scalar := .str ph', cur := p.cur ++ bs }, none)
    | .close => closeString p
    | .fail k => (p, some (.error k))
  | .lit rest k =>
    match rest with
    | [] => (p, some (.error .syntaxError))
    | r :: rs =>
      if b = r then
        if rs.isEmpty then (completeValue p, some k.event)
        else ({ p with scalar := .lit rs k }, none)
      else (p, some (.error .syntaxError))

/-- Modelled from the spec §4.E (end-of-input policy): the step taken when
the feeder reports `Ended`.  A syntactically complete number terminates
and emits its event; otherwise `Eof` is emitted exactly in the states the
policy names, and `Error(NoMoreInput)` everywhere else. -/
def endstep (p : PState) : PState × JsonEvent :=
  match p.scalar with
  | .num ph =>
    if ph.complete then (completeValue p, numEvent ph)
    else (p, .error .noMoreInput)
  | .str _ => (p, .error .noMoreInput)
  | .lit _ _ => (p, .error .noMoreInput)
  | .none =>
    match p.mode with
    | .done => (p, .eof)
    | .beforeValue =>
      if p.streaming && p.stack.isEmpty then (p, .eof)
      else (p, .error .noMoreInput)
    | _ => (p, .error .noMoreInput)

def isTerminal : JsonEvent → Bool
  | .eof => true
  | .error _ => true
  | _ => false

/-- Modelled from the spec §7: after `Eof` or `Error` the machine is
terminal. -/
def sealState (p : PState) (ev : JsonEvent) : PState :=
  if isTerminal ev then { p with terminated := true } else p

/-- The pull loop of `next_event` (spec §4.E): pull bytes from the feeder
buffer until an event is produced; an exhausted buffer yields
`NeedMoreInput` if the feeder is not done and the end-of-input step if it
is.  Each pulled byte is committed, incrementing `parsed` (spec §4.H). -/
def pullLoop (p : PState) (buf : List Nat) (ended : Bool) :
    PState × List Nat × JsonEvent :=
  match buf with
  | [] =>
    if ended then
      let (p', ev) := endstep p
      (p', [], ev)
    else (p, [], .needMoreInput)
  | b :: rest =>
    let p1 := { p with parsed := p.parsed + 1 }
    match step p1 b with
    | (p2, some ev) => (p2, rest, ev)
    | (p2, Option.none) => pullLoop p2 rest ended

/-- Process the pushback byte `b`, then continue pulling from the feeder
if it produced no event. -/
def procPushback (p : PState) (b : Nat) (buf : List Nat) (ended : Bool) :
    PState × List Nat × JsonEvent :=
  match step p b with
  | (p1, some ev) => (p1, buf, ev)
  | (p1, Option.none) => pullLoop p1 buf ended

/-- `next_event` before sealing: a terminated parser reports
`Error(NoMoreInput)`; otherwise the pushback byte (if any) is processed
first and then bytes are pulled from the feeder. -/
def nextEventRaw (p : PState) (buf : List Nat) (ended : Bool) :
    PState × List Nat × JsonEvent :=
  if p.terminated then (p, buf, .error .noMoreInput)
  else
    match p.pushback with
    | some b => procPushback { p with pushback := Option.none } b buf ended
    | Option.none => pullLoop p buf ended

/-- Modelled from the spec §4.E: one call of `next_event` against a push
feeder whose unconsumed bytes are `buf` and whose done flag is `ended`.
Returns the new parser state, the bytes left in the feeder, and the
event. -/
def nextEvent (p : PState) (buf : List Nat) (ended : Bool) :
    PState × List Nat × JsonEvent :=
  let (p', buf', ev) := nextEventRaw p buf ended
  (sealState p' ev, buf', ev)

/-- Does this event expose the current-value buffer (spec §4.G: the
accessors are valid after the scalar and field-name events)? -/
def scalarish : JsonEvent → Bool
  | .fieldName | .valueString | .valueInt | .valueFloat => true
  | _ => false

/-- One observed emission: the event, the current-value bytes readable
after it (empty for non-scalar events), and `parsed_bytes` at that
point. -/
structure Emitted where
  ev : JsonEvent
  val : List Nat
  parsed : Nat
deriving DecidableEq, Repr

def mkEmitted (p : PState) (ev : JsonEvent) : Emitted :=
  ⟨ev, if scalarish ev then p.cur else [], p.parsed⟩

/-- Driver loop over a fully fed feeder (slice feeder semantics): call
`next_event` until a terminal event, recording each emission.  `fuel`
bounds the number of calls. -/
def runCalls : Nat → PState → List Nat → List Emitted
  | 0, _, _ => []
  | n + 1, p, buf =>
    match nextEvent p buf true with
    | (p', buf', ev) =>
      mkEmitted p' ev :: (if isTerminal ev then [] else runCalls n p' buf')

/-- Chunked driver (the `parse_with_parser` loop of `tests/test.rs`): on
`NeedMoreInput` the next part is pushed into the feeder, and the feeder's
done flag is set once no parts remain. -/
def runChunked : Nat → PState → List Nat → List (List Nat) → List Emitted
  | 0, _, _, _ => []
  | n + 1, p, buf, chunks =>
    match nextEvent p buf chunks.isEmpty with
    | (p', buf', ev) =>
      if ev = .needMoreInput then
        match chunks with
        | [] => []
        | c :: cs => mkEmitted p' ev :: runChunked n p' (buf' ++ c) cs
      else
        mkEmitted p' ev ::
          (if isTerminal ev then [] else runChunked n p' buf' chunks)

/-- Initial parser state for given options (spec §4.D). -/
def initState (streaming : Bool) (maxDepth : Nat) : PState :=
  ⟨.beforeValue, [], .none, [], 0, Option.none, false, streaming, maxDepth⟩

/-- Modelled from the spec §4.D: the default `max_depth` is
implementation-defined but at least 16; 512 is used here. -/
def defaultMaxDepth : Nat := 512

/-! ## Concrete inputs of the end-to-end scenarios -/

/-- The bytes of the streaming scenario input of spec S7 and the `lib.rs`
streaming doctest: the text `1 2""` followed by an object with one `key`
to `value` entry, a line feed, an array of `a` and `b`, then `4true`. -/
def inS7 : List Nat :=
  [0x31, 0x20, 0x32, 0x22, 0x22, 0x7B, 0x22, 0x6B, 0x65, 0x79, 0x22, 0x3A,
    0x22, 0x76, 0x61, 0x6C, 0x75, 0x65, 0x22, 0x7D, 0x0A, 0x5B, 0x22, 0x61,
    0x22, 0x2C, 0x22, 0x62, 0x22, 0x5D, 0x34, 0x74, 0x72, 0x75, 0x65]

/-- The bytes of the mixed array scenario S3: the text
`["Elvis", 132, "Max", 80.67]` with brackets written as bytes. -/
def inS3 : List Nat :=
  [0x5B, 0x22, 0x45, 0x6C, 0x76, 0x69, 0x73, 0x22, 0x2C, 0x20, 0x31, 0x33,
    0x32, 0x2C, 0x20, 0x22, 0x4D, 0x61, 0x78, 0x22, 0x2C, 0x20, 0x38, 0x30,
    0x2E, 0x36, 0x37, 0x5D]

/-- The bytes of scenario S6: an object opening, key `i`, a colon and the
digits `42`, with the closing brace missing. -/
def inS6 : List Nat := [0x7B, 0x22, 0x69, 0x22, 0x3A, 0x34, 0x32]

/-- The bytes of scenario S4: an object with key `key`, a colon, then the
control byte `0x02` and the closing brace. -/
def inS4 : List Nat :=
  [0x7B, 0x22, 0x6B, 0x65, 0x79, 0x22, 0x3A, 0x02, 0x7D]

/-- The bytes of the `illegal_number` test: an object with key `n` and the
malformed number `-2.` before the closing brace. -/
def inIllegalNumber : List Nat :=
  [0x7B, 0x22, 0x6E, 0x22, 0x3A, 0x2D, 0x32, 0x2E, 0x7D]

/-- The bytes of the UTF-8 test input: an object with key `name` and the
value `Bjœrn`, where `œ` is the two bytes `0xC5 0x93`. -/
def inUtf8 : List Nat :=
  [0x7B, 0x22, 0x6E, 0x61, 0x6D, 0x65, 0x22, 0x3A, 0x20, 0x22, 0x42, 0x6A,
    0xC5, 0x93, 0x72, 0x6E, 0x22, 0x7D]

/-! ## Basic facts about one processing step -/

/-- The frame conditions of a single byte step: no `NeedMoreInput` is ever
produced by byte processing, the terminal flag, options and byte counter
are untouched, the pushback slot is untouched unless an event is emitted,
and the depth bound is preserved. -/
def StepFacts (p : PState) (r : PState × Option JsonEvent) : Prop :=
  r.2 ≠ some .needMoreInput ∧
  r.1.terminated = p.terminated ∧
  r.1.maxDepth = p.maxDepth ∧
  r.1.streaming = p.streaming ∧
  r.1.parsed = p.parsed ∧
  (r.2 = Option.none → r.1.pushback = p.pushback) ∧
  (p.stack.length ≤ p.maxDepth → r.1.stack.length ≤ p.maxDepth)

/-! ## Terminal behavior: the claim C4 machinery -/

/-- Repeated calls of `next_event`, recording the events, without the
driver's stop-at-terminal convention: models a driver that keeps calling
after `Eof` or `Error`. -/
def keepCalling : Nat → PState → List Nat → Bool → List JsonEvent
  | 0, _, _, _ => []
  | n + 1, p, buf, e =>
    match nextEvent p buf e with
    | (p', buf', ev) => ev :: keepCalling n p' buf' e

/-! ## Whole-document semantics (for the round-trip claim C6)

`consume` processes one byte, resolving the pushback slot immediately, so
that the emitted events of a fully driven parse appear in order without
`NeedMoreInput` sentinels; `processAll` folds it over the document and
`finishEvents` performs the end-of-input steps.  This is the same step
machine (`step`/`endstep`) as `nextEvent`, driven to completion. -/

def consume (p : PState) (b : Nat) : PState × List Emitted :=
  let p0 := { p with parsed := p.parsed + 1 }
  match step p0 b with
  | (p1, some ev) =>
    match p1.pushback with
    | some c =>
      match step { p1 with pushback := Option.none } c with
      | (p3, some ev2) => (p3, [mkEmitted p1 ev, mkEmitted p3 ev2])
      | (p3, Option.none) => (p3, [mkEmitted p1 ev])
    | Option.none => (p1, [mkEmitted p1 ev])
  | (p1, Option.none) => (p1, [])

def processAll (p : PState) : List Nat → PState × List Emitted
  | [] => (p, [])
  | b :: rest =>
    let r1 := consume p b
    let r2 := processAll r1.1 rest
    (r2.1, r1.2 ++ r2.2)

/-- The feeder-`Ended` steps after all bytes: at most one value-completing
step followed by the terminal step. -/
def finishEvents (p : PState) : List Emitted :=
  let r1 := endstep p
  if isTerminal r1.2 then [mkEmitted r1.1 r1.2]
  else
    let r2 := endstep r1.1
    [mkEmitted r1.1 r1.2, mkEmitted r2.1 r2.2]

/-- All emissions of a fully driven parse of `S`. -/
def docEvents (p : PState) (S : List Nat) : List Emitted :=
  let r := processAll p S
  r.2 ++ finishEvents r.1

/-- The parser accepts `S`: the driven run ends in `Eof` with no earlier
terminal event. -/
def accepted (md : Nat) (S : List Nat) : Bool :=
  let evs := docEvents (initState false md) S
  match evs.getLast? with
  | some em =>
    decide (em.ev = .eof) &&
      evs.dropLast.all (fun e => !isTerminal e.ev)
  | Option.none => false

/-! ## The JSON data model, event re-serialization and the builder -/

/-- A JSON value as the event stream describes it: numbers keep their raw
text (the parser defers numeric conversion, spec §9), strings are the
decoded UTF-8 bytes. -/
inductive Json where
  | null
  | boolean (b : Bool)
  | number (raw : List Nat)
  | string (bytes : List Nat)
  | array (items : List Json)
  | object (fields : List (List Nat × Json))
deriving Repr

def hexDigit (k : Nat) : Nat :=
  if k < 10 then 0x30 + k else 0x61 + k - 10

/-- Serialize one string byte: quote and backslash are escaped, control
bytes become `\\u00XX`, all other bytes pass through. -/
def escapeByte (b : Nat) : List Nat :=
  if b = 0x22 then [0x5C, 0x22]
  else if b = 0x5C then [0x5C, 0x5C]
  else if b < 0x20 then
    [0x5C, 0x75, 0x30, 0x30, hexDigit (b / 16), hexDigit (b % 16)]
  else [b]

def escBody (s : List Nat) : List Nat := s.flatMap escapeByte

def renderStr (s : List Nat) : List Nat := 0x22 :: escBody s ++ [0x22]

mutual

/-- Re-serialize a JSON value to text (the event sequence with current
values attached, written back as JSON). -/
def render : Json → List Nat
  | .null => [0x6E, 0x75, 0x6C, 0x6C]
  | .boolean true => [0x74, 0x72, 0x75, 0x65]
  | .boolean false => [0x66, 0x61, 0x6C, 0x73, 0x65]
  | .number raw => raw
  | .string s => renderStr s
  | .array items => 0x5B :: renderItems items ++ [0x5D]
  | .object fl => 0x7B :: renderFields fl ++ [0x7D]

def renderItems : List Json → List Nat
  | [] => []
  | [v] => render v
  | v :: rest => render v ++ [0x2C] ++ renderItems rest

def renderFields : List (List Nat × Json) → List Nat
  | [] => []
  | [(k, v)] => renderStr k ++ [0x3A] ++ render v
  | (k, v) :: rest =>
    renderStr k ++ [0x3A] ++ render v ++ [0x2C] ++ renderFields rest

end

/-- A frame of the event-to-tree builder: an array collecting items, an
object collecting fields, or an object waiting for the value of `key`. -/
inductive BFrame where
  | arr (items : List Json)
  | obj (fields : List (List Nat × Json))
  | objPend (fields : List (List Nat × Json)) (key : List Nat)

/-- Builder state: open container frames (top first) and the completed
top-level value, if any. -/
structure BState where
  bstack : List BFrame
  result : Option Json

/-- Place a completed value: into the top frame, or as the top-level
result when no container is open. -/
def placeValue (st : BState) (v : Json) : Option BState :=
  match st.bstack with
  | [] =>
    match st.result with
    | Option.none => some ⟨[], some v⟩
    | some _ => Option.none
  | .arr items :: rest => some ⟨.arr (items ++ [v]) :: rest, st.result⟩
  | .objPend fl k :: rest =>
    some ⟨.obj (fl ++ [(k, v)]) :: rest, st.result⟩
  | .obj _ :: _ => Option.none

/-- Fold one emission into the builder. -/
def buildStep (st : BState) (em : Emitted) : Option BState :=
  match em.ev with
  | .startObject => some ⟨.obj [] :: st.bstack, st.result⟩
  | .startArray => some ⟨.arr [] :: st.bstack, st.result⟩
  | .fieldName =>
    match st.bstack with
    | .obj fl :: rest => some ⟨.objPend fl em.val :: rest, st.result⟩
    | _ => Option.none
  | .valueString => placeValue st (.string em.val)
  | .valueInt => placeValue st (.number em.val)
  | .valueFloat => placeValue st (.number em.val)
  | .valueTrue => placeValue st (.boolean true)
  | .valueFalse => placeValue st (.boolean false)
  | .valueNull => placeValue st .null
  | .endObject =>
    match st.bstack with
    | .obj fl :: rest => placeValue ⟨rest, st.result⟩ (.object fl)
    | _ => Option.none
  | .endArray =>
    match st.bstack with
    | .arr items :: rest => placeValue ⟨rest, st.result⟩ (.array items)
    | _ => Option.none
  | .eof => some st
  | .needMoreInput => some st
  | .error _ => Option.none

def buildFold (st : BState) : List Emitted → Option BState
  | [] => some st
  | em :: rest =>
    match buildStep st em with
    | some st1 => buildFold st1 rest
    | Option.none => Option.none

/-- The data value described by an emission sequence. -/
def buildJson (evs : List Emitted) : Option Json :=
  match buildFold ⟨[], Option.none⟩ evs with
  | some ⟨[], some v⟩ => some v
  | _ => Option.none

/-! ## Wellformedness of parser-produced values -/

/-- Run the number sub-automaton over raw text from a given phase;
`none` if a byte is rejected or would terminate the token. -/
def numRunAux (ph : NumPhase) : List Nat → Option NumPhase
  | [] => some ph
  | b :: rest =>
    match numStep ph b with
    | .cont ph' => numRunAux ph' rest
    | _ => Option.none

/-- The starting phase of a number from its first byte. -/
def numStart (b : Nat) : Option NumPhase :=
  if b = 0x2D then some .sign
  else if b = 0x30 then some .zero
  else if isDigit b then some .intd
  else Option.none

/-- Run the number sub-automaton over a whole raw text. -/
def numRun : List Nat → Option NumPhase
  | [] => Option.none
  | b :: rest =>
    match numStart b with
    | some ph => numRunAux ph rest
    | Option.none => Option.none

/-- Raw text of a syntactically complete number token. -/
def NumOk (raw : List Nat) : Prop :=
  ∃ ph, numRun raw = some ph ∧ ph.complete = true

/-- Run the UTF-8 acceptor that mirrors the string recognizer's body
phase: the state is the number of expected continuation bytes. -/
def utf8RunAux (need : Nat) : List Nat → Option Nat
  | [] => some need
  | b :: rest =>
    match need with
    | 0 =>
      match utf8Need b with
      | some n => utf8RunAux n rest
      | Option.none => Option.none
    | k + 1 => if isContByte b then utf8RunAux k rest else Option.none

/-- Decoded string bytes that the string recognizer's UTF-8 acceptor
accepts as a sequence of complete units. -/
def StrOk (s : List Nat) : Prop := utf8RunAux 0 s = some 0

/-- Wellformed value of bounded container depth: the payloads are exactly
what the scalar recognizers can produce, and nesting at most `d` deep. -/
inductive WfD : Json → Nat → Prop
  | null (d : Nat) : WfD .null d
  | boolean (b : Bool) (d : Nat) : WfD (.boolean b) d
  | number (raw : List Nat) (d : Nat) (h : NumOk raw) : WfD (.number raw) d
  | string (s : List Nat) (d : Nat) (h : StrOk s) : WfD (.string s) d
  | array (items : List Json) (d : Nat)
      (h : ∀ v ∈ items, WfD v d) : WfD (.array items) (d + 1)
  | object (fl : List (List Nat × Json)) (d : Nat)
      (hk : ∀ kv ∈ fl, StrOk kv.1) (hv : ∀ kv ∈ fl, WfD kv.2 d) :
      WfD (.object fl) (d + 1)

/-- Consistency of the current-value buffer with a string sub-phase:
the buffer is complete UTF-8 units (plus the pending continuation count
in the body phase), collected hex digits are in range, and a recorded
high surrogate is in the high-surrogate range. -/
def strOkAt (cur : List Nat) : StrPhase → Prop
  | .body need => utf8RunAux 0 cur = some need
  | .esc => utf8RunAux 0 cur = some 0
  | .hex hs =>
    utf8RunAux 0 cur = some 0 ∧ (∀ d ∈ hs, d < 16) ∧ hs.length ≤ 3
  | .low1 hi => utf8RunAux 0 cur = some 0 ∧ hi ≤ 0xDBFF
  | .low2 hi => utf8RunAux 0 cur = some 0 ∧ hi ≤ 0xDBFF
  | .lowHex hi hs =>
    utf8RunAux 0 cur = some 0 ∧ hi ≤ 0xDBFF ∧ (∀ d ∈ hs, d < 16) ∧
      hs.length ≤ 3

/-- The current-value buffer is consistent with the active scalar
sub-state: number text re-runs to the current phase, string bytes satisfy
`strOkAt`. -/
def curOk (p : PState) : Prop :=
  match p.scalar with
  | .num ph => numRun p.cur = some ph
  | .str ph => strOkAt p.cur ph
  | _ => True

/-- Wellformedness of a builder frame whose values live at depth budget
`dv`. -/
def frameWf (dv : Nat) : BFrame → Prop
  | .arr items => ∀ v ∈ items, WfD v dv
  | .obj fl => ∀ kv ∈ fl, StrOk kv.1 ∧ WfD kv.2 dv
  | .objPend fl k => (∀ kv ∈ fl, StrOk kv.1 ∧ WfD kv.2 dv) ∧ StrOk k

/-- Wellformedness of the whole builder stack: the frame above `rest`
holds values of depth budget `md - (rest.length + 1)`. -/
def stackWf (md : Nat) : List BFrame → Prop
  | [] => True
  | f :: rest => frameWf (md - (rest.length + 1)) f ∧ stackWf md rest

/-- The coupled invariant between parser state and builder state that the
per-byte simulation maintains. -/
structure InvA (md : Nat) (p : PState) (st : BState) : Prop where
  hmd : p.maxDepth = md
  hpb : p.pushback = Option.none
  hlen : st.bstack.length = p.stack.length
  hbound : p.stack.length ≤ md
  hcur : curOk p
  hstack : stackWf md st.bstack
  hres : ∀ w, st.result = some w → WfD w md

/-! ## Completeness: rendered wellformed values parse back -/

/-- No event of the list is terminal. -/
def evsOk (evs : List Emitted) : Bool :=
  evs.all (fun e => !isTerminal e.ev)

/-- Pure fold of the string sub-automaton over bytes that must all be
`app` actions; returns the final phase and the decoded bytes. -/
def strFold (ph : StrPhase) : List Nat → Option (StrPhase × List Nat)
  | [] => some (ph, [])
  | b :: t =>
    match strStep ph b with
    | .app bs ph1 =>
      match strFold ph1 t with
      | some (ph2, ds) => some (ph2, bs ++ ds)
      | Option.none => Option.none
    | _ => Option.none

/-- The per-value completeness property: from any value-expecting state,
processing the rendered text of `v` either completes the value (with
events that build exactly `v`) or leaves a complete pending number
token. -/
def ValueSimP (v : Json) (d : Nat) : Prop :=
  ∀ p, p.scalar = Scalar.none → p.pushback = Option.none →
    (p.mode = Mode.beforeValue ∨ p.mode = Mode.arrFirst) →
    d + p.stack.length ≤ p.maxDepth →
    ∃ p' evs, processAll p (render v) = (p', evs) ∧
      p'.stack = p.stack ∧ p'.streaming = p.streaming ∧
      p'.maxDepth = p.maxDepth ∧ p'.terminated = p.terminated ∧
      p'.pushback = Option.none ∧ evsOk evs = true ∧
      ((p'.mode = advanceMode p.streaming p.stack ∧
        p'.scalar = Scalar.none ∧
        ∀ st, buildFold st evs = placeValue st v) ∨
       (∃ raw ph, v = Json.number raw ∧ p'.scalar = Scalar.num ph ∧
         ph.complete = true ∧ p'.cur = raw ∧ evs = [] ∧
         p'.mode = p.mode))

/-- Keep every emission that is not the `NeedMoreInput` sentinel. -/
def notNMI (em : Emitted) : Bool := decide (em.ev ≠ .needMoreInput)

/-- The whole-input driver reaches a terminal event within `n` calls. -/
def termWithin : Nat → PState → List Nat → Bool
  | 0, _, _ => false
  | n + 1, p, buf =>
    match nextEvent p buf true with
    | (p', buf', ev) => if isTerminal ev then true else termWithin n p' buf'

theorem startValue_facts (p : PState) (b : Nat) :
    StepFacts p (startValue p b) := by
  cases hv : vclass b <;>
    simp [StepFacts, startValue, hv, pushFrame] <;>
    (try split) <;>
    simp_all <;>
    omega

theorem popFrame_facts (p : PState) (f : Frame) (ev : JsonEvent)
    (hev : ev ≠ .needMoreInput) : StepFacts p (popFrame p f ev) := by
  unfold popFrame
  repeat' split
  all_goals simp_all [StepFacts]
  all_goals omega

theorem stepStruct_facts (p : PState) (b : Nat) :
    StepFacts p (stepStruct p b) := by
  cases hm : p.mode <;> simp only [stepStruct, hm] <;> (repeat' split) <;>
    first
      | exact startValue_facts p b
      | exact popFrame_facts p _ _ (by simp)
      | simp [StepFacts]

theorem step_facts (p : PState) (b : Nat) : StepFacts p (step p b) := by
  cases hs : p.scalar with
  | none => simpa only [step, hs] using stepStruct_facts p b
  | num ph =>
    simp only [step, hs]
    cases hn : numStep ph b <;>
      simp [StepFacts, completeValue, numEvent] <;>
      (try split) <;> simp
  | str ph =>
    simp only [step, hs]
    cases hstr : strStep ph b with
    | app bs ph' => simp [StepFacts]
    | close =>
      unfold closeString
      repeat' split
      all_goals simp [StepFacts, completeValue]
    | fail k => simp [StepFacts]
  | lit rest k =>
    simp only [step, hs]
    cases rest with
    | nil => simp [StepFacts]
    | cons r rs =>
      by_cases hb : b = r <;> by_cases he : rs.isEmpty <;>
        cases k <;>
        simp [StepFacts, hb, he, completeValue, LitKind.event]

theorem endstep_facts (p : PState) :
    (endstep p).2 ≠ .needMoreInput ∧
    (endstep p).1.terminated = p.terminated ∧
    (endstep p).1.maxDepth = p.maxDepth ∧
    (endstep p).1.streaming = p.streaming ∧
    (endstep p).1.parsed = p.parsed ∧
    (endstep p).1.pushback = p.pushback ∧
    (endstep p).1.stack = p.stack := by
  unfold endstep
  repeat' split
  all_goals simp [completeValue, numEvent]
  all_goals split <;> simp

/-! ## Facts about the pull loop and `next_event` -/

theorem pullLoop_flags (p : PState) (buf : List Nat) (e : Bool) :
    (pullLoop p buf e).1.terminated = p.terminated ∧
    (pullLoop p buf e).1.maxDepth = p.maxDepth ∧
    (p.stack.length ≤ p.maxDepth →
      (pullLoop p buf e).1.stack.length ≤ p.maxDepth) := by
  induction buf generalizing p with
  | nil =>
    have h := endstep_facts p
    by_cases he : e <;> simp [pullLoop, he] <;>
      simp [h.2.1, h.2.2.1, h.2.2.2.2.2.2]
  | cons b rest ih =>
    have h := step_facts { p with parsed := p.parsed + 1 } b
    simp only [pullLoop]
    rcases hstep : step { p with parsed := p.parsed + 1 } b with ⟨p2, evo⟩
    rw [hstep] at h
    cases evo with
    | some ev => simpa using ⟨h.2.1, h.2.2.1, fun hd => h.2.2.2.2.2.2 hd⟩
    | none =>
      have ih2 := ih p2
      simp only [StepFacts] at h
      simp only [] at ih2
      constructor
      · rw [ih2.1, h.2.1]
      constructor
      · rw [ih2.2.1, h.2.2.1]
      · intro hd
        have := ih2.2.2 (by rw [h.2.2.1]; exact h.2.2.2.2.2.2 hd)
        rw [h.2.2.1] at this
        exact this

theorem pullLoop_true_ne_nmi (p : PState) (buf : List Nat) :
    (pullLoop p buf true).2.2 ≠ .needMoreInput := by
  induction buf generalizing p with
  | nil =>
    have h := (endstep_facts p).1
    simp [pullLoop]
    rcases hend : endstep p with ⟨q, ev⟩
    rw [hend] at h
    simpa using h
  | cons b rest ih =>
    simp only [pullLoop]
    have h := (step_facts { p with parsed := p.parsed + 1 } b).1
    rcases hstep : step { p with parsed := p.parsed + 1 } b with ⟨p2, evo⟩
    rw [hstep] at h
    cases evo with
    | some ev => simpa using fun hc => h (by rw [hc])
    | none => exact ih p2

/-- `nextEvent` in terms of `nextEventRaw`. -/
theorem nextEvent_eq (p : PState) (buf : List Nat) (e : Bool) :
    nextEvent p buf e =
      (sealState (nextEventRaw p buf e).1 (nextEventRaw p buf e).2.2,
        (nextEventRaw p buf e).2.1, (nextEventRaw p buf e).2.2) := by
  unfold nextEvent
  rcases hr : nextEventRaw p buf e with ⟨q, r, ev⟩
  simp

theorem procPushback_true_ne_nmi (p : PState) (b : Nat) (buf : List Nat) :
    (procPushback p b buf true).2.2 ≠ .needMoreInput := by
  unfold procPushback
  have h := (step_facts p b).1
  rcases hstep : step p b with ⟨p1, evo⟩
  rw [hstep] at h
  cases evo with
  | some ev =>
    simp only []
    intro hc
    rw [hc] at h
    simp at h
  | none => exact pullLoop_true_ne_nmi p1 buf

theorem nextEventRaw_true_ne_nmi (p : PState) (buf : List Nat) :
    (nextEventRaw p buf true).2.2 ≠ .needMoreInput := by
  unfold nextEventRaw
  split
  · simp
  · split
    · exact procPushback_true_ne_nmi _ _ _
    · exact pullLoop_true_ne_nmi _ _

theorem nextEvent_true_ne_nmi (p : PState) (buf : List Nat) :
    (nextEvent p buf true).2.2 ≠ .needMoreInput := by
  rw [nextEvent_eq]
  exact nextEventRaw_true_ne_nmi p buf

theorem sealState_fields (p : PState) (ev : JsonEvent) :
    (sealState p ev).maxDepth = p.maxDepth ∧
    (sealState p ev).stack = p.stack := by
  unfold sealState
  split <;> simp

theorem procPushback_flags (p : PState) (b : Nat) (buf : List Nat)
    (e : Bool) :
    (procPushback p b buf e).1.terminated = p.terminated ∧
    (procPushback p b buf e).1.maxDepth = p.maxDepth ∧
    (p.stack.length ≤ p.maxDepth →
      (procPushback p b buf e).1.stack.length ≤ p.maxDepth) := by
  unfold procPushback
  have h := step_facts p b
  rcases hstep : step p b with ⟨p1, evo⟩
  rw [hstep] at h
  obtain ⟨-, ht, hmd, -, -, -, hst⟩ := h
  cases evo with
  | some ev => exact ⟨ht, hmd, hst⟩
  | none =>
    have h2 := pullLoop_flags p1 buf e
    refine ⟨by rw [h2.1, ht], by rw [h2.2.1, hmd], fun hd => ?_⟩
    have hb1 : p1.stack.length ≤ p1.maxDepth := by
      rw [hmd]
      exact hst hd
    have := h2.2.2 hb1
    rwa [hmd] at this

theorem nextEventRaw_flags (p : PState) (buf : List Nat) (e : Bool) :
    (nextEventRaw p buf e).1.maxDepth = p.maxDepth ∧
    (p.stack.length ≤ p.maxDepth →
      (nextEventRaw p buf e).1.stack.length ≤ p.maxDepth) := by
  unfold nextEventRaw
  split
  · simp
  · rename_i hnt
    split
    · rename_i b hpb
      have h := procPushback_flags { p with pushback := Option.none } b buf e
      exact ⟨h.2.1, h.2.2⟩
    · have h := pullLoop_flags p buf e
      exact ⟨h.2.1, h.2.2⟩

theorem seal_self (p : PState) (h : p.terminated = true) :
    ({ p with terminated := true } : PState) = p := by
  cases p
  simp_all

theorem nextEvent_of_terminated (p : PState) (buf : List Nat) (e : Bool)
    (h : p.terminated = true) :
    nextEvent p buf e = (p, buf, .error .noMoreInput) := by
  rw [nextEvent_eq]
  unfold nextEventRaw
  simp [h, sealState, isTerminal, seal_self p h]

theorem keepCalling_terminated (n : Nat) (p : PState) (buf : List Nat)
    (e : Bool) (h : p.terminated = true) :
    keepCalling n p buf e = List.replicate n (.error .noMoreInput) := by
  induction n generalizing p buf with
  | zero => rfl
  | succ m ih =>
    rw [keepCalling, nextEvent_of_terminated p buf e h]
    simp only [List.replicate]
    rw [ih p buf h]

theorem nextEvent_terminal_seals (p : PState) (buf : List Nat) (e : Bool)
    (h : isTerminal (nextEvent p buf e).2.2 = true) :
    (nextEvent p buf e).1.terminated = true := by
  rw [nextEvent_eq] at h ⊢
  simp only [] at h ⊢
  unfold sealState
  rw [h]
  simp

/-! ## Soundness of the builder: parser-produced values are wellformed -/

theorem numRunAux_append (t1 t2 : List Nat) (ph : NumPhase) :
    numRunAux ph (t1 ++ t2) =
      match numRunAux ph t1 with
      | some ph1 => numRunAux ph1 t2
      | Option.none => Option.none := by
  induction t1 generalizing ph with
  | nil => rfl
  | cons b t ih =>
    simp only [List.cons_append, numRunAux]
    cases numStep ph b <;> simp [ih]

theorem numRun_snoc (t : List Nat) (ph ph' : NumPhase) (b : Nat)
    (h : numRun t = some ph) (hs : numStep ph b = .cont ph') :
    numRun (t ++ [b]) = some ph' := by
  cases t with
  | nil => cases h
  | cons c0 rest =>
    simp only [numRun] at h
    simp only [List.cons_append, numRun]
    cases hstart : numStart c0 with
    | none => rw [hstart] at h; cases h
    | some ph0 =>
      rw [hstart] at h
      simp only [] at h
      simp only []
      rw [numRunAux_append, h]
      simp [numRunAux, hs]

theorem utf8RunAux_append (t1 t2 : List Nat) (k : Nat) :
    utf8RunAux k (t1 ++ t2) =
      match utf8RunAux k t1 with
      | some k1 => utf8RunAux k1 t2
      | Option.none => Option.none := by
  induction t1 generalizing k with
  | nil => rfl
  | cons b t ih =>
    simp only [List.cons_append, utf8RunAux]
    cases k with
    | zero => cases utf8Need b <;> simp [ih]
    | succ m => by_cases hc : isContByte b <;> simp [hc, ih]

theorem utf8Need_ascii (b : Nat) (h : b < 0x80) : utf8Need b = some 0 := by
  unfold utf8Need
  rw [if_pos h]

theorem utf8Need_two (b : Nat) (h1 : 0xC2 ≤ b) (h2 : b ≤ 0xDF) :
    utf8Need b = some 1 := by
  unfold utf8Need
  rw [if_neg (by omega), if_pos (by
    simp only [Bool.and_eq_true, decide_eq_true_eq]
    omega)]

theorem utf8Need_three (b : Nat) (h1 : 0xE0 ≤ b) (h2 : b ≤ 0xEF) :
    utf8Need b = some 2 := by
  unfold utf8Need
  rw [if_neg (by omega), if_neg (by
      simp only [Bool.and_eq_true, decide_eq_true_eq, not_and]
      omega),
    if_pos (by
      simp only [Bool.and_eq_true, decide_eq_true_eq]
      omega)]

theorem utf8Need_four (b : Nat) (h1 : 0xF0 ≤ b) (h2 : b ≤ 0xF4) :
    utf8Need b = some 3 := by
  unfold utf8Need
  rw [if_neg (by omega), if_neg (by
      simp only [Bool.and_eq_true, decide_eq_true_eq, not_and]
      omega),
    if_neg (by
      simp only [Bool.and_eq_true, decide_eq_true_eq, not_and]
      omega),
    if_pos (by
      simp only [Bool.and_eq_true, decide_eq_true_eq]
      omega)]

theorem isContByte_of (b : Nat) (h1 : 0x80 ≤ b) (h2 : b ≤ 0xBF) :
    isContByte b = true := by
  unfold isContByte
  simp only [Bool.and_eq_true, decide_eq_true_eq]
  omega

theorem utf8Encode_ok (cp : Nat) (h : cp ≤ 0x10FFFF) :
    utf8RunAux 0 (utf8Encode cp) = some 0 := by
  unfold utf8Encode
  by_cases h1 : cp < 0x80
  · rw [if_pos h1]
    simp [utf8RunAux, utf8Need_ascii cp h1]
  · rw [if_neg h1]
    by_cases h2 : cp < 0x800
    · rw [if_pos h2]
      simp [utf8RunAux, utf8Need_two (0xC0 + cp / 64) (by omega) (by omega),
        isContByte_of (0x80 + cp % 64) (by omega) (by omega)]
    · rw [if_neg h2]
      by_cases h3 : cp < 0x10000
      · rw [if_pos h3]
        simp [utf8RunAux,
          utf8Need_three (0xE0 + cp / 4096) (by omega) (by omega),
          isContByte_of (0x80 + cp / 64 % 64) (by omega) (by omega),
          isContByte_of (0x80 + cp % 64) (by omega) (by omega)]
      · rw [if_neg h3]
        simp [utf8RunAux,
          utf8Need_four (0xF0 + cp / 262144) (by omega) (by omega),
          isContByte_of (0x80 + cp / 4096 % 64) (by omega) (by omega),
          isContByte_of (0x80 + cp / 64 % 64) (by omega) (by omega),
          isContByte_of (0x80 + cp % 64) (by omega) (by omega)]

theorem numStep_term_complete (ph : NumPhase) (b : Nat)
    (h : numStep ph b = .term) : ph.complete = true := by
  cases ph <;> simp_all [numStep, NumPhase.complete] <;>
    (repeat' split at h) <;> simp_all

theorem strStep_close_body0 (ph : StrPhase) (b : Nat)
    (h : strStep ph b = .close) : ph = .body 0 := by
  cases ph with
  | body need =>
    cases need with
    | zero => rfl
    | succ k =>
      simp only [strStep] at h
      (repeat' split at h) <;> simp_all
  | esc =>
    simp only [strStep] at h
    (repeat' split at h) <;> simp_all
  | hex hs =>
    simp only [strStep] at h
    (repeat' split at h) <;> simp_all
  | low1 hi =>
    simp only [strStep] at h
    (repeat' split at h) <;> simp_all
  | low2 hi =>
    simp only [strStep] at h
    (repeat' split at h) <;> simp_all
  | lowHex hi hs =>
    simp only [strStep] at h
    (repeat' split at h) <;> simp_all

theorem hexVal_lt (b v : Nat) (h : hexVal b = some v) : v < 16 := by
  unfold hexVal at h
  (repeat' split at h) <;> simp_all <;> omega

theorem hexFoldBound (l : List Nat) (a0 : Nat) (h : ∀ d ∈ l, d < 16) :
    l.foldl (fun a d => a * 16 + d) a0 < (a0 + 1) * 16 ^ l.length := by
  induction l generalizing a0 with
  | nil => simp
  | cons d t ih =>
    simp only [List.foldl_cons, List.length_cons]
    have hd : d < 16 := h d (by simp)
    have ht : ∀ x ∈ t, x < 16 := fun x hx => h x (by simp [hx])
    have hih := ih (a0 * 16 + d) ht
    have hle : (a0 * 16 + d + 1) * 16 ^ t.length ≤
        ((a0 + 1) * 16) * 16 ^ t.length := by
      apply Nat.mul_le_mul_right
      omega
    have : ((a0 + 1) * 16) * 16 ^ t.length = (a0 + 1) * 16 ^ (t.length + 1) := by
      ring
    omega

theorem placeValue_wf (md : Nat) (st : BState) (v : Json) (st' : BState)
    (hstack : stackWf md st.bstack)
    (hres : ∀ w, st.result = some w → WfD w md)
    (hv : WfD v (md - st.bstack.length))
    (h : placeValue st v = some st') :
    stackWf md st'.bstack ∧ (∀ w, st'.result = some w → WfD w md) ∧
      st'.bstack.length = st.bstack.length := by
  unfold placeValue at h
  cases hs : st.bstack with
  | nil =>
    rw [hs] at h
    cases hr : st.result with
    | none =>
      rw [hr] at h
      simp only [] at h
      cases h
      refine ⟨trivial, fun w hw => ?_, rfl⟩
      cases hw
      simpa [hs] using hv
    | some w0 =>
      rw [hr] at h
      cases h
  | cons f rest =>
    rw [hs] at h
    cases f with
    | arr items =>
      simp only [] at h
      cases h
      rw [hs] at hstack
      refine ⟨⟨fun x hx => ?_, hstack.2⟩, fun w hw => hres w hw, by simp⟩
      rcases List.mem_append.mp hx with hx | hx
      · exact hstack.1 x hx
      · have : x = v := by simpa using hx
        subst this
        simpa [hs] using hv
    | obj fl =>
      simp only [] at h
      cases h
    | objPend fl k =>
      simp only [] at h
      cases h
      rw [hs] at hstack
      refine ⟨⟨fun kv hkv => ?_, hstack.2⟩, fun w hw => hres w hw, by simp⟩
      rcases List.mem_append.mp hkv with hkv | hkv
      · exact hstack.1.1 kv hkv
      · have : kv = (k, v) := by simpa using hkv
        subst this
        exact ⟨hstack.1.2, by simpa [hs] using hv⟩

theorem vclass_numStart (b : Nat) :
    (vclass b = .minus → numStart b = some .sign) ∧
    (vclass b = .zero → numStart b = some .zero) ∧
    (vclass b = .digit → numStart b = some .intd) := by
  unfold vclass numStart
  by_cases h1 : isWs b
  · simp [h1]
  rw [if_neg h1]
  by_cases h2 : b = 0x7B
  · subst h2; decide
  rw [if_neg h2]
  by_cases h3 : b = 0x5B
  · subst h3; decide
  rw [if_neg h3]
  by_cases h4 : b = 0x22
  · subst h4; decide
  rw [if_neg h4]
  by_cases h5 : b = 0x2D
  · subst h5; decide
  rw [if_neg h5]
  by_cases h6 : b = 0x30
  · subst h6; decide
  rw [if_neg h6]
  by_cases h7 : isDigit b
  · rw [if_pos h7, if_neg h5, if_neg h6, if_pos h7]
    simp
  rw [if_neg h7]
  repeat' split
  all_goals simp

set_option maxRecDepth 4000 in
/-- A string sub-step that appends bytes preserves the buffer
consistency. -/
theorem strStep_app_ok (ph ph' : StrPhase) (b : Nat) (bs cur : List Nat)
    (h : strStep ph b = .app bs ph') (hok : strOkAt cur ph) :
    strOkAt (cur ++ bs) ph' := by
  cases ph with
  | body need =>
    cases need with
    | zero =>
      simp only [strStep] at h
      split at h
      · cases h
      · split at h
        · cases h
          simpa [strOkAt] using hok
        · split at h
          · cases h
          · cases hNeed : utf8Need b with
            | none => rw [hNeed] at h; cases h
            | some n =>
              rw [hNeed] at h
              cases n with
              | zero =>
                simp only [] at h
                cases h
                simp only [strOkAt] at hok ⊢
                rw [utf8RunAux_append, hok]
                simp [utf8RunAux, hNeed]
              | succ m =>
                simp only [] at h
                cases h
                simp only [strOkAt] at hok ⊢
                rw [utf8RunAux_append, hok]
                simp [utf8RunAux, hNeed]
    | succ k =>
      simp only [strStep] at h
      split at h
      · cases h
        rename_i hc
        simp only [strOkAt] at hok ⊢
        rw [utf8RunAux_append, hok]
        simp [utf8RunAux, hc]
      · cases h
  | esc =>
    simp only [strStep] at h
    simp only [strOkAt] at hok
    (repeat' split at h) <;> cases h <;>
      simp only [strOkAt] <;>
      (try rw [utf8RunAux_append, hok]) <;>
      simp [utf8RunAux, utf8Need, hok]
  | hex hs =>
    simp only [strStep] at h
    obtain ⟨hok0, hdig, hlen⟩ := hok
    cases hv : hexVal b with
    | none => rw [hv] at h; cases h
    | some v =>
      rw [hv] at h
      simp only [] at h
      have hv16 := hexVal_lt b v hv
      have hdig' : ∀ d ∈ hs ++ [v], d < 16 := by
        intro d hd
        rcases List.mem_append.mp hd with hd | hd
        · exact hdig d hd
        · simp at hd
          omega
      have hlen' : (hs ++ [v]).length ≤ 4 := by
        simp
        omega
      have hcpbound : (hs ++ [v]).foldl (fun a d => a * 16 + d) 0 ≤
          0x10FFFF := by
        have hb := hexFoldBound (hs ++ [v]) 0 hdig'
        have hpow : (16 : Nat) ^ (hs ++ [v]).length ≤ 16 ^ 4 :=
          Nat.pow_le_pow_right (by omega) hlen'
        have h16 : (16 : Nat) ^ 4 = 65536 := by norm_num
        omega
      split at h
      · cases h
        rename_i hl4
        refine ⟨by simpa using hok0, hdig', ?_⟩
        simp only [List.length_append, List.length_cons,
          List.length_nil] at hl4 ⊢
        omega
      · split at h
        · cases h
          rename_i hcp
          simp only [Bool.and_eq_true, decide_eq_true_eq] at hcp
          exact ⟨by simpa using hok0, hcp.2⟩
        · split at h
          · cases h
          · cases h
            simp only [strOkAt]
            rw [utf8RunAux_append, hok0]
            exact utf8Encode_ok _ hcpbound
  | low1 hi =>
    simp only [strStep] at h
    obtain ⟨hok0, hhi⟩ := hok
    split at h
    · cases h
      exact ⟨by simpa using hok0, hhi⟩
    · cases h
  | low2 hi =>
    simp only [strStep] at h
    obtain ⟨hok0, hhi⟩ := hok
    split at h
    · cases h
      exact ⟨by simpa using hok0, hhi, by simp, by simp⟩
    · cases h
  | lowHex hi hs =>
    simp only [strStep] at h
    obtain ⟨hok0, hhi, hdig, hlen⟩ := hok
    cases hv : hexVal b with
    | none => rw [hv] at h; cases h
    | some v =>
      rw [hv] at h
      simp only [] at h
      have hv16 := hexVal_lt b v hv
      have hdig' : ∀ d ∈ hs ++ [v], d < 16 := by
        intro d hd
        rcases List.mem_append.mp hd with hd | hd
        · exact hdig d hd
        · simp at hd
          omega
      split at h
      · cases h
        rename_i hl4
        refine ⟨by simpa using hok0, hhi, hdig', ?_⟩
        simp only [List.length_append, List.length_cons,
          List.length_nil] at hl4 ⊢
        omega
      · split at h
        · injection h with hbs hph
          subst hbs
          subst hph
          rename_i hlo
          simp only [Bool.and_eq_true, decide_eq_true_eq] at hlo
          simp only [strOkAt]
          rw [utf8RunAux_append, hok0]
          apply utf8Encode_ok
          unfold surrPair
          omega
        · cases h

/-- A value-start byte that does not emit leaves the stack alone and
establishes the scalar consistency of the token it opens. -/
theorem startValue_none (p : PState) (b : Nat) (p' : PState)
    (hsc : p.scalar = .none)
    (h : startValue p b = (p', Option.none)) :
    p'.stack = p.stack ∧ curOk p' := by
  unfold startValue at h
  cases hv : vclass b <;> rw [hv] at h <;> simp only [] at h
  case ws =>
    cases h
    exact ⟨rfl, by simp [curOk, hsc]⟩
  case objOpen =>
    unfold pushFrame at h
    split at h <;> cases h
  case arrOpen =>
    unfold pushFrame at h
    split at h <;> cases h
  case quote =>
    cases h
    exact ⟨rfl, by simp [curOk, strOkAt, utf8RunAux]⟩
  case minus =>
    cases h
    refine ⟨rfl, ?_⟩
    simp only [curOk, numRun, (vclass_numStart b).1 hv]
    rfl
  case zero =>
    cases h
    refine ⟨rfl, ?_⟩
    simp only [curOk, numRun, (vclass_numStart b).2.1 hv]
    rfl
  case digit =>
    cases h
    refine ⟨rfl, ?_⟩
    simp only [curOk, numRun, (vclass_numStart b).2.2 hv]
    rfl
  case litT =>
    cases h
    exact ⟨rfl, by simp [curOk]⟩
  case litF =>
    cases h
    exact ⟨rfl, by simp [curOk]⟩
  case litN =>
    cases h
    exact ⟨rfl, by simp [curOk]⟩
  case ctrl => cases h
  case other => cases h

/-- Frame conditions of a non-emitting step: the container stack is
untouched and the current-value consistency is preserved. -/
theorem stepSimNone (p : PState) (b : Nat) (p' : PState)
    (hcur : curOk p) (hstep : step p b = (p', Option.none)) :
    p'.stack = p.stack ∧ curOk p' := by
  cases hs : p.scalar with
  | none =>
    rw [step] at hstep
    rw [hs] at hstep
    simp only [] at hstep
    cases hm : p.mode <;> rw [stepStruct] at hstep <;> rw [hm] at hstep <;>
      simp only [] at hstep
    case beforeValue => exact startValue_none p b p' hs hstep
    case arrFirst =>
      split at hstep
      · cases hstep
        exact ⟨rfl, by simp [curOk, hs]⟩
      · split at hstep
        · unfold popFrame at hstep
          (repeat' split at hstep) <;> cases hstep
        · exact startValue_none p b p' hs hstep
    all_goals
      ((repeat'
          first
          | (unfold popFrame at hstep
             (repeat' split at hstep) <;> cases hstep)
          | split at hstep) <;>
        (try cases hstep) <;>
        (refine ⟨rfl, ?_⟩) <;>
        first
        | rfl
        | simp [curOk, hs])
  | num ph =>
    rw [step] at hstep
    rw [hs] at hstep
    simp only [] at hstep
    cases ha : numStep ph b with
    | cont ph' =>
      rw [ha] at hstep
      simp only [] at hstep
      cases hstep
      refine ⟨rfl, ?_⟩
      have hold : numRun p.cur = some ph := by
        simpa [curOk, hs] using hcur
      simp only [curOk]
      exact numRun_snoc _ _ _ _ hold ha
    | err =>
      rw [ha] at hstep
      simp only [] at hstep
      cases hstep
    | term =>
      rw [ha] at hstep
      simp only [] at hstep
      cases hstep
  | str ph =>
    rw [step] at hstep
    rw [hs] at hstep
    simp only [] at hstep
    cases ha : strStep ph b <;> rw [ha] at hstep <;>
      simp only [] at hstep
    case app bs ph' =>
      cases hstep
      refine ⟨rfl, ?_⟩
      have hold : strOkAt p.cur ph := by
        simpa [curOk, hs] using hcur
      simp only [curOk]
      exact strStep_app_ok ph ph' b bs p.cur ha hold
    case close =>
      unfold closeString at hstep
      (repeat' split at hstep) <;> cases hstep
    case fail k => cases hstep
  | lit rest k =>
    rw [step] at hstep
    rw [hs] at hstep
    simp only [] at hstep
    cases rest with
    | nil => cases hstep
    | cons r rs =>
      simp only [] at hstep
      (repeat' split at hstep) <;> (try cases hstep) <;>
        exact ⟨rfl, by simp [curOk]⟩

theorem build_endArray_sim (md : Nat) (st st' : BState) (pb : Nat)
    (hstack : stackWf md st.bstack)
    (hres : ∀ w, st.result = some w → WfD w md)
    (hbound : st.bstack.length ≤ md)
    (hbuild : buildStep st ⟨.endArray, [], pb⟩ = some st') :
    st'.bstack.length + 1 = st.bstack.length ∧ stackWf md st'.bstack ∧
      (∀ w, st'.result = some w → WfD w md) := by
  unfold buildStep at hbuild
  simp only [] at hbuild
  cases hbs : st.bstack with
  | nil => rw [hbs] at hbuild; cases hbuild
  | cons f brest =>
    rw [hbs] at hbuild
    cases f with
    | obj fl => simp only [] at hbuild; cases hbuild
    | objPend fl k => simp only [] at hbuild; cases hbuild
    | arr items =>
      simp only [] at hbuild
      rw [hbs] at hstack hbound
      simp only [List.length_cons] at hbound
      have hv : WfD (.array items) (md - brest.length) := by
        have harith : md - (brest.length + 1) + 1 = md - brest.length := by
          omega
        rw [← harith]
        exact WfD.array items _ hstack.1
      have hw := placeValue_wf md ⟨brest, st.result⟩ (.array items) st'
        hstack.2 hres (by simpa using hv) hbuild
      exact ⟨by simpa using hw.2.2, hw.1, hw.2.1⟩

theorem build_endObject_sim (md : Nat) (st st' : BState) (pb : Nat)
    (hstack : stackWf md st.bstack)
    (hres : ∀ w, st.result = some w → WfD w md)
    (hbound : st.bstack.length ≤ md)
    (hbuild : buildStep st ⟨.endObject, [], pb⟩ = some st') :
    st'.bstack.length + 1 = st.bstack.length ∧ stackWf md st'.bstack ∧
      (∀ w, st'.result = some w → WfD w md) := by
  unfold buildStep at hbuild
  simp only [] at hbuild
  cases hbs : st.bstack with
  | nil => rw [hbs] at hbuild; cases hbuild
  | cons f brest =>
    rw [hbs] at hbuild
    cases f with
    | arr items => simp only [] at hbuild; cases hbuild
    | objPend fl k => simp only [] at hbuild; cases hbuild
    | obj fl =>
      simp only [] at hbuild
      rw [hbs] at hstack hbound
      simp only [List.length_cons] at hbound
      have hv : WfD (.object fl) (md - brest.length) := by
        have harith : md - (brest.length + 1) + 1 = md - brest.length := by
          omega
        rw [← harith]
        exact WfD.object fl _ (fun kv hkv => (hstack.1 kv hkv).1)
          (fun kv hkv => (hstack.1 kv hkv).2)
      have hw := placeValue_wf md ⟨brest, st.result⟩ (.object fl) st'
        hstack.2 hres (by simpa using hv) hbuild
      exact ⟨by simpa using hw.2.2, hw.1, hw.2.1⟩

/-- Simulation of an emitting step: the builder applied to the emission
keeps the stack lengths aligned and all accumulated values wellformed. -/
theorem stepSimEmit (md : Nat) (p : PState) (st : BState) (b : Nat)
    (p' : PState) (ev : JsonEvent) (st' : BState)
    (hlen : st.bstack.length = p.stack.length)
    (hbound : p.stack.length ≤ md)
    (hcur : curOk p)
    (hstack : stackWf md st.bstack)
    (hres : ∀ w, st.result = some w → WfD w md)
    (hstep : step p b = (p', some ev))
    (hbuild : buildStep st (mkEmitted p' ev) = some st') :
    st'.bstack.length = p'.stack.length ∧ curOk p' ∧
      stackWf md st'.bstack ∧ (∀ w, st'.result = some w → WfD w md) := by
  have hbound' : st.bstack.length ≤ md := by rw [hlen]; exact hbound
  cases hs : p.scalar with
  | none =>
    rw [step] at hstep
    rw [hs] at hstep
    simp only [] at hstep
    cases hm : p.mode <;> rw [stepStruct] at hstep <;> rw [hm] at hstep <;>
      simp only [] at hstep
    all_goals
      (repeat'
        first
        | (unfold startValue at hstep
           cases hv : vclass b <;> rw [hv] at hstep <;>
             simp only [] at hstep)
        | (unfold pushFrame at hstep
           split at hstep)
        | (unfold popFrame at hstep
           cases hps : p.stack with
           | nil => simp only [] at hstep
           | cons f' prest =>
             simp only [] at hstep
             split at hstep)
        | split at hstep)
    all_goals (try cases hstep)
    -- startObject pushes
    all_goals
      first
      | -- push of an object frame
        (simp only [buildStep, mkEmitted, scalarish] at hbuild
         cases hbuild
         refine ⟨by simp [hlen], by simp [curOk, hs], ⟨?_, hstack⟩, hres⟩
         intro kv hkv
         cases hkv)
      | -- push of an array frame
        (simp only [buildStep, mkEmitted, scalarish] at hbuild
         cases hbuild
         refine ⟨by simp [hlen], by simp [curOk, hs], ⟨?_, hstack⟩, hres⟩
         intro v hv2
         cases hv2)
      | -- error emissions never pass the builder
        (simp only [buildStep, mkEmitted, scalarish] at hbuild
         cases hbuild)
      | skip
    -- remaining: the pops
    all_goals
      (unfold popFrame at hstep
       cases hps : p.stack with
       | nil =>
         rw [hps] at hstep
         simp only [] at hstep
         cases hstep
         simp only [buildStep, mkEmitted, scalarish] at hbuild
         cases hbuild
       | cons f' prest =>
         rw [hps] at hstep
         simp only [] at hstep
         split at hstep <;> cases hstep
         · rw [hps] at hlen
           simp only [List.length_cons] at hlen
           first
           | (have hw := build_endObject_sim md st st' p.parsed hstack hres
                hbound'
                (by simpa [mkEmitted, scalarish] using hbuild)
              refine ⟨?_, by simp [curOk], hw.2.1, hw.2.2⟩
              simp only []
              omega)
           | (have hw := build_endArray_sim md st st' p.parsed hstack hres
                hbound'
                (by simpa [mkEmitted, scalarish] using hbuild)
              refine ⟨?_, by simp [curOk], hw.2.1, hw.2.2⟩
              simp only []
              omega)
         · simp only [buildStep, mkEmitted, scalarish] at hbuild
           cases hbuild)
  | num ph =>
    rw [step] at hstep
    rw [hs] at hstep
    simp only [] at hstep
    cases ha : numStep ph b with
    | cont ph' =>
      rw [ha] at hstep
      simp only [] at hstep
      cases hstep
    | err =>
      rw [ha] at hstep
      simp only [] at hstep
      cases hstep
      simp only [buildStep, mkEmitted, scalarish] at hbuild
      cases hbuild
    | term =>
      rw [ha] at hstep
      simp only [] at hstep
      cases hstep
      have hnum : NumOk p.cur :=
        ⟨ph, by simpa [curOk, hs] using hcur, numStep_term_complete ph b ha⟩
      have hplace : placeValue st (.number p.cur) = some st' := by
        unfold numEvent at hbuild
        by_cases hisf : ph.isFloat = true
        · rw [if_pos hisf] at hbuild
          simpa [buildStep, mkEmitted, scalarish, completeValue] using hbuild
        · rw [if_neg hisf] at hbuild
          simpa [buildStep, mkEmitted, scalarish, completeValue] using hbuild
      have hw := placeValue_wf md st (.number p.cur) st' hstack hres
        (WfD.number _ _ hnum) hplace
      refine ⟨?_, by simp [curOk, completeValue], hw.1, hw.2.1⟩
      simp only [completeValue]
      rw [hw.2.2, hlen]
  | str ph =>
    rw [step] at hstep
    rw [hs] at hstep
    simp only [] at hstep
    cases ha : strStep ph b with
    | app bs ph' =>
      rw [ha] at hstep
      simp only [] at hstep
      cases hstep
    | fail k =>
      rw [ha] at hstep
      simp only [] at hstep
      cases hstep
      simp only [buildStep, mkEmitted, scalarish] at hbuild
      cases hbuild
    | close =>
      rw [ha] at hstep
      simp only [] at hstep
      have hb0 : ph = .body 0 := strStep_close_body0 ph b ha
      have hsOk : StrOk p.cur := by
        have := hcur
        rw [curOk, hs, hb0] at this
        exact this
      unfold closeString at hstep
      cases hm : p.mode <;> rw [hm] at hstep <;> simp only [] at hstep <;>
        cases hstep
      case objFirstKey.refl | objMustKey.refl =>
        simp only [buildStep, mkEmitted, scalarish] at hbuild
        cases hbs : st.bstack with
        | nil => rw [hbs] at hbuild; cases hbuild
        | cons f brest =>
          rw [hbs] at hbuild
          cases f with
          | arr items => simp only [] at hbuild; cases hbuild
          | objPend fl k => simp only [] at hbuild; cases hbuild
          | obj fl =>
            simp only [] at hbuild
            cases hbuild
            rw [hbs] at hstack hlen
            simp only [List.length_cons] at hlen
            refine ⟨by simpa using hlen, by simp [curOk], ?_, hres⟩
            exact ⟨⟨hstack.1, hsOk⟩, hstack.2⟩
      all_goals
        (have hplace : placeValue st (.string p.cur) = some st' := by
          simpa [buildStep, mkEmitted, scalarish, completeValue] using hbuild
         have hw := placeValue_wf md st (.string p.cur) st' hstack hres
          (WfD.string _ _ hsOk) hplace
         refine ⟨?_, by simp [curOk, completeValue], hw.1, hw.2.1⟩
         simp only [completeValue]
         rw [hw.2.2, hlen])
  | lit rest k =>
    rw [step] at hstep
    rw [hs] at hstep
    simp only [] at hstep
    cases rest with
    | nil =>
      simp only [] at hstep
      cases hstep
      simp only [buildStep, mkEmitted, scalarish] at hbuild
      cases hbuild
    | cons r rs =>
      simp only [] at hstep
      split at hstep
      · split at hstep
        · cases hstep
          cases k
          all_goals
            (simp only [LitKind.event] at hbuild
             first
             | (have hplace : placeValue st (.boolean true) = some st' := by
                  simpa [buildStep, mkEmitted, scalarish, completeValue]
                    using hbuild
                have hw := placeValue_wf md st (.boolean true) st' hstack
                  hres (WfD.boolean true _) hplace
                refine ⟨?_, by simp [curOk, completeValue], hw.1, hw.2.1⟩
                simp only [completeValue]
                rw [hw.2.2, hlen])
             | (have hplace : placeValue st (.boolean false) = some st' := by
                  simpa [buildStep, mkEmitted, scalarish, completeValue]
                    using hbuild
                have hw := placeValue_wf md st (.boolean false) st' hstack
                  hres (WfD.boolean false _) hplace
                refine ⟨?_, by simp [curOk, completeValue], hw.1, hw.2.1⟩
                simp only [completeValue]
                rw [hw.2.2, hlen])
             | (have hplace : placeValue st .null = some st' := by
                  simpa [buildStep, mkEmitted, scalarish, completeValue]
                    using hbuild
                have hw := placeValue_wf md st .null st' hstack hres
                  (WfD.null _) hplace
                refine ⟨?_, by simp [curOk, completeValue], hw.1, hw.2.1⟩
                simp only [completeValue]
                rw [hw.2.2, hlen]))
        · cases hstep
      · cases hstep
        simp only [buildStep, mkEmitted, scalarish] at hbuild
        cases hbuild

theorem popFrame_pushback (p : PState) (f : Frame) (ev : JsonEvent) :
    (popFrame p f ev).1.pushback = p.pushback := by
  unfold popFrame
  cases p.stack with
  | nil => rfl
  | cons f' rest =>
    simp only []
    split <;> rfl

/-- Structural byte processing never touches the pushback slot. -/
theorem step_pushback_of_none (p : PState) (b : Nat)
    (hs : p.scalar = Scalar.none) :
    (step p b).1.pushback = p.pushback := by
  rw [step]
  rw [hs]
  simp only []
  cases hm : p.mode <;> rw [stepStruct] <;> rw [hm] <;> simp only [] <;>
    (repeat'
      first
      | (unfold startValue
         cases hv : vclass b <;> simp only [])
      | (unfold pushFrame
         split)
      | split) <;>
    first
      | rfl
      | exact popFrame_pushback _ _ _

/-- The pushback slot is only ever set by a number termination, which
clears the scalar sub-state. -/
theorem step_pushback (p : PState) (b : Nat) :
    (step p b).1.pushback = p.pushback ∨
      ((step p b).1.scalar = Scalar.none ∧
        (step p b).1.pushback = some b) := by
  cases hs : p.scalar with
  | none => exact Or.inl (step_pushback_of_none p b hs)
  | num ph =>
    rw [step]
    rw [hs]
    simp only []
    cases ha : numStep ph b
    case cont ph' => left; rfl
    case err => left; rfl
    case term => right; exact ⟨rfl, rfl⟩
  | str ph =>
    rw [step]
    rw [hs]
    simp only []
    left
    cases ha : strStep ph b
    case app bs ph' => rfl
    case close =>
      unfold closeString
      cases hm : p.mode <;> rfl
    case fail k => rfl
  | lit rest k =>
    rw [step]
    rw [hs]
    simp only []
    left
    cases rest with
    | nil => rfl
    | cons r rs =>
      simp only []
      (repeat' split) <;> rfl

/-- Simulation of an end-of-input step through the builder. -/
theorem endstepSim (md : Nat) (p : PState) (st : BState) (p' : PState)
    (ev : JsonEvent) (st' : BState)
    (hlen : st.bstack.length = p.stack.length)
    (hcur : curOk p)
    (hstack : stackWf md st.bstack)
    (hres : ∀ w, st.result = some w → WfD w md)
    (hend : endstep p = (p', ev))
    (hbuild : buildStep st (mkEmitted p' ev) = some st') :
    st'.bstack.length = p'.stack.length ∧ curOk p' ∧
      stackWf md st'.bstack ∧ (∀ w, st'.result = some w → WfD w md) := by
  unfold endstep at hend
  cases hs : p.scalar with
  | num ph =>
    rw [hs] at hend
    simp only [] at hend
    split at hend
    · cases hend
      rename_i hcomp
      have hnum : NumOk p.cur :=
        ⟨ph, by simpa [curOk, hs] using hcur, hcomp⟩
      have hplace : placeValue st (.number p.cur) = some st' := by
        unfold numEvent at hbuild
        by_cases hisf : ph.isFloat = true
        · rw [if_pos hisf] at hbuild
          simpa [buildStep, mkEmitted, scalarish, completeValue] using hbuild
        · rw [if_neg hisf] at hbuild
          simpa [buildStep, mkEmitted, scalarish, completeValue] using hbuild
      have hw := placeValue_wf md st (.number p.cur) st' hstack hres
        (WfD.number _ _ hnum) hplace
      refine ⟨?_, by simp [curOk, completeValue], hw.1, hw.2.1⟩
      simp only [completeValue]
      rw [hw.2.2, hlen]
    · cases hend
      simp only [buildStep, mkEmitted, scalarish] at hbuild
      cases hbuild
  | str ph =>
    rw [hs] at hend
    simp only [] at hend
    cases hend
    simp only [buildStep, mkEmitted, scalarish] at hbuild
    cases hbuild
  | lit rest k =>
    rw [hs] at hend
    simp only [] at hend
    cases hend
    simp only [buildStep, mkEmitted, scalarish] at hbuild
    cases hbuild
  | none =>
    rw [hs] at hend
    simp only [] at hend
    cases hm : p.mode <;> rw [hm] at hend <;> simp only [] at hend
    case done =>
      cases hend
      have hst : st' = st := by
        simpa [buildStep, mkEmitted, scalarish] using hbuild.symm
      subst hst
      exact ⟨hlen, by simpa [curOk, hs] using hcur, hstack, hres⟩
    case beforeValue =>
      split at hend
      · cases hend
        have hst : st' = st := by
          simpa [buildStep, mkEmitted, scalarish] using hbuild.symm
        subst hst
        exact ⟨hlen, by simpa [curOk, hs] using hcur, hstack, hres⟩
      · cases hend
        simp only [buildStep, mkEmitted, scalarish] at hbuild
        cases hbuild
    all_goals
      (cases hend
       simp only [buildStep, mkEmitted, scalarish] at hbuild
       cases hbuild)

theorem buildFold_append (st : BState) (l1 l2 : List Emitted) :
    buildFold st (l1 ++ l2) =
      match buildFold st l1 with
      | some st1 => buildFold st1 l2
      | Option.none => Option.none := by
  induction l1 generalizing st with
  | nil => rfl
  | cons em t ih =>
    simp only [List.cons_append, buildFold]
    cases buildStep st em <;> simp [ih]

/-- Feeding one byte preserves the coupled invariant whenever the builder
accepts the emitted events. -/
theorem consumeSim (md : Nat) (p : PState) (st : BState) (b : Nat)
    (p' : PState) (ems : List Emitted) (st' : BState)
    (hInv : InvA md p st)
    (hc : consume p b = (p', ems))
    (hfold : buildFold st ems = some st') :
    InvA md p' st' := by
  obtain ⟨hmd, hpb, hlen, hbound, hcur, hstack, hres⟩ := hInv
  unfold consume at hc
  simp only [] at hc
  rcases h1 : step { p with parsed := p.parsed + 1 } b with ⟨p1, oev1⟩
  rw [h1] at hc
  have sf1 := step_facts { p with parsed := p.parsed + 1 } b
  rw [h1] at sf1
  have hmd1 : p1.maxDepth = md := sf1.2.2.1.trans hmd
  cases oev1 with
  | none =>
    simp only [] at hc
    injection hc with ha hb
    subst ha
    subst hb
    simp only [buildFold] at hfold
    injection hfold with h3
    subst h3
    have hsn := stepSimNone { p with parsed := p.parsed + 1 } b p1 hcur h1
    have hpb1 : p1.pushback = Option.none :=
      (sf1.2.2.2.2.2.1 rfl).trans hpb
    refine ⟨hmd1, hpb1, ?_, ?_, hsn.2, hstack, hres⟩
    · rw [hsn.1]; exact hlen
    · rw [hsn.1]; exact hbound
  | some ev =>
    simp only [] at hc
    cases hpb1 : p1.pushback with
    | none =>
      rw [hpb1] at hc
      simp only [] at hc
      injection hc with ha hb
      subst ha
      subst hb
      simp only [buildFold] at hfold
      cases hb1 : buildStep st (mkEmitted p1 ev) with
      | none => rw [hb1] at hfold; exact Option.noConfusion hfold
      | some st1 =>
        rw [hb1] at hfold
        injection hfold with h3
        subst h3
        have hsim := stepSimEmit md { p with parsed := p.parsed + 1 } st b
          p1 ev st1 hlen hbound hcur hstack hres h1 hb1
        have hbound1 : p1.stack.length ≤ md :=
          le_of_le_of_eq (sf1.2.2.2.2.2.2 (le_of_le_of_eq hbound hmd.symm))
            hmd
        exact ⟨hmd1, hpb1, hsim.1, hbound1, hsim.2.1, hsim.2.2.1,
          hsim.2.2.2⟩
    | some c =>
      rw [hpb1] at hc
      simp only [] at hc
      have hsc1 : p1.scalar = Scalar.none := by
        rcases step_pushback { p with parsed := p.parsed + 1 } b with h | h
        · rw [h1] at h
          rw [hpb1] at h
          exact Option.noConfusion (hpb.symm.trans h.symm)
        · rw [h1] at h
          exact h.1
      rcases h2 : step { p1 with pushback := Option.none } c with ⟨p3, oev2⟩
      rw [h2] at hc
      have sf2 := step_facts { p1 with pushback := Option.none } c
      rw [h2] at sf2
      have hmd3 : p3.maxDepth = md := sf2.2.2.1.trans hmd1
      have hbound1 : p1.stack.length ≤ md :=
        le_of_le_of_eq (sf1.2.2.2.2.2.2 (le_of_le_of_eq hbound hmd.symm))
          hmd
      cases oev2 with
      | none =>
        simp only [] at hc
        injection hc with ha hb
        subst ha
        subst hb
        simp only [buildFold] at hfold
        cases hb1 : buildStep st (mkEmitted p1 ev) with
        | none => rw [hb1] at hfold; exact Option.noConfusion hfold
        | some st1 =>
          rw [hb1] at hfold
          injection hfold with h3
          subst h3
          have hsim := stepSimEmit md { p with parsed := p.parsed + 1 } st b
            p1 ev st1 hlen hbound hcur hstack hres h1 hb1
          have hsn := stepSimNone { p1 with pushback := Option.none } c p3
            hsim.2.1 h2
          have hpb3 : p3.pushback = Option.none :=
            sf2.2.2.2.2.2.1 rfl
          refine ⟨hmd3, hpb3, ?_, ?_, hsn.2, hsim.2.2.1, hsim.2.2.2⟩
          · rw [hsn.1]; exact hsim.1
          · rw [hsn.1]; exact hbound1
      | some ev2 =>
        simp only [] at hc
        injection hc with ha hb
        subst ha
        subst hb
        simp only [buildFold] at hfold
        cases hb1 : buildStep st (mkEmitted p1 ev) with
        | none => rw [hb1] at hfold; exact Option.noConfusion hfold
        | some st1 =>
          rw [hb1] at hfold
          simp only [] at hfold
          cases hb2 : buildStep st1 (mkEmitted p3 ev2) with
          | none => rw [hb2] at hfold; exact Option.noConfusion hfold
          | some st2 =>
            rw [hb2] at hfold
            injection hfold with h3
            subst h3
            have hsim1 := stepSimEmit md { p with parsed := p.parsed + 1 }
              st b p1 ev st1 hlen hbound hcur hstack hres h1 hb1
            have hsim2 := stepSimEmit md { p1 with pushback := Option.none }
              st1 c p3 ev2 st2 hsim1.1 hbound1 hsim1.2.1 hsim1.2.2.1
              hsim1.2.2.2 h2 hb2
            have hpb3 : p3.pushback = Option.none := by
              have h := step_pushback_of_none
                { p1 with pushback := Option.none } c hsc1
              rw [h2] at h
              exact h
            have hbound3 : p3.stack.length ≤ md :=
              le_of_le_of_eq
                (sf2.2.2.2.2.2.2 (le_of_le_of_eq hbound1 hmd1.symm)) hmd1
            exact ⟨hmd3, hpb3, hsim2.1, hbound3, hsim2.2.1, hsim2.2.2.1,
              hsim2.2.2.2⟩

/-- Feeding a whole byte list preserves the coupled invariant. -/
theorem processAllSim (md : Nat) (S : List Nat) (p : PState) (st : BState)
    (st' : BState) (hInv : InvA md p st)
    (hfold : buildFold st (processAll p S).2 = some st') :
    InvA md (processAll p S).1 st' := by
  induction S generalizing p st with
  | nil =>
    simp only [processAll, buildFold] at hfold ⊢
    injection hfold with h
    subst h
    exact hInv
  | cons b rest ih =>
    simp only [processAll] at hfold ⊢
    rw [buildFold_append] at hfold
    cases h1 : buildFold st (consume p b).2 with
    | none => rw [h1] at hfold; exact Option.noConfusion hfold
    | some st1 =>
      rw [h1] at hfold
      simp only [] at hfold
      have hInv1 := consumeSim md p st b (consume p b).1 (consume p b).2
        st1 hInv rfl h1
      exact ih (consume p b).1 st1 hInv1 hfold

/-- The end-of-input emissions preserve the wellformedness of any built
result. -/
theorem finishSim (md : Nat) (p : PState) (st : BState) (st' : BState)
    (hlen : st.bstack.length = p.stack.length)
    (hcur : curOk p)
    (hstack : stackWf md st.bstack)
    (hres : ∀ w, st.result = some w → WfD w md)
    (hfold : buildFold st (finishEvents p) = some st') :
    ∀ w, st'.result = some w → WfD w md := by
  unfold finishEvents at hfold
  simp only [] at hfold
  rcases h1 : endstep p with ⟨p1, ev1⟩
  rw [h1] at hfold
  split at hfold
  · simp only [buildFold] at hfold
    cases hb1 : buildStep st (mkEmitted p1 ev1) with
    | none => rw [hb1] at hfold; exact Option.noConfusion hfold
    | some st1 =>
      rw [hb1] at hfold
      injection hfold with h
      subst h
      exact (endstepSim md p st p1 ev1 st1 hlen hcur hstack hres h1
        hb1).2.2.2
  · rcases h2 : endstep p1 with ⟨p2, ev2⟩
    rw [h2] at hfold
    simp only [buildFold] at hfold
    cases hb1 : buildStep st (mkEmitted p1 ev1) with
    | none => rw [hb1] at hfold; exact Option.noConfusion hfold
    | some st1 =>
      rw [hb1] at hfold
      simp only [] at hfold
      have hs1 := endstepSim md p st p1 ev1 st1 hlen hcur hstack hres h1 hb1
      cases hb2 : buildStep st1 (mkEmitted p2 ev2) with
      | none => rw [hb2] at hfold; exact Option.noConfusion hfold
      | some st2 =>
        rw [hb2] at hfold
        injection hfold with h
        subst h
        exact (endstepSim md p1 st1 p2 ev2 st2 hs1.1 hs1.2.1 hs1.2.2.1
          hs1.2.2.2 h2 hb2).2.2.2

/-- The starting coupled invariant holds. -/
theorem initInv (md : Nat) (streaming : Bool) :
    InvA md (initState streaming md) ⟨[], Option.none⟩ := by
  refine ⟨rfl, rfl, rfl, by simp [initState], ?_, trivial, ?_⟩
  · simp [curOk, initState]
  · intro w hw
    cases hw

/-- Part A of the round trip: any value built from the events of a run is
wellformed within the configured depth. -/
theorem buildJson_wf (md : Nat) (S : List Nat) (v : Json)
    (hb : buildJson (docEvents (initState false md) S) = some v) :
    WfD v md := by
  unfold buildJson at hb
  cases hf : buildFold ⟨[], Option.none⟩ (docEvents (initState false md) S)
    with
  | none =>
    rw [hf] at hb
    exact Option.noConfusion hb
  | some stF =>
    rw [hf] at hb
    unfold docEvents at hf
    simp only [] at hf
    rw [buildFold_append] at hf
    cases h1 : buildFold ⟨[], Option.none⟩
      (processAll (initState false md) S).2 with
    | none => rw [h1] at hf; exact Option.noConfusion hf
    | some st1 =>
      rw [h1] at hf
      simp only [] at hf
      have hInv1 := processAllSim md S (initState false md)
        ⟨[], Option.none⟩ st1 (initInv md false) h1
      have hwf := finishSim md (processAll (initState false md) S).1 st1
        stF hInv1.hlen hInv1.hcur hInv1.hstack hInv1.hres hf
      rcases stF with ⟨bs, res⟩
      cases bs with
      | nil =>
        cases res with
        | none => exact Option.noConfusion hb
        | some w =>
          injection hb with h
          subst h
          exact hwf w rfl
      | cons f fs => exact Option.noConfusion hb

theorem consume_eq_none (p : PState) (b : Nat) (p1 : PState)
    (h : step { p with parsed := p.parsed + 1 } b = (p1, Option.none)) :
    consume p b = (p1, []) := by
  unfold consume
  simp only []
  rw [h]

theorem consume_eq_emit (p : PState) (b : Nat) (p1 : PState)
    (ev : JsonEvent)
    (h : step { p with parsed := p.parsed + 1 } b = (p1, some ev))
    (hpb : p1.pushback = Option.none) :
    consume p b = (p1, [mkEmitted p1 ev]) := by
  unfold consume
  simp only []
  rw [h]
  simp only []
  rw [hpb]

theorem consume_eq_push (p : PState) (b : Nat) (p1 : PState)
    (ev : JsonEvent) (c : Nat) (p3 : PState) (ev2 : JsonEvent)
    (h : step { p with parsed := p.parsed + 1 } b = (p1, some ev))
    (hpb : p1.pushback = some c)
    (h2 : step { p1 with pushback := Option.none } c = (p3, some ev2)) :
    consume p b = (p3, [mkEmitted p1 ev, mkEmitted p3 ev2]) := by
  unfold consume
  simp only []
  rw [h]
  simp only []
  rw [hpb]
  simp only []
  rw [h2]

theorem consume_eq_push_none (p : PState) (b : Nat) (p1 : PState)
    (ev : JsonEvent) (c : Nat) (p3 : PState)
    (h : step { p with parsed := p.parsed + 1 } b = (p1, some ev))
    (hpb : p1.pushback = some c)
    (h2 : step { p1 with pushback := Option.none } c =
      (p3, Option.none)) :
    consume p b = (p3, [mkEmitted p1 ev]) := by
  unfold consume
  simp only []
  rw [h]
  simp only []
  rw [hpb]
  simp only []
  rw [h2]

theorem processAll_silent (p p1 : PState) (b : Nat) (t : List Nat)
    (h : consume p b = (p1, [])) :
    processAll p (b :: t) = processAll p1 t := by
  simp only [processAll]
  rw [h]
  simp

theorem processAll_append (p : PState) (l1 l2 : List Nat) :
    processAll p (l1 ++ l2) =
      ((processAll (processAll p l1).1 l2).1,
        (processAll p l1).2 ++ (processAll (processAll p l1).1 l2).2) := by
  induction l1 generalizing p with
  | nil => simp [processAll]
  | cons b t ih =>
    simp only [List.cons_append, processAll, List.append_eq]
    rw [ih (consume p b).1]
    simp [List.append_assoc]

theorem step_scalar_none (p : PState) (b : Nat)
    (hs : p.scalar = Scalar.none) : step p b = stepStruct p b := by
  rw [step, hs]

theorem step_scalar_num (p : PState) (ph : NumPhase) (b : Nat)
    (hs : p.scalar = Scalar.num ph) :
    step p b =
      match numStep ph b with
      | .cont ph' =>
        ({ p with scalar := .num ph', cur := p.cur ++ [b] }, Option.none)
      | .err => (p, some (.error .syntaxError))
      | .term =>
        (completeValue { p with pushback := some b }, some (numEvent ph))
      := by
  rw [step, hs]

theorem step_scalar_str (p : PState) (ph : StrPhase) (b : Nat)
    (hs : p.scalar = Scalar.str ph) :
    step p b =
      match strStep ph b with
      | .app bs ph' =>
        ({ p with scalar := .str ph', cur := p.cur ++ bs }, Option.none)
      | .close => closeString p
      | .fail k => (p, some (.error k)) := by
  rw [step, hs]

theorem step_lit_cont (p : PState) (r : Nat) (rs : List Nat) (k : LitKind)
    (hs : p.scalar = Scalar.lit (r :: rs) k) (hne : rs ≠ []) :
    step p r = ({ p with scalar := .lit rs k }, Option.none) := by
  rcases p with ⟨m, stk, sc, cur, prsd, pb, term, strm, mdep⟩
  simp only [] at hs
  subst hs
  simp [step, hne, List.isEmpty_iff]

theorem step_lit_last (p : PState) (r : Nat) (k : LitKind)
    (hs : p.scalar = Scalar.lit [r] k) :
    step p r = (completeValue p, some k.event) := by
  rcases p with ⟨m, stk, sc, cur, prsd, pb, term, strm, mdep⟩
  simp only [] at hs
  subst hs
  simp [step]

/-- A separator or closer byte terminates any complete number token. -/
theorem numStep_sep_term (ph : NumPhase) (b : Nat)
    (hph : ph.complete = true) (hd : isDigit b = false) (h1 : b ≠ 0x2E)
    (h2 : b ≠ 0x65) (h3 : b ≠ 0x45) : numStep ph b = .term := by
  cases ph <;> simp_all [NumPhase.complete, numStep]

theorem hexVal_hexDigit (k : Nat) (h : k < 16) :
    hexVal (hexDigit k) = some k := by
  by_cases h10 : k < 10
  · have hd : hexDigit k = 0x30 + k := by
      unfold hexDigit
      rw [if_pos h10]
    rw [hd]
    unfold hexVal
    rw [if_pos (by
      simp only [Bool.and_eq_true, decide_eq_true_eq]
      omega)]
    congr 1
    omega
  · have hd : hexDigit k = 0x61 + k - 10 := by
      unfold hexDigit
      rw [if_neg h10]
    rw [hd]
    unfold hexVal
    rw [if_neg (by
      simp only [Bool.and_eq_true, decide_eq_true_eq, not_and]
      omega)]
    rw [if_pos (by
      simp only [Bool.and_eq_true, decide_eq_true_eq]
      omega)]
    congr 1
    omega

theorem strStep_body0_plain (b n : Nat) (h1 : ¬b = 0x22)
    (h2 : ¬b = 0x5C) (h3 : ¬b < 0x20) (h4 : utf8Need b = some n) :
    strStep (.body 0) b = .app [b] (.body n) := by
  unfold strStep
  rw [if_neg h1, if_neg h2, if_neg h3, h4]
  cases n <;> rfl

theorem strStep_cont (b k : Nat) (h : isContByte b = true) :
    strStep (.body (k + 1)) b = .app [b] (.body k) := by
  have he : strStep (.body (k + 1)) b =
      if isContByte b then .app [b] (.body k) else .fail .invalidUtf8 :=
    rfl
  rw [he, if_pos h]

theorem strFold_append (t1 t2 : List Nat) (ph : StrPhase) :
    strFold ph (t1 ++ t2) =
      match strFold ph t1 with
      | some (ph1, ds1) =>
        match strFold ph1 t2 with
        | some (ph2, ds2) => some (ph2, ds1 ++ ds2)
        | Option.none => Option.none
      | Option.none => Option.none := by
  induction t1 generalizing ph with
  | nil =>
    simp only [List.nil_append, strFold]
    cases strFold ph t2 with
    | none => rfl
    | some r => rcases r with ⟨ph2, ds2⟩; simp
  | cons b t ih =>
    simp only [List.cons_append, strFold, List.append_eq]
    cases strStep ph b with
    | app bs ph1 =>
      simp only []
      rw [ih ph1]
      cases strFold ph1 t with
      | none => rfl
      | some r1 =>
        rcases r1 with ⟨phA, dsA⟩
        simp only []
        cases strFold phA t2 with
        | none => rfl
        | some r2 => rcases r2 with ⟨phB, dsB⟩; simp [List.append_assoc]
    | close => rfl
    | fail k => rfl

theorem strFold_cons_app (ph : StrPhase) (b : Nat) (t : List Nat)
    (bs : List Nat) (ph1 : StrPhase) (h : strStep ph b = .app bs ph1) :
    strFold ph (b :: t) =
      match strFold ph1 t with
      | some (ph2, ds) => some (ph2, bs ++ ds)
      | Option.none => Option.none := by
  simp only [strFold]
  rw [h]

theorem strStep_hex_cont (hs : List Nat) (b v : Nat)
    (hv : hexVal b = some v) (hlen : hs.length < 3) :
    strStep (.hex hs) b = .app [] (.hex (hs ++ [v])) := by
  unfold strStep
  rw [hv]
  simp only []
  rw [if_pos (by
    simp only [List.length_append, List.length_cons, List.length_nil]
    omega)]

theorem strStep_hex_last (hs : List Nat) (b v : Nat)
    (hv : hexVal b = some v) (hlen : hs.length = 3) (cp : Nat)
    (hcp : (hs ++ [v]).foldl (fun a d => a * 16 + d) 0 = cp)
    (hlo : cp < 0xD800) :
    strStep (.hex hs) b = .app (utf8Encode cp) (.body 0) := by
  unfold strStep
  rw [hv]
  simp only []
  rw [if_neg (by
    simp only [List.length_append, List.length_cons, List.length_nil]
    omega)]
  rw [hcp]
  rw [if_neg (by
    simp only [Bool.and_eq_true, decide_eq_true_eq, not_and]
    omega)]
  rw [if_neg (by
    simp only [Bool.and_eq_true, decide_eq_true_eq, not_and]
    omega)]

/-- One escaped source byte runs the string sub-automaton from an
expecting-lead-byte state to the state its own UTF-8 class dictates,
decoding back to exactly that byte. -/
theorem escUnit0 (b n : Nat) (h : utf8Need b = some n) :
    strFold (.body 0) (escapeByte b) = some (.body n, [b]) := by
  by_cases hq : b = 0x22
  · subst hq
    have hn : n = 0 := by
      rw [utf8Need_ascii 0x22 (by omega)] at h
      injection h with h
      omega
    subst hn
    rfl
  · by_cases hbs : b = 0x5C
    · subst hbs
      have hn : n = 0 := by
        rw [utf8Need_ascii 0x5C (by omega)] at h
        injection h with h
        omega
      subst hn
      rfl
    · by_cases hc : b < 0x20
      · have hn : n = 0 := by
          rw [utf8Need_ascii b (by omega)] at h
          injection h with h
          omega
        subst hn
        have hdiv : b / 16 < 16 := by omega
        have hmod : b % 16 < 16 := by omega
        have henc : utf8Encode b = [b] := by
          unfold utf8Encode
          rw [if_pos (by omega : b < 0x80)]
        have s1 : strStep (.body 0) 0x5C = .app [] .esc := rfl
        have s2 : strStep .esc 0x75 = .app [] (.hex []) := rfl
        have s3 : strStep (.hex []) 0x30 = .app [] (.hex [0]) := rfl
        have s4 : strStep (.hex [0]) 0x30 = .app [] (.hex [0, 0]) := rfl
        have s5 : strStep (.hex [0, 0]) (hexDigit (b / 16)) =
            .app [] (.hex [0, 0, b / 16]) := by
          have := strStep_hex_cont [0, 0] (hexDigit (b / 16)) (b / 16)
            (hexVal_hexDigit _ hdiv) (by simp)
          simpa using this
        have s6 : strStep (.hex [0, 0, b / 16]) (hexDigit (b % 16)) =
            .app (utf8Encode b) (.body 0) := by
          apply strStep_hex_last [0, 0, b / 16] (hexDigit (b % 16))
            (b % 16) (hexVal_hexDigit _ hmod) (by simp) b
          · simp only [List.foldl]
            omega
          · omega
        have hesc : escapeByte b =
            [0x5C, 0x75, 0x30, 0x30, hexDigit (b / 16),
              hexDigit (b % 16)] := by
          unfold escapeByte
          rw [if_neg hq, if_neg hbs, if_pos hc]
        rw [hesc]
        rw [strFold_cons_app _ _ _ _ _ s1]
        rw [strFold_cons_app _ _ _ _ _ s2]
        rw [strFold_cons_app _ _ _ _ _ s3]
        rw [strFold_cons_app _ _ _ _ _ s4]
        rw [strFold_cons_app _ _ _ _ _ s5]
        rw [strFold_cons_app _ _ _ _ _ s6]
        rw [henc]
        simp [strFold]
      · have hesc : escapeByte b = [b] := by
          unfold escapeByte
          rw [if_neg hq, if_neg hbs, if_neg hc]
        rw [hesc]
        rw [strFold_cons_app _ _ _ _ _
          (strStep_body0_plain b n hq hbs hc h)]
        simp [strFold]

theorem escUnit1 (b k : Nat) (h : isContByte b = true) :
    strFold (.body (k + 1)) (escapeByte b) = some (.body k, [b]) := by
  have hb : 0x80 ≤ b ∧ b ≤ 0xBF := by
    unfold isContByte at h
    simp only [Bool.and_eq_true, decide_eq_true_eq] at h
    exact h
  have hesc : escapeByte b = [b] := by
    unfold escapeByte
    rw [if_neg (by omega), if_neg (by omega), if_neg (by omega)]
  rw [hesc]
  rw [strFold_cons_app _ _ _ _ _ (strStep_cont b k h)]
  simp [strFold]

/-- Escaped text runs the string sub-automaton exactly like the UTF-8
acceptor on the source bytes, decoding back to the source bytes. -/
theorem escBody_strFold (s : List Nat) : ∀ need need',
    utf8RunAux need s = some need' →
    strFold (.body need) (escBody s) = some (.body need', s) := by
  induction s with
  | nil =>
    intro need need' h
    simp only [utf8RunAux] at h
    injection h with h
    subst h
    rfl
  | cons b t ih =>
    intro need need' h
    have hstep : escBody (b :: t) = escapeByte b ++ escBody t := by
      simp [escBody]
    rw [hstep]
    cases need with
    | zero =>
      have hred : utf8RunAux 0 (b :: t) =
          match utf8Need b with
          | some n => utf8RunAux n t
          | Option.none => Option.none := rfl
      rw [hred] at h
      cases hu : utf8Need b with
      | none => rw [hu] at h; cases h
      | some n =>
        rw [hu] at h
        simp only [] at h
        rw [strFold_append, escUnit0 b n hu]
        simp only []
        rw [ih n need' h]
        rfl
    | succ m =>
      have hred : utf8RunAux (m + 1) (b :: t) =
          if isContByte b then utf8RunAux m t else Option.none := rfl
      rw [hred] at h
      by_cases hc : isContByte b
      · rw [if_pos hc] at h
        rw [strFold_append, escUnit1 b m hc]
        simp only []
        rw [ih m need' h]
        rfl
      · rw [if_neg hc] at h
        cases h

/-- Processing the remaining bytes of a keyword literal emits its event
and completes the value. -/
theorem litFoldRun (t : List Nat) : ∀ p k, p.scalar = Scalar.lit t k →
    p.pushback = Option.none → t ≠ [] →
    ∃ p', processAll p t = (p', [mkEmitted p' k.event]) ∧
      p'.scalar = Scalar.none ∧
      p'.mode = advanceMode p.streaming p.stack ∧
      p'.stack = p.stack ∧ p'.streaming = p.streaming ∧
      p'.maxDepth = p.maxDepth ∧ p'.terminated = p.terminated ∧
      p'.pushback = Option.none := by
  induction t with
  | nil =>
    intro p k hs hpb hne
    exact absurd rfl hne
  | cons r rs ih =>
    intro p k hs hpb hne
    cases rs with
    | nil =>
      have hstep : step { p with parsed := p.parsed + 1 } r =
          (completeValue { p with parsed := p.parsed + 1 },
            some k.event) :=
        step_lit_last _ r k hs
      have hcons := consume_eq_emit p r _ k.event hstep hpb
      refine ⟨completeValue { p with parsed := p.parsed + 1 }, ?_, rfl,
        rfl, rfl, rfl, rfl, rfl, hpb⟩
      simp [processAll, hcons]
    | cons r2 rs2 =>
      have hstep : step { p with parsed := p.parsed + 1 } r =
          ({ { p with parsed := p.parsed + 1 } with
              scalar := .lit (r2 :: rs2) k }, Option.none) :=
        step_lit_cont _ r (r2 :: rs2) k hs (by simp)
      have hcons := consume_eq_none p r _ hstep
      obtain ⟨p', hall, hsc', hmode, hstk, hstr, hmd, hterm, hpb'⟩ :=
        ih { { p with parsed := p.parsed + 1 } with
          scalar := .lit (r2 :: rs2) k } k rfl hpb (by simp)
      refine ⟨p', ?_, hsc', hmode, hstk, hstr, hmd, hterm, hpb'⟩
      rw [processAll_silent p _ r _ hcons]
      exact hall

/-- Processing bytes that continue a number token is silent and extends
the current value. -/
theorem numFoldRun (t : List Nat) : ∀ p ph ph',
    p.scalar = Scalar.num ph → p.pushback = Option.none →
    numRunAux ph t = some ph' →
    ∃ p', processAll p t = (p', []) ∧ p'.scalar = Scalar.num ph' ∧
      p'.cur = p.cur ++ t ∧ p'.mode = p.mode ∧ p'.stack = p.stack ∧
      p'.streaming = p.streaming ∧ p'.maxDepth = p.maxDepth ∧
      p'.terminated = p.terminated ∧ p'.pushback = Option.none := by
  induction t with
  | nil =>
    intro p ph ph' hs hpb h
    simp only [numRunAux] at h
    injection h with h
    subst h
    exact ⟨p, by simp [processAll], hs, by simp, rfl, rfl, rfl, rfl, rfl,
      hpb⟩
  | cons b t ih =>
    intro p ph ph' hs hpb h
    have hred : numRunAux ph (b :: t) =
        match numStep ph b with
        | .cont ph1 => numRunAux ph1 t
        | _ => Option.none := rfl
    rw [hred] at h
    cases hn : numStep ph b with
    | cont ph1 =>
      rw [hn] at h
      simp only [] at h
      have hstep : step { p with parsed := p.parsed + 1 } b =
          ({ { p with parsed := p.parsed + 1 } with
              scalar := .num ph1, cur := p.cur ++ [b] },
            Option.none) := by
        rw [step_scalar_num { p with parsed := p.parsed + 1 } ph b hs, hn]
      have hcons := consume_eq_none p b _ hstep
      obtain ⟨p', hall, h1, h2, h3, h4, h5, h6, h7, h8⟩ :=
        ih { { p with parsed := p.parsed + 1 } with
          scalar := .num ph1, cur := p.cur ++ [b] } ph1 ph' rfl hpb h
      refine ⟨p', ?_, h1, ?_, h3, h4, h5, h6, h7, h8⟩
      · rw [processAll_silent p _ b _ hcons]
        exact hall
      · rw [h2]
        simp
    | term =>
      rw [hn] at h
      cases h
    | err =>
      rw [hn] at h
      cases h

/-- Processing bytes on which the string sub-automaton only appends is
silent and extends the current value by the decoded bytes. -/
theorem strFoldRun (t : List Nat) : ∀ p ph ph' ds,
    p.scalar = Scalar.str ph → p.pushback = Option.none →
    strFold ph t = some (ph', ds) →
    ∃ p', processAll p t = (p', []) ∧ p'.scalar = Scalar.str ph' ∧
      p'.cur = p.cur ++ ds ∧ p'.mode = p.mode ∧ p'.stack = p.stack ∧
      p'.streaming = p.streaming ∧ p'.maxDepth = p.maxDepth ∧
      p'.terminated = p.terminated ∧ p'.pushback = Option.none := by
  induction t with
  | nil =>
    intro p ph ph' ds hs hpb h
    simp only [strFold] at h
    injection h with h
    injection h with hph hds
    subst hph
    subst hds
    exact ⟨p, by simp [processAll], hs, by simp, rfl, rfl, rfl, rfl, rfl,
      hpb⟩
  | cons b t ih =>
    intro p ph ph' ds hs hpb h
    have hred : strFold ph (b :: t) =
        match strStep ph b with
        | .app bs ph1 =>
          match strFold ph1 t with
          | some (ph2, ds2) => some (ph2, bs ++ ds2)
          | Option.none => Option.none
        | _ => Option.none := rfl
    rw [hred] at h
    cases hn : strStep ph b with
    | app bs ph1 =>
      rw [hn] at h
      simp only [] at h
      cases hf : strFold ph1 t with
      | none =>
        rw [hf] at h
        cases h
      | some r =>
        rcases r with ⟨ph2, ds2⟩
        rw [hf] at h
        simp only [] at h
        injection h with h
        injection h with hph hds
        subst hph
        subst hds
        have hstep : step { p with parsed := p.parsed + 1 } b =
            ({ { p with parsed := p.parsed + 1 } with
                scalar := .str ph1, cur := p.cur ++ bs },
              Option.none) := by
          rw [step_scalar_str { p with parsed := p.parsed + 1 } ph b hs,
            hn]
        have hcons := consume_eq_none p b _ hstep
        obtain ⟨p', hall, h1, h2, h3, h4, h5, h6, h7, h8⟩ :=
          ih { { p with parsed := p.parsed + 1 } with
            scalar := .str ph1, cur := p.cur ++ bs } ph1 ph2 ds2 rfl hpb
            hf
        refine ⟨p', ?_, h1, ?_, h3, h4, h5, h6, h7, h8⟩
        · rw [processAll_silent p _ b _ hcons]
          exact hall
        · rw [h2]
          simp [List.append_assoc]
    | close =>
      rw [hn] at h
      cases h
    | fail k =>
      rw [hn] at h
      cases h

theorem stepStruct_value (p : PState) (b : Nat)
    (hm : p.mode = Mode.beforeValue ∨ p.mode = Mode.arrFirst)
    (hws : isWs b = false) (hb : b ≠ 0x5D) :
    stepStruct p b = startValue p b := by
  rcases hm with hm | hm <;> rw [stepStruct, hm] <;> simp [hws, hb]

theorem stepStruct_arrFirst_close (p : PState) (s : List Frame)
    (hm : p.mode = Mode.arrFirst) (hstk : p.stack = Frame.array :: s) :
    stepStruct p 0x5D =
      ({ p with
          stack := s,
          scalar := .none,
          mode := advanceMode p.streaming s }, some .endArray) := by
  rw [stepStruct, hm]
  simp only []
  rw [if_neg (by decide), if_pos (by decide)]
  unfold popFrame
  rw [hstk]
  simp

theorem stepStruct_arrAfterValue_comma (p : PState)
    (hm : p.mode = Mode.arrAfterValue) :
    stepStruct p 0x2C = ({ p with mode := Mode.beforeValue },
      Option.none) := by
  rw [stepStruct, hm]
  simp only []
  rw [if_neg (by decide), if_pos (by decide)]

theorem stepStruct_arrAfterValue_close (p : PState) (s : List Frame)
    (hm : p.mode = Mode.arrAfterValue)
    (hstk : p.stack = Frame.array :: s) :
    stepStruct p 0x5D =
      ({ p with
          stack := s,
          scalar := .none,
          mode := advanceMode p.streaming s }, some .endArray) := by
  rw [stepStruct, hm]
  simp only []
  rw [if_neg (by decide), if_neg (by decide), if_pos (by decide)]
  unfold popFrame
  rw [hstk]
  simp

theorem stepStruct_objAfterValue_comma (p : PState)
    (hm : p.mode = Mode.objAfterValue) :
    stepStruct p 0x2C = ({ p with mode := Mode.objMustKey },
      Option.none) := by
  rw [stepStruct, hm]
  simp only []
  rw [if_neg (by decide), if_pos (by decide)]

theorem stepStruct_objAfterValue_close (p : PState) (s : List Frame)
    (hm : p.mode = Mode.objAfterValue)
    (hstk : p.stack = Frame.object :: s) :
    stepStruct p 0x7D =
      ({ p with
          stack := s,
          scalar := .none,
          mode := advanceMode p.streaming s }, some .endObject) := by
  rw [stepStruct, hm]
  simp only []
  rw [if_neg (by decide), if_neg (by decide), if_pos (by decide)]
  unfold popFrame
  rw [hstk]
  simp

theorem stepStruct_objFirstKey_close (p : PState) (s : List Frame)
    (hm : p.mode = Mode.objFirstKey)
    (hstk : p.stack = Frame.object :: s) :
    stepStruct p 0x7D =
      ({ p with
          stack := s,
          scalar := .none,
          mode := advanceMode p.streaming s }, some .endObject) := by
  rw [stepStruct, hm]
  simp only []
  rw [if_neg (by decide), if_pos (by decide)]
  unfold popFrame
  rw [hstk]
  simp

theorem stepStruct_objKey_quote (p : PState)
    (hm : p.mode = Mode.objFirstKey ∨ p.mode = Mode.objMustKey) :
    stepStruct p 0x22 =
      ({ p with scalar := .str (.body 0), cur := [] }, Option.none) := by
  rcases hm with hm | hm <;> rw [stepStruct, hm] <;> simp only []
  · rw [if_neg (by decide), if_neg (by decide), if_pos (by decide)]
  · rw [if_neg (by decide), if_pos (by decide)]

theorem stepStruct_objAfterKey_colon (p : PState)
    (hm : p.mode = Mode.objAfterKey) :
    stepStruct p 0x3A = ({ p with mode := Mode.beforeValue },
      Option.none) := by
  rw [stepStruct, hm]
  simp only []
  rw [if_neg (by decide), if_pos (by decide)]

theorem startValue_quote (p : PState) (b : Nat)
    (hv : vclass b = .quote) :
    startValue p b =
      ({ p with scalar := .str (.body 0), cur := [] }, Option.none) := by
  rw [startValue, hv]

theorem startValue_minus (p : PState) (b : Nat) (hv : vclass b = .minus) :
    startValue p b =
      ({ p with scalar := .num .sign, cur := [b] }, Option.none) := by
  rw [startValue, hv]

theorem startValue_zero (p : PState) (b : Nat) (hv : vclass b = .zero) :
    startValue p b =
      ({ p with scalar := .num .zero, cur := [b] }, Option.none) := by
  rw [startValue, hv]

theorem startValue_digit (p : PState) (b : Nat) (hv : vclass b = .digit) :
    startValue p b =
      ({ p with scalar := .num .intd, cur := [b] }, Option.none) := by
  rw [startValue, hv]

theorem startValue_litT (p : PState) (b : Nat) (hv : vclass b = .litT) :
    startValue p b =
      ({ p with
          scalar := Scalar.lit [0x72, 0x75, 0x65] LitKind.litTrue,
          cur := [] }, Option.none) := by
  rw [startValue, hv]

theorem startValue_litF (p : PState) (b : Nat) (hv : vclass b = .litF) :
    startValue p b =
      ({ p with
          scalar := Scalar.lit [0x61, 0x6C, 0x73, 0x65] LitKind.litFalse,
          cur := [] }, Option.none) := by
  rw [startValue, hv]

theorem startValue_litN (p : PState) (b : Nat) (hv : vclass b = .litN) :
    startValue p b =
      ({ p with
          scalar := Scalar.lit [0x75, 0x6C, 0x6C] LitKind.litNull,
          cur := [] }, Option.none) := by
  rw [startValue, hv]

theorem startValue_arrOpen (p : PState) (b : Nat)
    (hv : vclass b = .arrOpen) (hd : p.stack.length < p.maxDepth) :
    startValue p b =
      ({ p with stack := .array :: p.stack, mode := .arrFirst },
        some .startArray) := by
  rw [startValue, hv]
  simp only []
  unfold pushFrame
  rw [if_pos hd]

theorem startValue_objOpen (p : PState) (b : Nat)
    (hv : vclass b = .objOpen) (hd : p.stack.length < p.maxDepth) :
    startValue p b =
      ({ p with stack := .object :: p.stack, mode := .objFirstKey },
        some .startObject) := by
  rw [startValue, hv]
  simp only []
  unfold pushFrame
  rw [if_pos hd]

/-- The dispatch classes of number-starting bytes. -/
theorem numStart_vclass (b : Nat) (ph : NumPhase)
    (h : numStart b = some ph) :
    (vclass b = .minus ∧ ph = .sign) ∨ (vclass b = .zero ∧ ph = .zero) ∨
      (vclass b = .digit ∧ ph = .intd) := by
  unfold numStart at h
  by_cases h1 : b = 0x2D
  · subst h1
    rw [if_pos rfl] at h
    injection h with h
    subst h
    left
    exact ⟨by decide, rfl⟩
  · rw [if_neg h1] at h
    by_cases h2 : b = 0x30
    · subst h2
      rw [if_pos rfl] at h
      injection h with h
      subst h
      right
      left
      exact ⟨by decide, rfl⟩
    · rw [if_neg h2] at h
      by_cases h3 : isDigit b = true
      · rw [if_pos h3] at h
        injection h with h
        subst h
        right
        right
        refine ⟨?_, rfl⟩
        have hb : 0x31 ≤ b ∧ b ≤ 0x39 := by
          unfold isDigit at h3
          simp only [Bool.and_eq_true, decide_eq_true_eq] at h3
          omega
        unfold vclass
        rw [if_neg (by
            unfold isWs
            simp only [Bool.or_eq_true, decide_eq_true_eq, not_or]
            omega),
          if_neg (by omega), if_neg (by omega), if_neg (by omega),
          if_neg (by omega), if_neg (by omega), if_pos h3]
      · rw [if_neg h3] at h
        cases h

theorem buildFold_single (st : BState) (em : Emitted) :
    buildFold st [em] = buildStep st em := by
  simp only [buildFold]
  cases buildStep st em <;> rfl

theorem vclass_ws (b : Nat) (h : isWs b = true) : vclass b = .ws := by
  unfold vclass
  rw [if_pos h]

theorem vclass_not_ws (b : Nat) (c : VClass) (hv : vclass b = c)
    (hc : c ≠ VClass.ws) : isWs b = false := by
  cases h : isWs b
  · rfl
  · exact absurd ((vclass_ws b h).symm.trans hv).symm hc

theorem vclass_ne_rbrack (b : Nat) (c : VClass) (hv : vclass b = c)
    (hc : c ≠ VClass.other) : b ≠ 0x5D := by
  intro h
  subst h
  rw [show vclass 0x5D = VClass.other from by decide] at hv
  exact hc hv.symm

/-- From a value-expecting state, a keyword literal is consumed silently
except for its final byte, which emits the literal's event. -/
theorem litValueRun (p : PState) (b0 : Nat) (rest : List Nat)
    (k : LitKind) (hs : p.scalar = Scalar.none)
    (hpb : p.pushback = Option.none)
    (hm : p.mode = Mode.beforeValue ∨ p.mode = Mode.arrFirst)
    (hws : isWs b0 = false) (hb : b0 ≠ 0x5D)
    (hsv : startValue { p with parsed := p.parsed + 1 } b0 =
      ({ { p with parsed := p.parsed + 1 } with
          scalar := Scalar.lit rest k, cur := [] }, Option.none))
    (hne : rest ≠ []) :
    ∃ p', processAll p (b0 :: rest) = (p', [mkEmitted p' k.event]) ∧
      p'.scalar = Scalar.none ∧
      p'.mode = advanceMode p.streaming p.stack ∧
      p'.stack = p.stack ∧ p'.streaming = p.streaming ∧
      p'.maxDepth = p.maxDepth ∧ p'.terminated = p.terminated ∧
      p'.pushback = Option.none := by
  have hstep : step { p with parsed := p.parsed + 1 } b0 =
      ({ { p with parsed := p.parsed + 1 } with
          scalar := Scalar.lit rest k, cur := [] }, Option.none) := by
    rw [step_scalar_none { p with parsed := p.parsed + 1 } b0 hs,
      stepStruct_value { p with parsed := p.parsed + 1 } b0 hm hws hb,
      hsv]
  have hcons := consume_eq_none p b0 _ hstep
  obtain ⟨p', hall, h1, h2, h3, h4, h5, h6, h7⟩ :=
    litFoldRun rest { { p with parsed := p.parsed + 1 } with
      scalar := Scalar.lit rest k, cur := [] } k rfl hpb hne
  refine ⟨p', ?_, h1, h2, h3, h4, h5, h6, h7⟩
  rw [processAll_silent p _ b0 _ hcons]
  exact hall

/-- The per-value completeness for `null`. -/
theorem valueSimP_null (d : Nat) : ValueSimP Json.null d := by
  intro p hs hpb hm hd
  obtain ⟨p', hall, h1, h2, h3, h4, h5, h6, h7⟩ :=
    litValueRun p 0x6E [0x75, 0x6C, 0x6C] LitKind.litNull hs hpb hm
      (by decide) (by decide) (startValue_litN _ 0x6E (by decide))
      (by simp)
  refine ⟨p', [mkEmitted p' LitKind.litNull.event], hall, h3, h4, h5, h6,
    h7, rfl, Or.inl ⟨h2, h1, ?_⟩⟩
  intro st
  rw [buildFold_single]
  rfl

/-- The per-value completeness for the boolean literals. -/
theorem valueSimP_boolean (b : Bool) (d : Nat) :
    ValueSimP (Json.boolean b) d := by
  cases b
  · intro p hs hpb hm hd
    obtain ⟨p', hall, h1, h2, h3, h4, h5, h6, h7⟩ :=
      litValueRun p 0x66 [0x61, 0x6C, 0x73, 0x65] LitKind.litFalse hs hpb
        hm (by decide) (by decide) (startValue_litF _ 0x66 (by decide))
        (by simp)
    refine ⟨p', [mkEmitted p' LitKind.litFalse.event], hall, h3, h4, h5,
      h6, h7, rfl, Or.inl ⟨h2, h1, ?_⟩⟩
    intro st
    rw [buildFold_single]
    rfl
  · intro p hs hpb hm hd
    obtain ⟨p', hall, h1, h2, h3, h4, h5, h6, h7⟩ :=
      litValueRun p 0x74 [0x72, 0x75, 0x65] LitKind.litTrue hs hpb hm
        (by decide) (by decide) (startValue_litT _ 0x74 (by decide))
        (by simp)
    refine ⟨p', [mkEmitted p' LitKind.litTrue.event], hall, h3, h4, h5,
      h6, h7, rfl, Or.inl ⟨h2, h1, ?_⟩⟩
    intro st
    rw [buildFold_single]
    rfl

/-- The per-value completeness for numbers: the token stays pending. -/
theorem valueSimP_number (raw : List Nat) (d : Nat) (h : NumOk raw) :
    ValueSimP (Json.number raw) d := by
  intro p hs hpb hm hd
  obtain ⟨ph, hnum, hcomp⟩ := h
  cases raw with
  | nil =>
    simp only [numRun] at hnum
    cases hnum
  | cons b0 rest =>
    simp only [numRun] at hnum
    cases hst : numStart b0 with
    | none =>
      rw [hst] at hnum
      cases hnum
    | some ph0 =>
      rw [hst] at hnum
      simp only [] at hnum
      have hws : isWs b0 = false := by
        rcases numStart_vclass b0 ph0 hst with ⟨hv, _⟩ | ⟨hv, _⟩ | ⟨hv, _⟩
          <;> exact vclass_not_ws b0 _ hv (by decide)
      have hb : b0 ≠ 0x5D := by
        rcases numStart_vclass b0 ph0 hst with ⟨hv, _⟩ | ⟨hv, _⟩ | ⟨hv, _⟩
          <;> exact vclass_ne_rbrack b0 _ hv (by decide)
      rcases numStart_vclass b0 ph0 hst with ⟨hv, hph0⟩ | ⟨hv, hph0⟩ |
        ⟨hv, hph0⟩ <;> subst hph0
      · have hstep : step { p with parsed := p.parsed + 1 } b0 =
            ({ { p with parsed := p.parsed + 1 } with
                scalar := Scalar.num .sign, cur := [b0] },
              Option.none) := by
          rw [step_scalar_none { p with parsed := p.parsed + 1 } b0 hs,
            stepStruct_value { p with parsed := p.parsed + 1 } b0 hm hws
              hb,
            startValue_minus { p with parsed := p.parsed + 1 } b0 hv]
        have hcons := consume_eq_none p b0 _ hstep
        obtain ⟨p', hall, h1, h2, h3, h4, h5, h6, h7, h8⟩ :=
          numFoldRun rest { { p with parsed := p.parsed + 1 } with
            scalar := Scalar.num .sign, cur := [b0] } .sign ph rfl hpb
            hnum
        refine ⟨p', [], ?_, h4, h5, h6, h7, h8, rfl,
          Or.inr ⟨b0 :: rest, ph, rfl, h1, hcomp, ?_, rfl, h3⟩⟩
        · rw [show render (Json.number (b0 :: rest)) = b0 :: rest from
            rfl]
          rw [processAll_silent p _ b0 _ hcons]
          exact hall
        · rw [h2]
          rfl
      · have hstep : step { p with parsed := p.parsed + 1 } b0 =
            ({ { p with parsed := p.parsed + 1 } with
                scalar := Scalar.num .zero, cur := [b0] },
              Option.none) := by
          rw [step_scalar_none { p with parsed := p.parsed + 1 } b0 hs,
            stepStruct_value { p with parsed := p.parsed + 1 } b0 hm hws
              hb,
            startValue_zero { p with parsed := p.parsed + 1 } b0 hv]
        have hcons := consume_eq_none p b0 _ hstep
        obtain ⟨p', hall, h1, h2, h3, h4, h5, h6, h7, h8⟩ :=
          numFoldRun rest { { p with parsed := p.parsed + 1 } with
            scalar := Scalar.num .zero, cur := [b0] } .zero ph rfl hpb
            hnum
        refine ⟨p', [], ?_, h4, h5, h6, h7, h8, rfl,
          Or.inr ⟨b0 :: rest, ph, rfl, h1, hcomp, ?_, rfl, h3⟩⟩
        · rw [show render (Json.number (b0 :: rest)) = b0 :: rest from
            rfl]
          rw [processAll_silent p _ b0 _ hcons]
          exact hall
        · rw [h2]
          rfl
      · have hstep : step { p with parsed := p.parsed + 1 } b0 =
            ({ { p with parsed := p.parsed + 1 } with
                scalar := Scalar.num .intd, cur := [b0] },
              Option.none) := by
          rw [step_scalar_none { p with parsed := p.parsed + 1 } b0 hs,
            stepStruct_value { p with parsed := p.parsed + 1 } b0 hm hws
              hb,
            startValue_digit { p with parsed := p.parsed + 1 } b0 hv]
        have hcons := consume_eq_none p b0 _ hstep
        obtain ⟨p', hall, h1, h2, h3, h4, h5, h6, h7, h8⟩ :=
          numFoldRun rest { { p with parsed := p.parsed + 1 } with
            scalar := Scalar.num .intd, cur := [b0] } .intd ph rfl hpb
            hnum
        refine ⟨p', [], ?_, h4, h5, h6, h7, h8, rfl,
          Or.inr ⟨b0 :: rest, ph, rfl, h1, hcomp, ?_, rfl, h3⟩⟩
        · rw [show render (Json.number (b0 :: rest)) = b0 :: rest from
            rfl]
          rw [processAll_silent p _ b0 _ hcons]
          exact hall
        · rw [h2]
          rfl

/-- The per-value completeness for strings. -/
theorem valueSimP_string (s : List Nat) (d : Nat) (hok : StrOk s) :
    ValueSimP (Json.string s) d := by
  intro p hs hpb hm hd
  have hstep1 : step { p with parsed := p.parsed + 1 } 0x22 =
      ({ { p with parsed := p.parsed + 1 } with
          scalar := Scalar.str (.body 0), cur := [] }, Option.none) := by
    rw [step_scalar_none { p with parsed := p.parsed + 1 } 0x22 hs,
      stepStruct_value { p with parsed := p.parsed + 1 } 0x22 hm
        (by decide) (by decide),
      startValue_quote { p with parsed := p.parsed + 1 } 0x22 (by decide)]
  have hcons1 := consume_eq_none p 0x22 _ hstep1
  obtain ⟨p2, hall2, h1, h2, h3, h4, h5, h6, h7, h8⟩ :=
    strFoldRun (escBody s) { { p with parsed := p.parsed + 1 } with
      scalar := Scalar.str (.body 0), cur := [] } (.body 0) (.body 0) s
      rfl hpb (escBody_strFold s 0 0 hok)
  have hcur : p2.cur = s := by
    rw [h2]
    rfl
  have hstep3 : step { p2 with parsed := p2.parsed + 1 } 0x22 =
      (completeValue { p2 with parsed := p2.parsed + 1 },
        some .valueString) := by
    rw [step_scalar_str { p2 with parsed := p2.parsed + 1 } (.body 0)
      0x22 h1]
    have hact : strStep (.body 0) 0x22 = .close := rfl
    rw [hact]
    simp only []
    unfold closeString
    rcases hm with hmv | hmv <;>
      rw [show ({ p2 with parsed := p2.parsed + 1 } : PState).mode =
        p.mode from h3] <;>
      rw [hmv]
  have hcons3 := consume_eq_emit p2 0x22 _ JsonEvent.valueString hstep3 h8
  refine ⟨completeValue { p2 with parsed := p2.parsed + 1 },
    [mkEmitted (completeValue { p2 with parsed := p2.parsed + 1 })
      JsonEvent.valueString], ?_, ?_, ?_, h6, h7, h8, rfl,
    Or.inl ⟨?_, rfl, ?_⟩⟩
  · rw [show render (Json.string s) =
      0x22 :: (escBody s ++ [0x22]) from rfl]
    rw [processAll_silent p _ 0x22 _ hcons1]
    rw [processAll_append _ (escBody s) [0x22]]
    rw [hall2]
    simp [processAll, hcons3]
  · exact show p2.stack = p.stack from h4
  · exact show p2.streaming = p.streaming from h5
  · show advanceMode p2.streaming p2.stack = advanceMode p.streaming
      p.stack
    rw [show p2.streaming = p.streaming from h5,
      show p2.stack = p.stack from h4]
  · intro st
    rw [buildFold_single]
    show placeValue st (Json.string p2.cur) = placeValue st (Json.string s)
    rw [hcur]

/-- From a key-expecting state, a rendered key string is consumed and
emits exactly the `FieldName` event carrying the key bytes. -/
theorem strKeyRun (p : PState) (s : List Nat) (hok : StrOk s)
    (hs : p.scalar = Scalar.none) (hpb : p.pushback = Option.none)
    (hm : p.mode = Mode.objFirstKey ∨ p.mode = Mode.objMustKey) :
    ∃ p', processAll p (renderStr s) = (p', [mkEmitted p' .fieldName]) ∧
      p'.scalar = Scalar.none ∧ p'.mode = Mode.objAfterKey ∧
      p'.cur = s ∧ p'.stack = p.stack ∧ p'.streaming = p.streaming ∧
      p'.maxDepth = p.maxDepth ∧ p'.terminated = p.terminated ∧
      p'.pushback = Option.none := by
  have hstep1 : step { p with parsed := p.parsed + 1 } 0x22 =
      ({ { p with parsed := p.parsed + 1 } with
          scalar := Scalar.str (.body 0), cur := [] }, Option.none) := by
    rw [step_scalar_none { p with parsed := p.parsed + 1 } 0x22 hs,
      stepStruct_objKey_quote { p with parsed := p.parsed + 1 } hm]
  have hcons1 := consume_eq_none p 0x22 _ hstep1
  obtain ⟨p2, hall2, h1, h2, h3, h4, h5, h6, h7, h8⟩ :=
    strFoldRun (escBody s) { { p with parsed := p.parsed + 1 } with
      scalar := Scalar.str (.body 0), cur := [] } (.body 0) (.body 0) s
      rfl hpb (escBody_strFold s 0 0 hok)
  have hcur : p2.cur = s := by
    rw [h2]
    rfl
  have hstep3 : step { p2 with parsed := p2.parsed + 1 } 0x22 =
      ({ { p2 with parsed := p2.parsed + 1 } with
          scalar := Scalar.none, mode := Mode.objAfterKey },
        some .fieldName) := by
    rw [step_scalar_str { p2 with parsed := p2.parsed + 1 } (.body 0)
      0x22 h1]
    have hact : strStep (.body 0) 0x22 = .close := rfl
    rw [hact]
    simp only []
    unfold closeString
    rcases hm with hmv | hmv <;>
      rw [show ({ p2 with parsed := p2.parsed + 1 } : PState).mode =
        p.mode from h3] <;>
      rw [hmv]
  have hcons3 := consume_eq_emit p2 0x22 _ JsonEvent.fieldName hstep3 h8
  refine ⟨{ { p2 with parsed := p2.parsed + 1 } with
      scalar := Scalar.none, mode := Mode.objAfterKey }, ?_, rfl, rfl,
    hcur, ?_, ?_, h6, h7, h8⟩
  · rw [show renderStr s = 0x22 :: (escBody s ++ [0x22]) from rfl]
    rw [processAll_silent p _ 0x22 _ hcons1]
    rw [processAll_append _ (escBody s) [0x22]]
    rw [hall2]
    simp [processAll, hcons3]
  · exact show p2.stack = p.stack from h4
  · exact show p2.streaming = p.streaming from h5

theorem buildStep_numEvent (st : BState) (p : PState) (ph : NumPhase) :
    buildStep st (mkEmitted p (numEvent ph)) =
      placeValue st (Json.number p.cur) := by
  unfold numEvent
  by_cases hf : ph.isFloat = true
  · rw [if_pos hf]
    rfl
  · rw [if_neg hf]
    rfl

theorem isTerminal_numEvent (ph : NumPhase) :
    isTerminal (numEvent ph) = false := by
  unfold numEvent
  by_cases hf : ph.isFloat = true
  · rw [if_pos hf]
    rfl
  · rw [if_neg hf]
    rfl

/-- The state right after a number token is terminated by byte `c`. -/
theorem numTermState (p : PState) (ph : NumPhase) (c : Nat)
    (hs : p.scalar = Scalar.num ph) (hterm : numStep ph c = .term) :
    ∃ pA, step { p with parsed := p.parsed + 1 } c =
        (pA, some (numEvent ph)) ∧
      pA.mode = advanceMode p.streaming p.stack ∧
      pA.scalar = Scalar.none ∧ pA.pushback = some c ∧
      pA.cur = p.cur ∧ pA.stack = p.stack ∧
      pA.streaming = p.streaming ∧ pA.maxDepth = p.maxDepth ∧
      pA.terminated = p.terminated := by
  have hstep1 : step { p with parsed := p.parsed + 1 } c =
      (completeValue { { p with parsed := p.parsed + 1 } with
          pushback := some c }, some (numEvent ph)) := by
    rw [step_scalar_num { p with parsed := p.parsed + 1 } ph c hs, hterm]
  exact ⟨_, hstep1, rfl, rfl, rfl, rfl, rfl, rfl, rfl, rfl⟩

/-- A comma after a pending number token in an array: the number event is
emitted and the comma is consumed from the pushback slot. -/
theorem pendingComma_arr (p : PState) (ph : NumPhase) (s : List Frame)
    (hs : p.scalar = Scalar.num ph) (hcomp : ph.complete = true)
    (hpb : p.pushback = Option.none)
    (hstk : p.stack = Frame.array :: s) :
    ∃ pA p', consume p 0x2C = (p', [mkEmitted pA (numEvent ph)]) ∧
      pA.cur = p.cur ∧ p'.mode = Mode.beforeValue ∧
      p'.scalar = Scalar.none ∧ p'.stack = p.stack ∧
      p'.streaming = p.streaming ∧ p'.maxDepth = p.maxDepth ∧
      p'.terminated = p.terminated ∧ p'.pushback = Option.none := by
  have hterm : numStep ph 0x2C = .term :=
    numStep_sep_term ph 0x2C hcomp (by decide) (by decide) (by decide)
      (by decide)
  obtain ⟨pA, h1, hmA0, hscA, hpbA, hcurA, hstkA, hstrA, hmdA, htermA⟩ :=
    numTermState p ph 0x2C hs hterm
  have hmA : pA.mode = Mode.arrAfterValue := by
    rw [hmA0, hstk]
    rfl
  have hstep2 : step { pA with pushback := Option.none } 0x2C =
      ({ { pA with pushback := Option.none } with
          mode := Mode.beforeValue }, Option.none) := by
    rw [step_scalar_none { pA with pushback := Option.none } 0x2C hscA,
      stepStruct_arrAfterValue_comma { pA with pushback := Option.none }
        hmA]
  have hcons := consume_eq_push_none p 0x2C pA (numEvent ph) 0x2C _ h1
    hpbA hstep2
  exact ⟨pA, _, hcons, hcurA, rfl, hscA, hstkA, hstrA, hmdA, htermA, rfl⟩

/-- A closing bracket after a pending number token: the number event and
the `EndArray` event are both emitted by one byte. -/
theorem pendingClose_arr (p : PState) (ph : NumPhase) (s : List Frame)
    (hs : p.scalar = Scalar.num ph) (hcomp : ph.complete = true)
    (hpb : p.pushback = Option.none)
    (hstk : p.stack = Frame.array :: s) :
    ∃ pA p', consume p 0x5D =
        (p', [mkEmitted pA (numEvent ph),
          mkEmitted p' JsonEvent.endArray]) ∧
      pA.cur = p.cur ∧ p'.stack = s ∧
      p'.mode = advanceMode p.streaming s ∧ p'.scalar = Scalar.none ∧
      p'.streaming = p.streaming ∧ p'.maxDepth = p.maxDepth ∧
      p'.terminated = p.terminated ∧ p'.pushback = Option.none := by
  have hterm : numStep ph 0x5D = .term :=
    numStep_sep_term ph 0x5D hcomp (by decide) (by decide) (by decide)
      (by decide)
  obtain ⟨pA, h1, hmA0, hscA, hpbA, hcurA, hstkA, hstrA, hmdA, htermA⟩ :=
    numTermState p ph 0x5D hs hterm
  have hmA : pA.mode = Mode.arrAfterValue := by
    rw [hmA0, hstk]
    rfl
  have hstkA2 : pA.stack = Frame.array :: s := by
    rw [hstkA, hstk]
  have hstep2 : step { pA with pushback := Option.none } 0x5D =
      ({ { pA with pushback := Option.none } with
          stack := s,
          scalar := .none,
          mode := advanceMode ({ pA with
            pushback := Option.none } : PState).streaming s },
        some .endArray) := by
    rw [step_scalar_none { pA with pushback := Option.none } 0x5D hscA,
      stepStruct_arrAfterValue_close { pA with pushback := Option.none }
        s hmA hstkA2]
  have hcons := consume_eq_push p 0x5D pA (numEvent ph) 0x5D _
    JsonEvent.endArray h1 hpbA hstep2
  refine ⟨pA, _, hcons, hcurA, rfl, ?_, rfl, hstrA, hmdA, htermA, rfl⟩
  show advanceMode pA.streaming s = advanceMode p.streaming s
  rw [hstrA]

/-- A comma after a pending number token in an object. -/
theorem pendingComma_obj (p : PState) (ph : NumPhase) (s : List Frame)
    (hs : p.scalar = Scalar.num ph) (hcomp : ph.complete = true)
    (hpb : p.pushback = Option.none)
    (hstk : p.stack = Frame.object :: s) :
    ∃ pA p', consume p 0x2C = (p', [mkEmitted pA (numEvent ph)]) ∧
      pA.cur = p.cur ∧ p'.mode = Mode.objMustKey ∧
      p'.scalar = Scalar.none ∧ p'.stack = p.stack ∧
      p'.streaming = p.streaming ∧ p'.maxDepth = p.maxDepth ∧
      p'.terminated = p.terminated ∧ p'.pushback = Option.none := by
  have hterm : numStep ph 0x2C = .term :=
    numStep_sep_term ph 0x2C hcomp (by decide) (by decide) (by decide)
      (by decide)
  obtain ⟨pA, h1, hmA0, hscA, hpbA, hcurA, hstkA, hstrA, hmdA, htermA⟩ :=
    numTermState p ph 0x2C hs hterm
  have hmA : pA.mode = Mode.objAfterValue := by
    rw [hmA0, hstk]
    rfl
  have hstep2 : step { pA with pushback := Option.none } 0x2C =
      ({ { pA with pushback := Option.none } with
          mode := Mode.objMustKey }, Option.none) := by
    rw [step_scalar_none { pA with pushback := Option.none } 0x2C hscA,
      stepStruct_objAfterValue_comma { pA with pushback := Option.none }
        hmA]
  have hcons := consume_eq_push_none p 0x2C pA (numEvent ph) 0x2C _ h1
    hpbA hstep2
  exact ⟨pA, _, hcons, hcurA, rfl, hscA, hstkA, hstrA, hmdA, htermA, rfl⟩

/-- A closing brace after a pending number token. -/
theorem pendingClose_obj (p : PState) (ph : NumPhase) (s : List Frame)
    (hs : p.scalar = Scalar.num ph) (hcomp : ph.complete = true)
    (hpb : p.pushback = Option.none)
    (hstk : p.stack = Frame.object :: s) :
    ∃ pA p', consume p 0x7D =
        (p', [mkEmitted pA (numEvent ph),
          mkEmitted p' JsonEvent.endObject]) ∧
      pA.cur = p.cur ∧ p'.stack = s ∧
      p'.mode = advanceMode p.streaming s ∧ p'.scalar = Scalar.none ∧
      p'.streaming = p.streaming ∧ p'.maxDepth = p.maxDepth ∧
      p'.terminated = p.terminated ∧ p'.pushback = Option.none := by
  have hterm : numStep ph 0x7D = .term :=
    numStep_sep_term ph 0x7D hcomp (by decide) (by decide) (by decide)
      (by decide)
  obtain ⟨pA, h1, hmA0, hscA, hpbA, hcurA, hstkA, hstrA, hmdA, htermA⟩ :=
    numTermState p ph 0x7D hs hterm
  have hmA : pA.mode = Mode.objAfterValue := by
    rw [hmA0, hstk]
    rfl
  have hstkA2 : pA.stack = Frame.object :: s := by
    rw [hstkA, hstk]
  have hstep2 : step { pA with pushback := Option.none } 0x7D =
      ({ { pA with pushback := Option.none } with
          stack := s,
          scalar := .none,
          mode := advanceMode ({ pA with
            pushback := Option.none } : PState).streaming s },
        some .endObject) := by
    rw [step_scalar_none { pA with pushback := Option.none } 0x7D hscA,
      stepStruct_objAfterValue_close { pA with pushback := Option.none }
        s hmA hstkA2]
  have hcons := consume_eq_push p 0x7D pA (numEvent ph) 0x7D _
    JsonEvent.endObject h1 hpbA hstep2
  refine ⟨pA, _, hcons, hcurA, rfl, ?_, rfl, hstrA, hmdA, htermA, rfl⟩
  show advanceMode pA.streaming s = advanceMode p.streaming s
  rw [hstrA]

theorem processAll_cons_emit (p p1 : PState) (b : Nat) (t : List Nat)
    (ems : List Emitted) (h : consume p b = (p1, ems)) :
    processAll p (b :: t) =
      ((processAll p1 t).1, ems ++ (processAll p1 t).2) := by
  simp only [processAll]
  rw [h]

theorem buildFold_pair (st : BState) (em1 em2 : Emitted) :
    buildFold st [em1, em2] =
      match buildStep st em1 with
      | some st1 => buildStep st1 em2
      | Option.none => Option.none := by
  simp only [buildFold]
  cases buildStep st em1 with
  | none => rfl
  | some st1 =>
    simp only []
    cases buildStep st1 em2 <;> rfl

theorem emittedComma_arr (p : PState)
    (hs : p.scalar = Scalar.none) (hpb : p.pushback = Option.none)
    (hm : p.mode = Mode.arrAfterValue) :
    ∃ p', consume p 0x2C = (p', []) ∧ p'.mode = Mode.beforeValue ∧
      p'.scalar = Scalar.none ∧ p'.stack = p.stack ∧
      p'.streaming = p.streaming ∧ p'.maxDepth = p.maxDepth ∧
      p'.terminated = p.terminated ∧ p'.pushback = Option.none := by
  have hstep : step { p with parsed := p.parsed + 1 } 0x2C =
      ({ { p with parsed := p.parsed + 1 } with
          mode := Mode.beforeValue }, Option.none) := by
    rw [step_scalar_none { p with parsed := p.parsed + 1 } 0x2C hs,
      stepStruct_arrAfterValue_comma { p with parsed := p.parsed + 1 }
        hm]
  exact ⟨_, consume_eq_none p 0x2C _ hstep, rfl, hs, rfl, rfl, rfl, rfl,
    hpb⟩

theorem emittedComma_obj (p : PState)
    (hs : p.scalar = Scalar.none) (hpb : p.pushback = Option.none)
    (hm : p.mode = Mode.objAfterValue) :
    ∃ p', consume p 0x2C = (p', []) ∧ p'.mode = Mode.objMustKey ∧
      p'.scalar = Scalar.none ∧ p'.stack = p.stack ∧
      p'.streaming = p.streaming ∧ p'.maxDepth = p.maxDepth ∧
      p'.terminated = p.terminated ∧ p'.pushback = Option.none := by
  have hstep : step { p with parsed := p.parsed + 1 } 0x2C =
      ({ { p with parsed := p.parsed + 1 } with
          mode := Mode.objMustKey }, Option.none) := by
    rw [step_scalar_none { p with parsed := p.parsed + 1 } 0x2C hs,
      stepStruct_objAfterValue_comma { p with parsed := p.parsed + 1 }
        hm]
  exact ⟨_, consume_eq_none p 0x2C _ hstep, rfl, hs, rfl, rfl, rfl, rfl,
    hpb⟩

theorem colonStep (p : PState)
    (hs : p.scalar = Scalar.none) (hpb : p.pushback = Option.none)
    (hm : p.mode = Mode.objAfterKey) :
    ∃ p', consume p 0x3A = (p', []) ∧ p'.mode = Mode.beforeValue ∧
      p'.scalar = Scalar.none ∧ p'.stack = p.stack ∧
      p'.streaming = p.streaming ∧ p'.maxDepth = p.maxDepth ∧
      p'.terminated = p.terminated ∧ p'.pushback = Option.none := by
  have hstep : step { p with parsed := p.parsed + 1 } 0x3A =
      ({ { p with parsed := p.parsed + 1 } with
          mode := Mode.beforeValue }, Option.none) := by
    rw [step_scalar_none { p with parsed := p.parsed + 1 } 0x3A hs,
      stepStruct_objAfterKey_colon { p with parsed := p.parsed + 1 } hm]
  exact ⟨_, consume_eq_none p 0x3A _ hstep, rfl, hs, rfl, rfl, rfl, rfl,
    hpb⟩

theorem emittedClose_arr (p : PState) (s : List Frame)
    (hs : p.scalar = Scalar.none) (hpb : p.pushback = Option.none)
    (hm : p.mode = Mode.arrAfterValue)
    (hstk : p.stack = Frame.array :: s) :
    ∃ p', consume p 0x5D = (p', [mkEmitted p' JsonEvent.endArray]) ∧
      p'.stack = s ∧ p'.mode = advanceMode p.streaming s ∧
      p'.scalar = Scalar.none ∧ p'.streaming = p.streaming ∧
      p'.maxDepth = p.maxDepth ∧ p'.terminated = p.terminated ∧
      p'.pushback = Option.none := by
  have hstep : step { p with parsed := p.parsed + 1 } 0x5D =
      ({ { p with parsed := p.parsed + 1 } with
          stack := s,
          scalar := .none,
          mode := advanceMode ({ p with
            parsed := p.parsed + 1 } : PState).streaming s },
        some .endArray) := by
    rw [step_scalar_none { p with parsed := p.parsed + 1 } 0x5D hs,
      stepStruct_arrAfterValue_close { p with parsed := p.parsed + 1 } s
        hm hstk]
  exact ⟨_, consume_eq_emit p 0x5D _ JsonEvent.endArray hstep hpb, rfl,
    rfl, rfl, rfl, rfl, rfl, hpb⟩

theorem emittedClose_arrFirst (p : PState) (s : List Frame)
    (hs : p.scalar = Scalar.none) (hpb : p.pushback = Option.none)
    (hm : p.mode = Mode.arrFirst)
    (hstk : p.stack = Frame.array :: s) :
    ∃ p', consume p 0x5D = (p', [mkEmitted p' JsonEvent.endArray]) ∧
      p'.stack = s ∧ p'.mode = advanceMode p.streaming s ∧
      p'.scalar = Scalar.none ∧ p'.streaming = p.streaming ∧
      p'.maxDepth = p.maxDepth ∧ p'.terminated = p.terminated ∧
      p'.pushback = Option.none := by
  have hstep : step { p with parsed := p.parsed + 1 } 0x5D =
      ({ { p with parsed := p.parsed + 1 } with
          stack := s,
          scalar := .none,
          mode := advanceMode ({ p with
            parsed := p.parsed + 1 } : PState).streaming s },
        some .endArray) := by
    rw [step_scalar_none { p with parsed := p.parsed + 1 } 0x5D hs,
      stepStruct_arrFirst_close { p with parsed := p.parsed + 1 } s hm
        hstk]
  exact ⟨_, consume_eq_emit p 0x5D _ JsonEvent.endArray hstep hpb, rfl,
    rfl, rfl, rfl, rfl, rfl, hpb⟩

theorem emittedClose_obj (p : PState) (s : List Frame)
    (hs : p.scalar = Scalar.none) (hpb : p.pushback = Option.none)
    (hm : p.mode = Mode.objAfterValue)
    (hstk : p.stack = Frame.object :: s) :
    ∃ p', consume p 0x7D = (p', [mkEmitted p' JsonEvent.endObject]) ∧
      p'.stack = s ∧ p'.mode = advanceMode p.streaming s ∧
      p'.scalar = Scalar.none ∧ p'.streaming = p.streaming ∧
      p'.maxDepth = p.maxDepth ∧ p'.terminated = p.terminated ∧
      p'.pushback = Option.none := by
  have hstep : step { p with parsed := p.parsed + 1 } 0x7D =
      ({ { p with parsed := p.parsed + 1 } with
          stack := s,
          scalar := .none,
          mode := advanceMode ({ p with
            parsed := p.parsed + 1 } : PState).streaming s },
        some .endObject) := by
    rw [step_scalar_none { p with parsed := p.parsed + 1 } 0x7D hs,
      stepStruct_objAfterValue_close { p with parsed := p.parsed + 1 } s
        hm hstk]
  exact ⟨_, consume_eq_emit p 0x7D _ JsonEvent.endObject hstep hpb, rfl,
    rfl, rfl, rfl, rfl, rfl, hpb⟩

theorem emittedClose_objFirstKey (p : PState) (s : List Frame)
    (hs : p.scalar = Scalar.none) (hpb : p.pushback = Option.none)
    (hm : p.mode = Mode.objFirstKey)
    (hstk : p.stack = Frame.object :: s) :
    ∃ p', consume p 0x7D = (p', [mkEmitted p' JsonEvent.endObject]) ∧
      p'.stack = s ∧ p'.mode = advanceMode p.streaming s ∧
      p'.scalar = Scalar.none ∧ p'.streaming = p.streaming ∧
      p'.maxDepth = p.maxDepth ∧ p'.terminated = p.terminated ∧
      p'.pushback = Option.none := by
  have hstep : step { p with parsed := p.parsed + 1 } 0x7D =
      ({ { p with parsed := p.parsed + 1 } with
          stack := s,
          scalar := .none,
          mode := advanceMode ({ p with
            parsed := p.parsed + 1 } : PState).streaming s },
        some .endObject) := by
    rw [step_scalar_none { p with parsed := p.parsed + 1 } 0x7D hs,
      stepStruct_objFirstKey_close { p with parsed := p.parsed + 1 } s
        hm hstk]
  exact ⟨_, consume_eq_emit p 0x7D _ JsonEvent.endObject hstep hpb, rfl,
    rfl, rfl, rfl, rfl, rfl, hpb⟩

/-- Processing the rendered items of a nonempty array, followed by the
closing bracket: the array value is completed and built. -/
theorem itemsGo (d : Nat) (vs : List Json) : vs ≠ [] →
    (∀ v ∈ vs, ValueSimP v d) →
    ∀ p s, (p.mode = Mode.beforeValue ∨ p.mode = Mode.arrFirst) →
      p.stack = Frame.array :: s → p.scalar = Scalar.none →
      p.pushback = Option.none → d + p.stack.length ≤ p.maxDepth →
      ∃ p' evs, processAll p (renderItems vs ++ [0x5D]) = (p', evs) ∧
        p'.stack = s ∧ p'.mode = advanceMode p.streaming s ∧
        p'.scalar = Scalar.none ∧ p'.streaming = p.streaming ∧
        p'.maxDepth = p.maxDepth ∧ p'.terminated = p.terminated ∧
        p'.pushback = Option.none ∧ evsOk evs = true ∧
        ∀ st ar rest2, st.bstack = BFrame.arr ar :: rest2 →
          buildFold st evs = placeValue ⟨rest2, st.result⟩
            (Json.array (ar ++ vs)) := by
  induction vs with
  | nil =>
    intro hne
    exact absurd rfl hne
  | cons v tail ih =>
    intro _ hvs p s hm hstk hsc hpb hd
    obtain ⟨pV, evsV, hallV, hVstk, hVstr, hVmd, hVterm, hVpb, hVok,
      hout⟩ := hvs v (by simp) p hsc hpb hm hd
    cases tail with
    | nil =>
      have hbytes : renderItems [v] ++ [0x5D] = render v ++ [0x5D] := rfl
      rcases hout with ⟨hVmode, hVsc, hbuildV⟩ |
        ⟨raw, ph, hveq, hVsc, hcomp, hVcur, hevs, hVmode⟩
      · have hmV : pV.mode = Mode.arrAfterValue := by
          rw [hVmode, hstk]
          rfl
        have hstkV : pV.stack = Frame.array :: s := hVstk.trans hstk
        obtain ⟨pE, hconsE, hEstk, hEmode, hEsc, hEstr, hEmd, hEterm,
          hEpb⟩ := emittedClose_arr pV s hVsc hVpb hmV hstkV
        refine ⟨pE, evsV ++ [mkEmitted pE JsonEvent.endArray], ?_, hEstk,
          ?_, hEsc, ?_, ?_, ?_, hEpb, ?_, ?_⟩
        · rw [hbytes, processAll_append p (render v) [0x5D], hallV,
            processAll_cons_emit pV pE 0x5D [] _ hconsE]
          rfl
        · rw [hEmode, hVstr]
        · rw [hEstr, hVstr]
        · rw [hEmd, hVmd]
        · rw [hEterm, hVterm]
        · simp only [evsOk, List.all_append] at hVok ⊢
          rw [hVok]
          rfl
        · intro st ar rest2 hstb
          rw [buildFold_append, hbuildV st]
          rw [show placeValue st v =
              some ⟨BFrame.arr (ar ++ [v]) :: rest2, st.result⟩ from by
            unfold placeValue
            rw [hstb]]
          simp only []
          rw [buildFold_single]
          rfl
      · subst hveq
        subst hevs
        have hstkV2 : pV.stack = Frame.array :: s := hVstk.trans hstk
        obtain ⟨pA, pE, hconsE, hAcur, hEstk, hEmode, hEsc, hEstr, hEmd,
          hEterm, hEpb⟩ := pendingClose_arr pV ph s hVsc hcomp hVpb
            hstkV2
        refine ⟨pE, [mkEmitted pA (numEvent ph),
          mkEmitted pE JsonEvent.endArray], ?_, hEstk, ?_, hEsc, ?_, ?_,
          ?_, hEpb, ?_, ?_⟩
        · rw [hbytes,
            processAll_append p (render (Json.number raw)) [0x5D], hallV,
            processAll_cons_emit pV pE 0x5D [] _ hconsE]
          rfl
        · rw [hEmode, hVstr]
        · rw [hEstr, hVstr]
        · rw [hEmd, hVmd]
        · rw [hEterm, hVterm]
        · simp only [evsOk, List.all_cons, List.all_nil, mkEmitted,
            isTerminal_numEvent]
          rfl
        · intro st ar rest2 hstb
          have hb1 : buildStep st (mkEmitted pA (numEvent ph)) =
              placeValue st (Json.number raw) := by
            rw [buildStep_numEvent,
              show pA.cur = raw from hAcur.trans hVcur]
          rw [buildFold_pair, hb1]
          rw [show placeValue st (Json.number raw) =
              some ⟨BFrame.arr (ar ++ [Json.number raw]) :: rest2,
                st.result⟩ from by
            unfold placeValue
            rw [hstb]]
          simp only []
          rfl
    | cons v2 rest =>
      have hbytes : renderItems (v :: v2 :: rest) ++ [0x5D] =
          render v ++ (0x2C :: (renderItems (v2 :: rest) ++ [0x5D])) := by
        show (render v ++ [0x2C] ++ renderItems (v2 :: rest)) ++ [0x5D] =
          _
        simp [List.append_assoc]
      rcases hout with ⟨hVmode, hVsc, hbuildV⟩ |
        ⟨raw, ph, hveq, hVsc, hcomp, hVcur, hevs, hVmode⟩
      · have hmV : pV.mode = Mode.arrAfterValue := by
          rw [hVmode, hstk]
          rfl
        obtain ⟨pS, hconsS, hSmode, hSsc, hSstk, hSstr, hSmd, hSterm,
          hSpb⟩ := emittedComma_arr pV hVsc hVpb hmV
        obtain ⟨p', evs', hall', hstk', hmode', hsc', hstr', hmd',
          hterm', hpb', hok', hbuild'⟩ :=
          ih (by simp) (fun w hw => hvs w (by simp [hw])) pS s
            (Or.inl hSmode)
            ((hSstk.trans hVstk).trans hstk) hSsc hSpb
            (by
              rw [show pS.stack = p.stack from hSstk.trans hVstk,
                show pS.maxDepth = p.maxDepth from hSmd.trans hVmd]
              exact hd)
        refine ⟨p', evsV ++ evs', ?_, hstk', ?_, hsc', ?_, ?_, ?_, hpb',
          ?_, ?_⟩
        · rw [hbytes, processAll_append p (render v) _, hallV,
            processAll_silent pV pS 0x2C _ hconsS, hall']
        · rw [hmode', hSstr, hVstr]
        · rw [hstr', hSstr, hVstr]
        · rw [hmd', hSmd, hVmd]
        · rw [hterm', hSterm, hVterm]
        · simp only [evsOk, List.all_append] at hVok hok' ⊢
          rw [hVok, hok']
          rfl
        · intro st ar rest2 hstb
          rw [buildFold_append, hbuildV st]
          rw [show placeValue st v =
              some ⟨BFrame.arr (ar ++ [v]) :: rest2, st.result⟩ from by
            unfold placeValue
            rw [hstb]]
          simp only []
          rw [hbuild' ⟨BFrame.arr (ar ++ [v]) :: rest2, st.result⟩
            (ar ++ [v]) rest2 rfl]
          simp [List.append_assoc]
      · subst hveq
        subst hevs
        have hstkV2 : pV.stack = Frame.array :: s := hVstk.trans hstk
        obtain ⟨pA, pS, hconsS, hAcur, hSmode, hSsc, hSstk, hSstr, hSmd,
          hSterm, hSpb⟩ := pendingComma_arr pV ph s hVsc hcomp hVpb
            hstkV2
        obtain ⟨p', evs', hall', hstk', hmode', hsc', hstr', hmd',
          hterm', hpb', hok', hbuild'⟩ :=
          ih (by simp) (fun w hw => hvs w (by simp [hw])) pS s
            (Or.inl hSmode)
            ((hSstk.trans hVstk).trans hstk) hSsc hSpb
            (by
              rw [show pS.stack = p.stack from hSstk.trans hVstk,
                show pS.maxDepth = p.maxDepth from hSmd.trans hVmd]
              exact hd)
        refine ⟨p', mkEmitted pA (numEvent ph) :: evs', ?_, hstk', ?_,
          hsc', ?_, ?_, ?_, hpb', ?_, ?_⟩
        · rw [hbytes,
            processAll_append p (render (Json.number raw)) _, hallV,
            processAll_cons_emit pV pS 0x2C _ _ hconsS, hall']
          rfl
        · rw [hmode', hSstr, hVstr]
        · rw [hstr', hSstr, hVstr]
        · rw [hmd', hSmd, hVmd]
        · rw [hterm', hSterm, hVterm]
        · simp only [evsOk] at hok'
          simp only [evsOk, List.all_cons, mkEmitted,
            isTerminal_numEvent, hok']
          rfl
        · intro st ar rest2 hstb
          have hb1 : buildStep st (mkEmitted pA (numEvent ph)) =
              placeValue st (Json.number raw) := by
            rw [buildStep_numEvent,
              show pA.cur = raw from hAcur.trans hVcur]
          rw [show buildFold st (mkEmitted pA (numEvent ph) :: evs') =
              match buildStep st (mkEmitted pA (numEvent ph)) with
              | some st1 => buildFold st1 evs'
              | Option.none => Option.none from rfl]
          rw [hb1]
          rw [show placeValue st (Json.number raw) =
              some ⟨BFrame.arr (ar ++ [Json.number raw]) :: rest2,
                st.result⟩ from by
            unfold placeValue
            rw [hstb]]
          simp only []
          rw [hbuild' ⟨BFrame.arr (ar ++ [Json.number raw]) :: rest2,
            st.result⟩ (ar ++ [Json.number raw]) rest2 rfl]
          simp [List.append_assoc]

/-- Processing the rendered fields of a nonempty object, followed by the
closing brace: the object value is completed and built. -/
theorem fieldsGo (d : Nat) (fl : List (List Nat × Json)) : fl ≠ [] →
    (∀ kv ∈ fl, StrOk kv.1) → (∀ kv ∈ fl, ValueSimP kv.2 d) →
    ∀ p s, (p.mode = Mode.objFirstKey ∨ p.mode = Mode.objMustKey) →
      p.stack = Frame.object :: s → p.scalar = Scalar.none →
      p.pushback = Option.none → d + p.stack.length ≤ p.maxDepth →
      ∃ p' evs, processAll p (renderFields fl ++ [0x7D]) = (p', evs) ∧
        p'.stack = s ∧ p'.mode = advanceMode p.streaming s ∧
        p'.scalar = Scalar.none ∧ p'.streaming = p.streaming ∧
        p'.maxDepth = p.maxDepth ∧ p'.terminated = p.terminated ∧
        p'.pushback = Option.none ∧ evsOk evs = true ∧
        ∀ st flb rest2, st.bstack = BFrame.obj flb :: rest2 →
          buildFold st evs = placeValue ⟨rest2, st.result⟩
            (Json.object (flb ++ fl)) := by
  induction fl with
  | nil =>
    intro hne
    exact absurd rfl hne
  | cons kv tail ih =>
    rcases kv with ⟨k, v⟩
    intro _ hks hvs p s hm hstk hsc hpb hd
    obtain ⟨pK, hallK, hKsc, hKmode, hKcur, hKstk, hKstr, hKmd, hKterm,
      hKpb⟩ := strKeyRun p k (hks ⟨k, v⟩ (by simp)) hsc hpb hm
    obtain ⟨pC, hconsC, hCmode, hCsc, hCstk, hCstr, hCmd, hCterm,
      hCpb⟩ := colonStep pK hKsc hKpb hKmode
    obtain ⟨pV, evsV, hallV, hVstk, hVstr, hVmd, hVterm, hVpb, hVok,
      hout⟩ := hvs ⟨k, v⟩ (by simp) pC hCsc hCpb (Or.inl hCmode)
        (by
          rw [show pC.stack = p.stack from hCstk.trans hKstk,
            show pC.maxDepth = p.maxDepth from hCmd.trans hKmd]
          exact hd)
    have hVstkP : pV.stack = p.stack :=
      (hVstk.trans hCstk).trans hKstk
    have hVstrP : pV.streaming = p.streaming :=
      (hVstr.trans hCstr).trans hKstr
    have hVmdP : pV.maxDepth = p.maxDepth := (hVmd.trans hCmd).trans hKmd
    have hVtermP : pV.terminated = p.terminated :=
      (hVterm.trans hCterm).trans hKterm
    have hbK : ∀ st flb rest2, st.bstack = BFrame.obj flb :: rest2 →
        buildStep st (mkEmitted pK JsonEvent.fieldName) =
          some ⟨BFrame.objPend flb k :: rest2, st.result⟩ := by
      intro st flb rest2 hstb
      have he : buildStep st (mkEmitted pK JsonEvent.fieldName) =
          match st.bstack with
          | BFrame.obj fl2 :: rest => some ⟨BFrame.objPend fl2 pK.cur ::
              rest, st.result⟩
          | _ => Option.none := rfl
      rw [he, hstb, hKcur]
    cases tail with
    | nil =>
      have hbytes : renderFields [(k, v)] ++ [0x7D] =
          renderStr k ++ (0x3A :: (render v ++ [0x7D])) := by
        show (renderStr k ++ [0x3A] ++ render v) ++ [0x7D] = _
        simp [List.append_assoc]
      rcases hout with ⟨hVmode, hVsc, hbuildV⟩ |
        ⟨raw, ph, hveq, hVsc, hcomp, hVcur, hevs, hVmode⟩
      · have hmV : pV.mode = Mode.objAfterValue := by
          rw [hVmode, show pC.stack = p.stack from hCstk.trans hKstk,
            hstk]
          rfl
        obtain ⟨pE, hconsE, hEstk, hEmode, hEsc, hEstr, hEmd, hEterm,
          hEpb⟩ := emittedClose_obj pV s hVsc hVpb hmV
            (hVstkP.trans hstk)
        refine ⟨pE, mkEmitted pK JsonEvent.fieldName ::
          (evsV ++ [mkEmitted pE JsonEvent.endObject]), ?_, hEstk, ?_,
          hEsc, ?_, ?_, ?_, hEpb, ?_, ?_⟩
        · rw [hbytes, processAll_append p (renderStr k) _, hallK,
            processAll_silent pK pC 0x3A _ hconsC,
            processAll_append pC (render v) _, hallV,
            processAll_cons_emit pV pE 0x7D [] _ hconsE]
          rfl
        · rw [hEmode, hVstrP]
        · rw [hEstr, hVstrP]
        · rw [hEmd, hVmdP]
        · rw [hEterm, hVtermP]
        · simp only [evsOk, List.all_cons, List.all_append,
            List.all_nil, mkEmitted] at hVok ⊢
          rw [hVok]
          rfl
        · intro st flb rest2 hstb
          rw [show buildFold st (mkEmitted pK JsonEvent.fieldName ::
              (evsV ++ [mkEmitted pE JsonEvent.endObject])) =
              match buildStep st (mkEmitted pK JsonEvent.fieldName) with
              | some st1 => buildFold st1
                  (evsV ++ [mkEmitted pE JsonEvent.endObject])
              | Option.none => Option.none from rfl]
          rw [hbK st flb rest2 hstb]
          simp only []
          rw [buildFold_append, hbuildV]
          rw [show placeValue ⟨BFrame.objPend flb k :: rest2, st.result⟩
              v = some ⟨BFrame.obj (flb ++ [(k, v)]) :: rest2,
                st.result⟩ from rfl]
          simp only []
          rw [buildFold_single]
          rfl
      · subst hveq
        subst hevs
        obtain ⟨pA, pE, hconsE, hAcur, hEstk, hEmode, hEsc, hEstr, hEmd,
          hEterm, hEpb⟩ := pendingClose_obj pV ph s hVsc hcomp hVpb
            (hVstkP.trans hstk)
        refine ⟨pE, mkEmitted pK JsonEvent.fieldName ::
          [mkEmitted pA (numEvent ph), mkEmitted pE JsonEvent.endObject],
          ?_, hEstk, ?_, hEsc, ?_, ?_, ?_, hEpb, ?_, ?_⟩
        · rw [hbytes, processAll_append p (renderStr k) _, hallK,
            processAll_silent pK pC 0x3A _ hconsC,
            processAll_append pC (render (Json.number raw)) _, hallV,
            processAll_cons_emit pV pE 0x7D [] _ hconsE]
          rfl
        · rw [hEmode, hVstrP]
        · rw [hEstr, hVstrP]
        · rw [hEmd, hVmdP]
        · rw [hEterm, hVtermP]
        · simp only [evsOk, List.all_cons, List.all_nil, mkEmitted,
            isTerminal_numEvent]
          rfl
        · intro st flb rest2 hstb
          rw [show buildFold st (mkEmitted pK JsonEvent.fieldName ::
              [mkEmitted pA (numEvent ph),
                mkEmitted pE JsonEvent.endObject]) =
              match buildStep st (mkEmitted pK JsonEvent.fieldName) with
              | some st1 => buildFold st1
                  [mkEmitted pA (numEvent ph),
                    mkEmitted pE JsonEvent.endObject]
              | Option.none => Option.none from rfl]
          rw [hbK st flb rest2 hstb]
          simp only []
          rw [buildFold_pair, buildStep_numEvent,
            show pA.cur = raw from hAcur.trans hVcur]
          rw [show placeValue ⟨BFrame.objPend flb k :: rest2, st.result⟩
              (Json.number raw) = some ⟨BFrame.obj
                (flb ++ [(k, Json.number raw)]) :: rest2,
                st.result⟩ from rfl]
          simp only []
          rfl
    | cons f2 rest =>
      have hbytes : renderFields ((k, v) :: f2 :: rest) ++ [0x7D] =
          renderStr k ++ (0x3A :: (render v ++
            (0x2C :: (renderFields (f2 :: rest) ++ [0x7D])))) := by
        show (renderStr k ++ [0x3A] ++ render v ++ [0x2C] ++
          renderFields (f2 :: rest)) ++ [0x7D] = _
        simp [List.append_assoc]
      rcases hout with ⟨hVmode, hVsc, hbuildV⟩ |
        ⟨raw, ph, hveq, hVsc, hcomp, hVcur, hevs, hVmode⟩
      · have hmV : pV.mode = Mode.objAfterValue := by
          rw [hVmode, show pC.stack = p.stack from hCstk.trans hKstk,
            hstk]
          rfl
        obtain ⟨pS, hconsS, hSmode, hSsc, hSstk, hSstr, hSmd, hSterm,
          hSpb⟩ := emittedComma_obj pV hVsc hVpb hmV
        obtain ⟨p', evs', hall', hstk', hmode', hsc', hstr', hmd',
          hterm', hpb', hok', hbuild'⟩ :=
          ih (by simp) (fun w hw => hks w (by simp [hw]))
            (fun w hw => hvs w (by simp [hw])) pS s (Or.inr hSmode)
            ((hSstk.trans hVstkP).trans hstk) hSsc hSpb
            (by
              rw [show pS.stack = p.stack from hSstk.trans hVstkP,
                show pS.maxDepth = p.maxDepth from hSmd.trans hVmdP]
              exact hd)
        refine ⟨p', mkEmitted pK JsonEvent.fieldName :: (evsV ++ evs'),
          ?_, hstk', ?_, hsc', ?_, ?_, ?_, hpb', ?_, ?_⟩
        · rw [hbytes, processAll_append p (renderStr k) _, hallK,
            processAll_silent pK pC 0x3A _ hconsC,
            processAll_append pC (render v) _, hallV,
            processAll_silent pV pS 0x2C _ hconsS, hall']
          rfl
        · rw [hmode', hSstr, hVstrP]
        · rw [hstr', hSstr, hVstrP]
        · rw [hmd', hSmd, hVmdP]
        · rw [hterm', hSterm, hVtermP]
        · simp only [evsOk, List.all_cons, List.all_append,
            List.all_nil, mkEmitted] at hVok hok' ⊢
          rw [hVok, hok']
          rfl
        · intro st flb rest2 hstb
          rw [show buildFold st (mkEmitted pK JsonEvent.fieldName ::
              (evsV ++ evs')) =
              match buildStep st (mkEmitted pK JsonEvent.fieldName) with
              | some st1 => buildFold st1 (evsV ++ evs')
              | Option.none => Option.none from rfl]
          rw [hbK st flb rest2 hstb]
          simp only []
          rw [buildFold_append, hbuildV]
          rw [show placeValue ⟨BFrame.objPend flb k :: rest2, st.result⟩
              v = some ⟨BFrame.obj (flb ++ [(k, v)]) :: rest2,
                st.result⟩ from rfl]
          simp only []
          rw [hbuild' ⟨BFrame.obj (flb ++ [(k, v)]) :: rest2, st.result⟩
            (flb ++ [(k, v)]) rest2 rfl]
          simp [List.append_assoc]
      · subst hveq
        subst hevs
        obtain ⟨pA, pS, hconsS, hAcur, hSmode, hSsc, hSstk, hSstr, hSmd,
          hSterm, hSpb⟩ := pendingComma_obj pV ph s hVsc hcomp hVpb
            (hVstkP.trans hstk)
        obtain ⟨p', evs', hall', hstk', hmode', hsc', hstr', hmd',
          hterm', hpb', hok', hbuild'⟩ :=
          ih (by simp) (fun w hw => hks w (by simp [hw]))
            (fun w hw => hvs w (by simp [hw])) pS s (Or.inr hSmode)
            ((hSstk.trans hVstkP).trans hstk) hSsc hSpb
            (by
              rw [show pS.stack = p.stack from hSstk.trans hVstkP,
                show pS.maxDepth = p.maxDepth from hSmd.trans hVmdP]
              exact hd)
        refine ⟨p', mkEmitted pK JsonEvent.fieldName ::
          (mkEmitted pA (numEvent ph) :: evs'), ?_, hstk', ?_, hsc', ?_,
          ?_, ?_, hpb', ?_, ?_⟩
        · rw [hbytes, processAll_append p (renderStr k) _, hallK,
            processAll_silent pK pC 0x3A _ hconsC,
            processAll_append pC (render (Json.number raw)) _, hallV,
            processAll_cons_emit pV pS 0x2C _ _ hconsS, hall']
          rfl
        · rw [hmode', hSstr, hVstrP]
        · rw [hstr', hSstr, hVstrP]
        · rw [hmd', hSmd, hVmdP]
        · rw [hterm', hSterm, hVtermP]
        · simp only [evsOk, List.all_cons, List.all_append,
            List.all_nil, mkEmitted] at hok' ⊢
          rw [hok', isTerminal_numEvent]
          rfl
        · intro st flb rest2 hstb
          rw [show buildFold st (mkEmitted pK JsonEvent.fieldName ::
              (mkEmitted pA (numEvent ph) :: evs')) =
              match buildStep st (mkEmitted pK JsonEvent.fieldName) with
              | some st1 => buildFold st1
                  (mkEmitted pA (numEvent ph) :: evs')
              | Option.none => Option.none from rfl]
          rw [hbK st flb rest2 hstb]
          simp only []
          rw [show buildFold ⟨BFrame.objPend flb k :: rest2, st.result⟩
              (mkEmitted pA (numEvent ph) :: evs') =
              match buildStep ⟨BFrame.objPend flb k :: rest2, st.result⟩
                (mkEmitted pA (numEvent ph)) with
              | some st1 => buildFold st1 evs'
              | Option.none => Option.none from rfl]
          rw [buildStep_numEvent, show pA.cur = raw from hAcur.trans
            hVcur]
          rw [show placeValue ⟨BFrame.objPend flb k :: rest2, st.result⟩
              (Json.number raw) = some ⟨BFrame.obj
                (flb ++ [(k, Json.number raw)]) :: rest2,
                st.result⟩ from rfl]
          simp only []
          rw [hbuild' ⟨BFrame.obj (flb ++ [(k, Json.number raw)]) ::
            rest2, st.result⟩ (flb ++ [(k, Json.number raw)]) rest2 rfl]
          simp [List.append_assoc]

/-- The per-value completeness for every wellformed value. -/
theorem valueSim (v : Json) (d : Nat) (hwf : WfD v d) :
    ValueSimP v d := by
  induction hwf with
  | null d => exact valueSimP_null d
  | boolean b d => exact valueSimP_boolean b d
  | number raw d h => exact valueSimP_number raw d h
  | string s d h => exact valueSimP_string s d h
  | array items d h ih =>
    intro p hs hpb hm hd
    have hdlt : p.stack.length < p.maxDepth := by omega
    have hstep1 : step { p with parsed := p.parsed + 1 } 0x5B =
        ({ p with
            parsed := p.parsed + 1,
            stack := .array :: p.stack,
            mode := .arrFirst }, some .startArray) := by
      rw [step_scalar_none { p with parsed := p.parsed + 1 } 0x5B hs,
        stepStruct_value { p with parsed := p.parsed + 1 } 0x5B hm
          (by decide) (by decide),
        startValue_arrOpen { p with parsed := p.parsed + 1 } 0x5B
          (by decide) hdlt]
    have hcons1 : consume p 0x5B =
        ({ p with
            parsed := p.parsed + 1,
            stack := .array :: p.stack,
            mode := .arrFirst },
          [mkEmitted { p with
            parsed := p.parsed + 1,
            stack := .array :: p.stack,
            mode := .arrFirst } JsonEvent.startArray]) :=
      consume_eq_emit p 0x5B _ JsonEvent.startArray hstep1 hpb
    cases items with
    | nil =>
      obtain ⟨pE, hconsE, hEstk, hEmode, hEsc, hEstr, hEmd, hEterm,
        hEpb⟩ := emittedClose_arrFirst { p with
          parsed := p.parsed + 1,
          stack := .array :: p.stack,
          mode := .arrFirst } p.stack hs hpb rfl rfl
      refine ⟨pE, [mkEmitted { p with
          parsed := p.parsed + 1,
          stack := .array :: p.stack,
          mode := .arrFirst } JsonEvent.startArray,
        mkEmitted pE JsonEvent.endArray], ?_, hEstk, ?_, ?_, ?_, ?_, ?_,
        Or.inl ⟨?_, hEsc, ?_⟩⟩
      · rw [show render (Json.array []) = [0x5B, 0x5D] from rfl,
          processAll_cons_emit p _ 0x5B _ _ hcons1,
          processAll_cons_emit _ pE 0x5D [] _ hconsE]
        rfl
      · exact hEstr
      · exact hEmd
      · exact hEterm
      · exact hEpb
      · rfl
      · rw [hEmode]
      · intro st
        rw [buildFold_pair]
        rfl
    | cons v1 rest =>
      obtain ⟨p', evs', hall', hstk', hmode', hsc', hstr', hmd', hterm',
        hpb', hok', hbuild'⟩ :=
        itemsGo d (v1 :: rest) (by simp) ih
          { p with
            parsed := p.parsed + 1,
            stack := .array :: p.stack,
            mode := .arrFirst } p.stack
          (Or.inr rfl) rfl hs hpb
          (by
            show d + (p.stack.length + 1) ≤ p.maxDepth
            omega)
      refine ⟨p', mkEmitted { p with
          parsed := p.parsed + 1,
          stack := .array :: p.stack,
          mode := .arrFirst } JsonEvent.startArray :: evs', ?_, hstk',
        ?_, ?_, ?_, ?_, ?_, Or.inl ⟨?_, hsc', ?_⟩⟩
      · rw [show render (Json.array (v1 :: rest)) =
          0x5B :: (renderItems (v1 :: rest) ++ [0x5D]) from rfl,
          processAll_cons_emit p _ 0x5B _ _ hcons1, hall']
        rfl
      · exact hstr'
      · exact hmd'
      · exact hterm'
      · exact hpb'
      · simp only [evsOk, List.all_cons, mkEmitted] at hok' ⊢
        rw [hok']
        rfl
      · rw [hmode']
      · intro st
        rw [show buildFold st (mkEmitted { p with
            parsed := p.parsed + 1,
            stack := .array :: p.stack,
            mode := .arrFirst } JsonEvent.startArray :: evs') =
            buildFold ⟨BFrame.arr [] :: st.bstack, st.result⟩ evs'
            from rfl]
        rw [hbuild' ⟨BFrame.arr [] :: st.bstack, st.result⟩ [] st.bstack
          rfl]
        rfl
  | object fl d hk hv ihv =>
    intro p hs hpb hm hd
    have hdlt : p.stack.length < p.maxDepth := by omega
    have hstep1 : step { p with parsed := p.parsed + 1 } 0x7B =
        ({ p with
            parsed := p.parsed + 1,
            stack := .object :: p.stack,
            mode := .objFirstKey }, some .startObject) := by
      rw [step_scalar_none { p with parsed := p.parsed + 1 } 0x7B hs,
        stepStruct_value { p with parsed := p.parsed + 1 } 0x7B hm
          (by decide) (by decide),
        startValue_objOpen { p with parsed := p.parsed + 1 } 0x7B
          (by decide) hdlt]
    have hcons1 : consume p 0x7B =
        ({ p with
            parsed := p.parsed + 1,
            stack := .object :: p.stack,
            mode := .objFirstKey },
          [mkEmitted { p with
            parsed := p.parsed + 1,
            stack := .object :: p.stack,
            mode := .objFirstKey } JsonEvent.startObject]) :=
      consume_eq_emit p 0x7B _ JsonEvent.startObject hstep1 hpb
    cases fl with
    | nil =>
      obtain ⟨pE, hconsE, hEstk, hEmode, hEsc, hEstr, hEmd, hEterm,
        hEpb⟩ := emittedClose_objFirstKey { p with
          parsed := p.parsed + 1,
          stack := .object :: p.stack,
          mode := .objFirstKey } p.stack hs hpb rfl rfl
      refine ⟨pE, [mkEmitted { p with
          parsed := p.parsed + 1,
          stack := .object :: p.stack,
          mode := .objFirstKey } JsonEvent.startObject,
        mkEmitted pE JsonEvent.endObject], ?_, hEstk, ?_, ?_, ?_, ?_,
        ?_, Or.inl ⟨?_, hEsc, ?_⟩⟩
      · rw [show render (Json.object []) = [0x7B, 0x7D] from rfl,
          processAll_cons_emit p _ 0x7B _ _ hcons1,
          processAll_cons_emit _ pE 0x7D [] _ hconsE]
        rfl
      · exact hEstr
      · exact hEmd
      · exact hEterm
      · exact hEpb
      · rfl
      · rw [hEmode]
      · intro st
        rw [buildFold_pair]
        rfl
    | cons kv1 rest =>
      obtain ⟨p', evs', hall', hstk', hmode', hsc', hstr', hmd', hterm',
        hpb', hok', hbuild'⟩ :=
        fieldsGo d (kv1 :: rest) (by simp) hk ihv
          { p with
            parsed := p.parsed + 1,
            stack := .object :: p.stack,
            mode := .objFirstKey } p.stack
          (Or.inl rfl) rfl hs hpb
          (by
            show d + (p.stack.length + 1) ≤ p.maxDepth
            omega)
      refine ⟨p', mkEmitted { p with
          parsed := p.parsed + 1,
          stack := .object :: p.stack,
          mode := .objFirstKey } JsonEvent.startObject :: evs', ?_,
        hstk', ?_, ?_, ?_, ?_, ?_, Or.inl ⟨?_, hsc', ?_⟩⟩
      · rw [show render (Json.object (kv1 :: rest)) =
          0x7B :: (renderFields (kv1 :: rest) ++ [0x7D]) from rfl,
          processAll_cons_emit p _ 0x7B _ _ hcons1, hall']
        rfl
      · exact hstr'
      · exact hmd'
      · exact hterm'
      · exact hpb'
      · simp only [evsOk, List.all_cons, mkEmitted] at hok' ⊢
        rw [hok']
        rfl
      · rw [hmode']
      · intro st
        rw [show buildFold st (mkEmitted { p with
            parsed := p.parsed + 1,
            stack := .object :: p.stack,
            mode := .objFirstKey } JsonEvent.startObject :: evs') =
            buildFold ⟨BFrame.obj [] :: st.bstack, st.result⟩ evs'
            from rfl]
        rw [hbuild' ⟨BFrame.obj [] :: st.bstack, st.result⟩ [] st.bstack
          rfl]
        rfl

/-- Part B of the round trip: the rendered text of any wellformed value
is accepted by the parser and builds back the same value. -/
theorem renderRoundTrip (md : Nat) (v : Json) (hwf : WfD v md) :
    buildJson (docEvents (initState false md) (render v)) = some v ∧
    accepted md (render v) = true := by
  obtain ⟨pV, evs, hallV, hVstk, hVstr, hVmd, hVterm, hVpb, hVok, hout⟩ :=
    valueSim v md hwf (initState false md) rfl rfl (Or.inl rfl)
      (by simp [initState])
  rcases hout with ⟨hVmode, hVsc, hbuildV⟩ |
    ⟨raw, ph, hveq, hVsc, hcomp, hVcur, hevs, hVmode⟩
  · have hVmode' : pV.mode = Mode.done := hVmode
    have hend : endstep pV = (pV, JsonEvent.eof) := by
      unfold endstep
      rw [hVsc]
      simp only []
      rw [hVmode']
    have hfin : finishEvents pV = [mkEmitted pV JsonEvent.eof] := by
      unfold finishEvents
      simp only []
      rw [hend]
      rfl
    have hdoc : docEvents (initState false md) (render v) =
        evs ++ [mkEmitted pV JsonEvent.eof] := by
      unfold docEvents
      simp only []
      rw [hallV]
      simp only []
      rw [hfin]
    constructor
    · rw [hdoc]
      unfold buildJson
      rw [buildFold_append, hbuildV ⟨[], Option.none⟩]
      rw [show placeValue ⟨[], Option.none⟩ v = some ⟨[], some v⟩ from
        rfl]
      simp only []
      rw [buildFold_single]
      rfl
    · unfold accepted
      rw [hdoc]
      simp only []
      rw [List.getLast?_concat]
      simp only []
      rw [List.dropLast_concat]
      rw [show evs.all (fun e => !isTerminal e.ev) = true from hVok]
      rfl
  · subst hveq
    subst hevs
    have hend1 : endstep pV = (completeValue pV, numEvent ph) := by
      unfold endstep
      rw [hVsc]
      simp only []
      rw [if_pos hcomp]
    have hmdone : advanceMode pV.streaming pV.stack = Mode.done := by
      rw [show pV.streaming = false from hVstr,
        show pV.stack = ([] : List Frame) from hVstk]
      rfl
    have hend2 : endstep (completeValue pV) =
        (completeValue pV, JsonEvent.eof) := by
      have he : endstep (completeValue pV) =
          match advanceMode pV.streaming pV.stack with
          | Mode.done => (completeValue pV, JsonEvent.eof)
          | Mode.beforeValue =>
            if (completeValue pV).streaming &&
                (completeValue pV).stack.isEmpty then
              (completeValue pV, JsonEvent.eof)
            else (completeValue pV, .error .noMoreInput)
          | _ => (completeValue pV, .error .noMoreInput) := rfl
      rw [he, hmdone]
    have hfin : finishEvents pV =
        [mkEmitted (completeValue pV) (numEvent ph),
          mkEmitted (completeValue pV) JsonEvent.eof] := by
      simp [finishEvents, hend1, hend2, isTerminal_numEvent]
    have hdoc : docEvents (initState false md)
        (render (Json.number raw)) =
        [mkEmitted (completeValue pV) (numEvent ph),
          mkEmitted (completeValue pV) JsonEvent.eof] := by
      unfold docEvents
      simp only []
      rw [hallV]
      simp only []
      rw [hfin]
      rfl
    constructor
    · rw [hdoc]
      unfold buildJson
      rw [buildFold_pair,
        buildStep_numEvent ⟨[], Option.none⟩ (completeValue pV) ph,
        show (completeValue pV).cur = raw from hVcur]
      rfl
    · unfold accepted
      rw [hdoc]
      simp only []
      rw [show [mkEmitted (completeValue pV) (numEvent ph),
          mkEmitted (completeValue pV) JsonEvent.eof] =
          [mkEmitted (completeValue pV) (numEvent ph)] ++
            [mkEmitted (completeValue pV) JsonEvent.eof] from rfl,
        List.getLast?_concat]
      simp only []
      rw [List.dropLast_concat]
      simp only [List.all_cons, List.all_nil, mkEmitted,
        isTerminal_numEvent]
      rfl

/-! ## Streaming equivalence: the claim C1 machinery -/

theorem pullLoop_false_nmi (p : PState) (buf : List Nat) (q : PState)
    (rest : List Nat)
    (h : pullLoop p buf false = (q, rest, .needMoreInput)) :
    rest = [] ∧ q.pushback = p.pushback ∧ q.terminated = p.terminated := by
  induction buf generalizing p with
  | nil =>
    simp only [pullLoop] at h
    cases h
    exact ⟨rfl, rfl, rfl⟩
  | cons b tl ih =>
    simp only [pullLoop] at h
    have hf := step_facts { p with parsed := p.parsed + 1 } b
    rcases hstep : step { p with parsed := p.parsed + 1 } b with ⟨p2, evo⟩
    rw [hstep] at h hf
    cases evo with
    | some ev =>
      simp only [] at h
      cases h
      exact (hf.1 rfl).elim
    | none =>
      simp only [] at h
      have := ih p2 h
      exact ⟨this.1, by rw [this.2.1, hf.2.2.2.2.2.1 rfl],
        by rw [this.2.2, hf.2.1]⟩

theorem pullLoop_nmi_append (p : PState) (buf : List Nat) (q : PState)
    (X : List Nat) (e : Bool)
    (h : pullLoop p buf false = (q, [], .needMoreInput)) :
    pullLoop p (buf ++ X) e = pullLoop q X e := by
  induction buf generalizing p with
  | nil =>
    simp only [pullLoop] at h
    cases h
    rfl
  | cons b tl ih =>
    simp only [pullLoop] at h ⊢
    have hf := step_facts { p with parsed := p.parsed + 1 } b
    rcases hstep : step { p with parsed := p.parsed + 1 } b with ⟨p2, evo⟩
    rw [hstep] at h hf
    cases evo with
    | some ev =>
      simp only [] at h
      cases h
      exact (hf.1 rfl).elim
    | none =>
      simp only [] at h ⊢
      exact ih p2 h

theorem pullLoop_ev_append (p : PState) (buf : List Nat) (q : PState)
    (rest : List Nat) (ev : JsonEvent) (X : List Nat) (e : Bool)
    (h : pullLoop p buf false = (q, rest, ev))
    (hne : ev ≠ .needMoreInput) :
    pullLoop p (buf ++ X) e = (q, rest ++ X, ev) := by
  induction buf generalizing p with
  | nil =>
    simp only [pullLoop] at h
    cases h
    exact absurd rfl hne
  | cons b tl ih =>
    simp only [pullLoop] at h ⊢
    rcases hstep : step { p with parsed := p.parsed + 1 } b with ⟨p2, evo⟩
    rw [hstep] at h
    cases evo with
    | some ev0 =>
      simp only [] at h ⊢
      cases h
      rfl
    | none =>
      simp only [] at h ⊢
      exact ih p2 h

theorem sealState_nonterminal (p : PState) (ev : JsonEvent)
    (h : isTerminal ev = false) : sealState p ev = p := by
  unfold sealState
  rw [h]
  simp

theorem nextEvent_nmi_cont (p : PState) (buf : List Nat) (q : PState)
    (buf' : List Nat)
    (h : nextEvent p buf false = (q, buf', .needMoreInput)) :
    buf' = [] ∧ ∀ X e, nextEvent p (buf ++ X) e = nextEvent q X e := by
  rw [nextEvent_eq] at h
  have hraw : nextEventRaw p buf false = (q, buf', .needMoreInput) := by
    rcases hr : nextEventRaw p buf false with ⟨q0, r0, ev0⟩
    rw [hr] at h
    simp only [] at h
    injection h with h1 h23
    injection h23 with h2 h3
    subst h3
    rw [sealState_nonterminal q0 .needMoreInput rfl] at h1
    rw [h1, h2]
  clear h
  unfold nextEventRaw at hraw
  by_cases ht : p.terminated
  · rw [if_pos ht] at hraw
    cases hraw
  · rw [if_neg ht] at hraw
    cases hpb : p.pushback with
    | none =>
      rw [hpb] at hraw
      simp only [] at hraw
      have hn := pullLoop_false_nmi p buf q buf' hraw
      obtain ⟨hb', hqpb, hqt⟩ := hn
      subst hb'
      refine ⟨rfl, fun X e => ?_⟩
      rw [nextEvent_eq, nextEvent_eq]
      unfold nextEventRaw
      rw [if_neg ht, if_neg (by rw [hqt]; exact ht), hpb]
      rw [hqpb, hpb]
      simp only []
      rw [pullLoop_nmi_append p buf q X e hraw]
    | some b =>
      rw [hpb] at hraw
      simp only [] at hraw
      unfold procPushback at hraw
      have hf := step_facts { p with pushback := Option.none } b
      rcases hstep : step { p with pushback := Option.none } b with ⟨p1, evo⟩
      rw [hstep] at hraw hf
      cases evo with
      | some ev =>
        simp only [] at hraw
        cases hraw
        exact (hf.1 rfl).elim
      | none =>
        simp only [] at hraw
        have hn := pullLoop_false_nmi p1 buf q buf' hraw
        obtain ⟨hb', hqpb, hqt⟩ := hn
        subst hb'
        have hp1pb : p1.pushback = Option.none := hf.2.2.2.2.2.1 rfl
        have hp1t : p1.terminated = p.terminated := hf.2.1
        refine ⟨rfl, fun X e => ?_⟩
        rw [nextEvent_eq, nextEvent_eq]
        unfold nextEventRaw
        rw [if_neg ht, if_neg (by rw [hqt, hp1t]; exact ht), hpb]
        rw [hqpb, hp1pb]
        simp only []
        unfold procPushback
        rw [hstep]
        simp only []
        rw [pullLoop_nmi_append p1 buf q X e hraw]

theorem nextEvent_ev_append (p : PState) (buf : List Nat) (q : PState)
    (rest : List Nat) (ev : JsonEvent) (X : List Nat) (e : Bool)
    (h : nextEvent p buf false = (q, rest, ev))
    (hne : ev ≠ .needMoreInput) :
    nextEvent p (buf ++ X) e = (q, rest ++ X, ev) := by
  rw [nextEvent_eq] at h ⊢
  rcases hr : nextEventRaw p buf false with ⟨q0, r0, ev0⟩
  rw [hr] at h
  simp only [] at h
  injection h with h1 h23
  injection h23 with h2 h3
  subst h3
  subst h1
  subst h2
  have hrx : nextEventRaw p (buf ++ X) e = (q0, r0 ++ X, ev0) := by
    unfold nextEventRaw at hr ⊢
    by_cases ht : p.terminated
    · rw [if_pos ht] at hr ⊢
      cases hr
      rfl
    · rw [if_neg ht] at hr ⊢
      cases hpb : p.pushback with
      | none =>
        rw [hpb] at hr
        simp only [] at hr ⊢
        exact pullLoop_ev_append p buf q0 r0 ev0 X e hr hne
      | some b =>
        rw [hpb] at hr
        simp only [] at hr ⊢
        unfold procPushback at hr ⊢
        rcases hstep : step { p with pushback := Option.none } b
          with ⟨p1, evo⟩
        rw [hstep] at hr
        cases evo with
        | some ev1 =>
          simp only [] at hr ⊢
          cases hr
          rfl
        | none =>
          simp only [] at hr ⊢
          exact pullLoop_ev_append p1 buf q0 r0 ev0 X e hr hne
  rw [hrx]

theorem run_transport (p : PState) (A : List Nat) (q : PState)
    (B : List Nat) (h : nextEvent p A true = nextEvent q B true) (n : Nat) :
    runCalls n p A = runCalls n q B ∧
      termWithin n p A = termWithin n q B := by
  cases n with
  | zero => exact ⟨rfl, rfl⟩
  | succ m => exact ⟨by rw [runCalls, runCalls, h], by
      rw [termWithin, termWithin, h]⟩

theorem runCalls_no_nmi (n : Nat) (p : PState) (buf : List Nat) :
    (runCalls n p buf).filter notNMI = runCalls n p buf := by
  induction n generalizing p buf with
  | zero => rfl
  | succ m ih =>
    rw [runCalls]
    rcases hne : nextEvent p buf true with ⟨p', buf', ev⟩
    have hnmi := nextEvent_true_ne_nmi p buf
    rw [hne] at hnmi
    simp only [] at hnmi ⊢
    have hkeep : notNMI (mkEmitted p' ev) = true := by
      simp [notNMI, mkEmitted, hnmi]
    by_cases hterm : isTerminal ev
    · simp [hterm, List.filter, hkeep]
    · simp [hterm, List.filter, hkeep, ih]

theorem runChunked_nil (n : Nat) (p : PState) (buf : List Nat) :
    runChunked n p buf [] = runCalls n p buf := by
  induction n generalizing p buf with
  | zero => rfl
  | succ m ih =>
    rw [runChunked, runCalls]
    simp only [List.isEmpty_nil]
    rcases hne : nextEvent p buf true with ⟨p', buf', ev⟩
    have hnmi := nextEvent_true_ne_nmi p buf
    rw [hne] at hnmi
    simp only [] at hnmi ⊢
    rw [if_neg hnmi, ih]

theorem runChunked_filter (chunks : List (List Nat)) :
    ∀ (n : Nat) (p : PState) (buf : List Nat),
    termWithin n p (buf ++ chunks.flatten) = true →
    (runChunked (n + chunks.length) p buf chunks).filter notNMI =
      runCalls n p (buf ++ chunks.flatten) := by
  induction chunks with
  | nil =>
    intro n p buf h
    simp only [List.flatten_nil, List.length_nil, List.append_nil,
      Nat.add_zero] at h ⊢
    rw [runChunked_nil]
    exact runCalls_no_nmi n p buf
  | cons c cs ih =>
    intro n
    induction n with
    | zero =>
      intro p buf h
      simp [termWithin] at h
    | succ m ihn =>
      intro p buf h
      have hjoin : (c :: cs).flatten = c ++ cs.flatten := by
        simp
      rcases hne : nextEvent p buf false with ⟨p', buf', ev⟩
      have hlen : (c :: cs).length = cs.length + 1 := by
        simp
      by_cases hnmi : ev = .needMoreInput
      · subst hnmi
        obtain ⟨hb0, hcont⟩ := nextEvent_nmi_cont p buf p' buf' hne
        subst hb0
        have hcall : nextEvent p (buf ++ (c ++ cs.flatten)) true =
            nextEvent p' (c ++ cs.flatten) true := hcont _ true
        have htr := run_transport p (buf ++ (c ++ cs.flatten)) p'
          (c ++ cs.flatten) hcall (m + 1)
        rw [hjoin] at h
        rw [htr.2] at h
        have hmain := ih (m + 1) p' c h
        rw [hlen, Nat.add_succ, runChunked]
        simp only [List.isEmpty_cons]
        rw [hne]
        simp only []
        rw [if_pos trivial]
        have hdrop : notNMI (mkEmitted p' .needMoreInput) = false := by
          simp [notNMI, mkEmitted]
        rw [List.filter_cons_of_neg (by simp [hdrop]), List.nil_append]
        rw [hjoin, htr.1]
        exact hmain
      · have happ := nextEvent_ev_append p buf p' buf' ev (c :: cs).flatten
          true hne hnmi
        rw [hlen, Nat.add_succ, runChunked]
        simp only [List.isEmpty_cons]
        rw [hne]
        simp only []
        rw [if_neg hnmi]
        rw [runCalls, happ]
        simp only []
        have hkeep : notNMI (mkEmitted p' ev) = true := by
          simp [notNMI, mkEmitted, hnmi]
        by_cases hterm : isTerminal ev
        · simp [hterm, List.filter, hkeep]
        · rw [if_neg (by simp [hterm]), if_neg (by simp [hterm])]
          rw [List.filter_cons_of_pos (by simp [hkeep])]
          have h' : termWithin m p' (buf' ++ (c :: cs).flatten) = true := by
            rw [termWithin, happ] at h
            simp only [] at h
            rw [if_neg (by simp [hterm])] at h
            exact h
          have hrec := ihn p' buf' h'
          have hfuel : m + 1 + cs.length = m + (c :: cs).length := by
            rw [hlen]
            omega
          rw [hfuel, hrec]

/-- C1: for every byte sequence (here `chunks.flatten`) and every way of
splitting it into consecutive parts, feeding the parts to the parser
sequentially through a push feeder (refilling on each `NeedMoreInput`,
with the done flag latched after the last part) produces exactly the same
sequence of non-`NeedMoreInput` emissions, values and byte counts
included, as feeding the whole sequence at once — provided the one-shot
run reaches its terminal event within the given number of calls. -/
theorem c1_streaming_equivalence (chunks : List (List Nat)) (p : PState)
    (n : Nat) (h : termWithin n p chunks.flatten = true) :
    (runChunked (n + chunks.length) p [] chunks).filter notNMI =
      runCalls n p chunks.flatten := by
  have hmain := runChunked_filter chunks n p [] (by simpa using h)
  simpa using hmain

/-- Witness for C1 at a concrete input: the object braces fed as two
separate parts give the same filtered emissions as the whole text at
once. -/
theorem c1_streaming_equivalence_witness :
    termWithin 5 (initState false 512)
        ([[0x7B], [0x7D]] : List (List Nat)).flatten = true ∧
    (runChunked (5 + ([[0x7B], [0x7D]] : List (List Nat)).length)
        (initState false 512) [] [[0x7B], [0x7D]]).filter notNMI =
      runCalls 5 (initState false 512)
        ([[0x7B], [0x7D]] : List (List Nat)).flatten :=
  ⟨by decide,
    c1_streaming_equivalence [[0x7B], [0x7D]] (initState false 512) 5
      (by decide)⟩

/-- C4: for every parser state and feeder content, once a call of
`next_event` has returned `Eof` or `Error` (a terminal event), every
subsequent call returns `Error(NoMoreInput)`, whatever bytes are fed
afterwards: the parser never resumes producing payload events. -/
theorem c4_terminal_is_absorbing (p : PState) (buf : List Nat) (e : Bool)
    (h : isTerminal (nextEvent p buf e).2.2 = true) (n : Nat)
    (buf2 : List Nat) (e2 : Bool) :
    keepCalling n (nextEvent p buf e).1 buf2 e2 =
      List.replicate n (.error .noMoreInput) :=
  keepCalling_terminated n _ buf2 e2 (nextEvent_terminal_seals p buf e h)

/-- Witness for C4 at a concrete input: the empty non-streaming input
immediately yields the terminal `Error(NoMoreInput)`, and three further
calls all return `Error(NoMoreInput)`. -/
theorem c4_terminal_is_absorbing_witness :
    isTerminal (nextEvent (initState false 16) [] true).2.2 = true ∧
    keepCalling 3 (nextEvent (initState false 16) [] true).1 [0x31] false =
      List.replicate 3 (.error .noMoreInput) :=
  ⟨by decide,
    c4_terminal_is_absorbing (initState false 16) [] true (by decide) 3
      [0x31] false⟩

/-- The push of a container at full depth: helper fact for C7. -/
theorem step_push_at_full_depth (p : PState) (b : Nat)
    (hs : p.scalar = .none)
    (hm : p.mode = .beforeValue ∨ p.mode = .arrFirst)
    (hb : b = 0x7B ∨ b = 0x5B) (hd : p.stack.length = p.maxDepth) :
    (step p b).2 = some (.error .maxDepthExceeded) := by
  have hnlt : ¬p.stack.length < p.maxDepth := by omega
  rcases hm with hm | hm <;> rcases hb with hb | hb <;>
    simp [step, hs, stepStruct, hm, hb, startValue, vclass, isWs,
      pushFrame, hnlt]

/-- C7: the container-stack depth never exceeds `max_depth`, and the push
that would exceed it fails.  First part: a `next_event` call preserves the
depth bound (and never changes `max_depth`).  Second part: when a value
may start and the byte is `{` or `[` while the stack already holds
`max_depth` frames, the step emits `Error(MaxDepthExceeded)` instead of
`StartObject`/`StartArray`. -/
theorem c7_depth_bounded (p : PState) (buf : List Nat) (e : Bool)
    (b : Nat) :
    (p.stack.length ≤ p.maxDepth →
      (nextEvent p buf e).1.stack.length ≤ (nextEvent p buf e).1.maxDepth ∧
      (nextEvent p buf e).1.maxDepth = p.maxDepth) ∧
    (p.scalar = .none →
      (p.mode = .beforeValue ∨ p.mode = .arrFirst) →
      (b = 0x7B ∨ b = 0x5B) → p.stack.length = p.maxDepth →
      (step p b).2 = some (.error .maxDepthExceeded)) := by
  constructor
  · intro hd
    rw [nextEvent_eq]
    have hr := nextEventRaw_flags p buf e
    have hs := sealState_fields (nextEventRaw p buf e).1
      (nextEventRaw p buf e).2.2
    simp only []
    rw [hs.1, hs.2, hr.1]
    exact ⟨hr.2 hd, rfl⟩
  · exact step_push_at_full_depth p b

/-- Witness for C7 at a concrete input: a parser already one level deep
with `max_depth = 1`; the bound is preserved by the next call, and a `[`
in value position emits `Error(MaxDepthExceeded)`. -/
theorem c7_depth_bounded_witness :
    ((nextEvent ⟨.beforeValue, [.array], .none, [], 1, Option.none, false,
        false, 1⟩ [0x5B] true).1.stack.length ≤
      (nextEvent ⟨.beforeValue, [.array], .none, [], 1, Option.none, false,
        false, 1⟩ [0x5B] true).1.maxDepth ∧
      (nextEvent ⟨.beforeValue, [.array], .none, [], 1, Option.none, false,
        false, 1⟩ [0x5B] true).1.maxDepth = 1) ∧
    (step ⟨.beforeValue, [.array], .none, [], 1, Option.none, false,
        false, 1⟩ 0x5B).2 = some (.error .maxDepthExceeded) := by
  have h := c7_depth_bounded
    ⟨.beforeValue, [.array], .none, [], 1, Option.none, false, false, 1⟩
    [0x5B] true 0x5B
  exact ⟨h.1 (by decide), h.2 rfl (Or.inl rfl) (Or.inr rfl) (by decide)⟩

/-! ## Claim theorems for the concrete scenarios -/

/-- C2 counterexample: with streaming enabled, parsing the S7 input does
not produce the claimed fifteen-event sequence with two consecutive empty
`ValueString` events before `StartObject`; the single `""` token in the
input yields only one `ValueString`. -/
theorem c2_claimed_sequence_refuted :
    (runCalls 100 (initState true defaultMaxDepth) inS7).map Emitted.ev ≠
      [.valueInt, .valueInt, .valueString, .valueString, .startObject,
        .fieldName, .valueString, .endObject, .startArray, .valueString,
        .valueString, .endArray, .valueInt, .valueTrue, .eof] := by
  decide

/-- C2 (amended): with streaming enabled, parsing the S7 input produces
exactly `ValueInt, ValueInt, ValueString(""), StartObject, FieldName,
ValueString, EndObject, StartArray, ValueString, ValueString, EndArray,
ValueInt, ValueTrue, Eof`, matching the `lib.rs` streaming doctest. -/
theorem c2_streaming_scenario :
    runCalls 100 (initState true defaultMaxDepth) inS7 =
      [⟨.valueInt, [0x31], 2⟩, ⟨.valueInt, [0x32], 4⟩,
        ⟨.valueString, [], 5⟩, ⟨.startObject, [], 6⟩,
        ⟨.fieldName, [0x6B, 0x65, 0x79], 11⟩,
        ⟨.valueString, [0x76, 0x61, 0x6C, 0x75, 0x65], 19⟩,
        ⟨.endObject, [], 20⟩, ⟨.startArray, [], 22⟩,
        ⟨.valueString, [0x61], 25⟩, ⟨.valueString, [0x62], 29⟩,
        ⟨.endArray, [], 30⟩, ⟨.valueInt, [0x34], 32⟩,
        ⟨.valueTrue, [], 35⟩, ⟨.eof, [], 35⟩] := by
  decide

/-- C3: parsing `["Elvis", 132, "Max", 80.67]` emits `StartArray,
ValueString, ValueInt, ValueString, ValueFloat, EndArray, Eof`, and
`parsed_bytes` observed immediately after each event is 1, 8, 14, 20, 28,
28, 28. -/
theorem c3_parsed_bytes_mixed_array :
    runCalls 100 (initState false defaultMaxDepth) inS3 =
      [⟨.startArray, [], 1⟩,
        ⟨.valueString, [0x45, 0x6C, 0x76, 0x69, 0x73], 8⟩,
        ⟨.valueInt, [0x31, 0x33, 0x32], 14⟩,
        ⟨.valueString, [0x4D, 0x61, 0x78], 20⟩,
        ⟨.valueFloat, [0x38, 0x30, 0x2E, 0x36, 0x37], 28⟩,
        ⟨.endArray, [], 28⟩, ⟨.eof, [], 28⟩] := by
  decide

/-- C5: for the input consisting of an object opening, key `i`, a colon
and `42`, with the feeder then signalling `Ended`, the parser emits
`StartObject, FieldName, ValueInt(42)` and then `Error(NoMoreInput)`,
because the input ended while the object was still open. -/
theorem c5_premature_end :
    runCalls 100 (initState false defaultMaxDepth) inS6 =
      [⟨.startObject, [], 1⟩, ⟨.fieldName, [0x69], 4⟩,
        ⟨.valueInt, [0x34, 0x32], 7⟩,
        ⟨.error .noMoreInput, [], 7⟩] := by
  decide

/-- C8: for the S4 input, where the byte after the colon is the control
byte `0x02`, the parser emits the events of the preceding tokens and then
`Error(IllegalCharacter)`. -/
theorem c8_illegal_character :
    runCalls 100 (initState false defaultMaxDepth) inS4 =
      [⟨.startObject, [], 1⟩, ⟨.fieldName, [0x6B, 0x65, 0x79], 6⟩,
        ⟨.error .illegalCharacter, [], 8⟩] := by
  decide

/-- C9: a number whose decimal point is not followed by a digit is
rejected: parsing the object with key `n` and value text `-2.` produces
`Error(SyntaxError)` and no `ValueFloat` event. -/
theorem c9_illegal_number :
    runCalls 100 (initState false defaultMaxDepth) inIllegalNumber =
      [⟨.startObject, [], 1⟩, ⟨.fieldName, [0x6E], 4⟩,
        ⟨.error .syntaxError, [], 9⟩] := by
  decide

/-- C10: `parsed_bytes` counts raw input bytes, not decoded characters:
for the object mapping `name` to `Bjœrn` (with `œ` two bytes long) the
checkpoints after `StartObject, FieldName, ValueString, EndObject, Eof`
are 1, 7, 17, 18, 18, and the current value after `ValueString` holds the
multi-byte character intact. -/
theorem c10_utf8_byte_count :
    runCalls 100 (initState false defaultMaxDepth) inUtf8 =
      [⟨.startObject, [], 1⟩,
        ⟨.fieldName, [0x6E, 0x61, 0x6D, 0x65], 7⟩,
        ⟨.valueString, [0x42, 0x6A, 0xC5, 0x93, 0x72, 0x6E], 17⟩,
        ⟨.endObject, [], 18⟩, ⟨.eof, [], 18⟩] := by
  decide

/-- C6: for every parser-accepted JSON document `S`, re-serializing the
emitted event sequence (the data value `v` built from the events, with
the current values attached to the scalar events, written back as JSON
text by `render`) yields a JSON text that the parser again accepts and
that is semantically equal, as a data value, to the input document: it
parses back to exactly the same value `v`. -/
theorem c6_roundtrip (md : Nat) (S : List Nat) (v : Json)
    (hacc : accepted md S = true)
    (hb : buildJson (docEvents (initState false md) S) = some v) :
    buildJson (docEvents (initState false md) (render v)) = some v ∧
      accepted md (render v) = true :=
  renderRoundTrip md v (buildJson_wf md S v hb)

/-- C6 witness: the round trip at a concrete accepted document. -/
theorem c6_roundtrip_witness :
    accepted 1 [0x74, 0x72, 0x75, 0x65] = true ∧
      buildJson (docEvents (initState false 1)
        [0x74, 0x72, 0x75, 0x65]) = some (Json.boolean true) ∧
      (buildJson (docEvents (initState false 1)
          (render (Json.boolean true))) = some (Json.boolean true) ∧
        accepted 1 (render (Json.boolean true)) = true) :=
  ⟨by decide, by rfl,
    c6_roundtrip 1 [0x74, 0x72, 0x75, 0x65] (Json.boolean true)
      (by decide) (by rfl)⟩

end Actson
